import Mathlib

/-!
Verification of the core algorithms of the KidBox / ToddlerBox kiosk
applications: the typing pad's rich-text layout engine (word wrap, visual
lines, sticky-column cursor, undo) and the paint app's stroke renderer
(fountain-pen width smoothing, bucket flood fill, undo/redo history).

Every definition in this file is a shallow embedding of the corresponding
Python function from `src/toddlerbox/typing/app.py` or
`src/toddlerbox/paint/app.py`; the source function is named in each doc
comment.  Python lists become Lean lists, in-place mutation becomes
functional update, and the pygame font/surface collaborators become
explicit function parameters.
-/

namespace ToddlerBox

/-! ## Rich-text data model (`typing/app.py`) -/

/-- `Glyph` dataclass: one styled character of the typing document.
In the source `char` is a one-character `str`; we keep it a `String`
(validity, i.e. length one, is checked at the deserialization boundary
exactly as in the source). -/
structure Glyph where
  char : String
  size : Nat
  style : String
deriving DecidableEq

/-- `_Token` dataclass: a maximal same-character-class run of a logical row.
The Python field `end` is called `stop` here because `end` is a Lean
keyword. -/
structure WrapToken where
  start : Nat
  stop : Nat
  widths : List Nat
  isSpace : Bool
deriving DecidableEq

/-- Python slice `l[a:b]` for `0 ≤ a ≤ b` (as used with list indices here). -/
def pySlice (l : List α) (a b : Nat) : List α :=
  (l.take b).drop a

/-- Python `list.insert(i, x)`: `l[:i] + [x] + l[i:]` (clamping semantics of
slicing, so an index past the end appends). -/
def pyInsert (l : List α) (i : Nat) (x : α) : List α :=
  l.take i ++ [x] ++ l.drop i

/-- The capped `stack.append(x)` + `if len(stack) > cap: stack.pop(0)`
discipline shared by both apps' `_push_undo`. -/
def cappedAppend {α : Type} (cap : Nat) (stack : List α) (x : α) : List α :=
  let stack2 := stack ++ [x]
  if stack2.length > cap then stack2.eraseIdx 0 else stack2

/-! ## `_wrap_tokens` -/

/-- The inner `while j < len(widths) and (acc + widths[j] <= max_width or
acc == 0)` loop of the hard-split branch of `_wrap_tokens`: starting the
scan at index `j` with accumulated width `acc`, returns the index at which
the scan stops. -/
def splitTake (maxWidth : Nat) : List Nat → Nat → Nat → Nat
  | [], _, j => j
  | w :: rest, acc, j =>
    if acc + w ≤ maxWidth ∨ acc = 0 then splitTake maxWidth rest (acc + w) (j + 1)
    else j

theorem splitTake_le (maxWidth : Nat) :
    ∀ (s : List Nat) (acc j : Nat), j ≤ splitTake maxWidth s acc j := by
  intro s
  induction s with
  | nil => intro acc j; rfl
  | cons w rest ih =>
    intro acc j
    rw [splitTake]
    split
    · exact Nat.le_of_succ_le (ih (acc + w) (j + 1))
    · exact Nat.le_refl j

theorem lt_splitTake (maxWidth : Nat) (w : Nat) (rest : List Nat) (j : Nat) :
    j < splitTake maxWidth (w :: rest) 0 j := by
  rw [splitTake, if_pos (Or.inr rfl)]
  exact Nat.lt_of_lt_of_le (Nat.lt_succ_self j) (splitTake_le maxWidth rest (0 + w) (j + 1))

/-- The outer `while i < len(widths)` loop of the hard-split branch of
`_wrap_tokens`: emits `(idx + i, idx + j)` line ranges until the token's
width list is exhausted.  (The inner loop scans `widths[i:]`, i.e.
`widths.drop i`.) -/
def hardSplit (tokenStart : Nat) (widths : List Nat) (maxWidth : Nat) (i : Nat) :
    List (Nat × Nat) :=
  if _h : i < widths.length then
    let j := splitTake maxWidth (widths.drop i) 0 i
    (tokenStart + i, tokenStart + j) :: hardSplit tokenStart widths maxWidth j
  else []
termination_by widths.length - i
decreasing_by
  have hne : widths.drop i ≠ [] := by
    intro hc
    have := List.length_drop i widths ▸ congrArg List.length hc
    simp at this
    omega
  obtain ⟨w, rest, hwr⟩ := List.exists_cons_of_ne_nil hne
  have := hwr ▸ lt_splitTake maxWidth w rest i
  omega

/-- The per-token state of the `_wrap_tokens` loop: emitted lines,
`line_start`, `line_end`, `line_width`. -/
structure WrapState where
  lines : List (Nat × Nat)
  lineStart : Option Nat
  lineStop : Option Nat
  lineWidth : Nat

/-- Flush the open line, mirroring
`if line_start is not None and line_end is not None: lines.append(...)`. -/
def flushLine (st : WrapState) : List (Nat × Nat) :=
  match st.lineStart, st.lineStop with
  | some a, some b => st.lines ++ [(a, b)]
  | _, _ => st.lines

/-- One iteration of the `for token in tokens` loop of `_wrap_tokens`. -/
def wrapStep (maxWidth : Nat) (st : WrapState) (token : WrapToken) : WrapState :=
  let tokenWidth := token.widths.sum
  if tokenWidth ≤ maxWidth then
    if st.lineWidth = 0 then
      { st with lineStart := some token.start, lineStop := some token.stop,
                lineWidth := tokenWidth }
    else if st.lineWidth + tokenWidth ≤ maxWidth then
      { st with lineStop := some token.stop, lineWidth := st.lineWidth + tokenWidth }
    else
      { lines := flushLine st, lineStart := some token.start,
        lineStop := some token.stop, lineWidth := tokenWidth }
  else
    let lines := if st.lineWidth > 0 then flushLine st else st.lines
    { lines := lines ++ hardSplit token.start token.widths maxWidth 0,
      lineStart := none, lineStop := none, lineWidth := 0 }

/-- `_wrap_tokens(tokens, max_width)`: greedily packs tokens into visual
line ranges `(start, end)`. -/
def wrapTokens (tokens : List WrapToken) (maxWidth : Nat) : List (Nat × Nat) :=
  if maxWidth ≤ 0 then []
  else
    let st := tokens.foldl (wrapStep maxWidth) ⟨[], none, none, 0⟩
    if st.lineWidth > 0 then flushLine st else st.lines

/-! ## `_tokenize_row` -/

/-- The body of the `for idx, glyph in enumerate(glyphs)` loop of
`_tokenize_row`; the accumulator is `(tokens, start, current_space)`. -/
def tokenizeStep (isSp : String → Bool) (widths : List Nat)
    (acc : List WrapToken × Nat × Bool) (p : Nat × Glyph) :
    List WrapToken × Nat × Bool :=
  let (tokens, start, currentSpace) := acc
  let (idx, glyph) := p
  if isSp glyph.char ≠ currentSpace then
    (tokens ++ [⟨start, idx, pySlice widths start idx, currentSpace⟩], idx,
      isSp glyph.char)
  else acc

/-- `TypingApp._tokenize_row(glyphs, widths)`: splits a row into maximal
runs of the same is-whitespace character class.  `isSp` models Python's
`str.isspace` on the one-character glyph strings. -/
def tokenizeRow (isSp : String → Bool) (glyphs : List Glyph) (widths : List Nat) :
    List WrapToken :=
  match glyphs with
  | [] => []
  | g :: _ =>
    let (tokens, start, currentSpace) :=
      glyphs.enum.foldl (tokenizeStep isSp widths) ([], 0, isSp g.char)
    tokens ++ [⟨start, glyphs.length, widths.drop start, currentSpace⟩]

/-! ## Slice and chain infrastructure for the wrap proofs -/

theorem pySlice_eq_drop_take (l : List α) (a b : Nat) :
    pySlice l a b = (l.drop a).take (b - a) := by
  simp [pySlice, List.drop_take]

/-- Total glyph-pixel width of the visual-line range `(a, b)` of a row whose
per-glyph widths are `widths`. -/
def sliceSum (widths : List Nat) (a b : Nat) : Nat :=
  (pySlice widths a b).sum

theorem pySlice_append (l : List α) (a b c : Nat) (hab : a ≤ b) (hbc : b ≤ c) :
    pySlice l a b ++ pySlice l b c = pySlice l a c := by
  rw [pySlice_eq_drop_take, pySlice_eq_drop_take, pySlice_eq_drop_take]
  have h1 : c - a = (b - a) + (c - b) := by omega
  rw [h1, List.take_add]
  congr 1
  rw [List.drop_drop]
  congr 2
  omega

theorem sliceSum_append (l : List Nat) (a b c : Nat) (hab : a ≤ b) (hbc : b ≤ c) :
    sliceSum l a b + sliceSum l b c = sliceSum l a c := by
  rw [sliceSum, sliceSum, sliceSum, ← List.sum_append, pySlice_append l a b c hab hbc]

theorem pySlice_length (l : List α) (a b : Nat) (hab : a ≤ b) (hb : b ≤ l.length) :
    (pySlice l a b).length = b - a := by
  rw [pySlice_eq_drop_take]
  simp
  omega

theorem pySlice_pySlice (l : List α) (a b i j : Nat) (hj : a + j ≤ b) :
    pySlice (pySlice l a b) i j = pySlice l (a + i) (a + j) := by
  rw [pySlice_eq_drop_take, pySlice_eq_drop_take, pySlice_eq_drop_take,
    List.drop_take, List.drop_drop, List.take_take]
  congr 1 <;> omega

theorem pySlice_full (l : List α) : pySlice l 0 l.length = l := by
  simp [pySlice]

/-- `TokensChain widths a n ts`: the tokens `ts` tile the half-open column
interval from `a` to `n` contiguously, each token is nonempty, and each
token's width list is the corresponding slice of the row's width list. -/
def TokensChain (widths : List Nat) : Nat → Nat → List WrapToken → Prop
  | a, n, [] => a = n
  | a, n, t :: ts => t.start = a ∧ a < t.stop ∧ t.stop ≤ n ∧
      t.widths = pySlice widths a t.stop ∧ TokensChain widths t.stop n ts

/-- `RangesChain a n rs`: the ranges `rs` tile the half-open interval from
`a` to `n` contiguously, each range nonempty. -/
def RangesChain : Nat → Nat → List (Nat × Nat) → Prop
  | a, n, [] => a = n
  | a, n, r :: rs => r.1 = a ∧ a < r.2 ∧ r.2 ≤ n ∧ RangesChain r.2 n rs

theorem tokensChain_le {widths : List Nat} :
    ∀ {a n : Nat} {ts : List WrapToken}, TokensChain widths a n ts → a ≤ n := by
  intro a n ts
  induction ts generalizing a with
  | nil => intro h; exact Nat.le_of_eq h
  | cons t ts ih =>
    intro h
    obtain ⟨-, h2, h3, -, h5⟩ := h
    omega

theorem rangesChain_le :
    ∀ {a n : Nat} {rs : List (Nat × Nat)}, RangesChain a n rs → a ≤ n := by
  intro a n rs
  induction rs generalizing a with
  | nil => intro h; exact Nat.le_of_eq h
  | cons r rs ih =>
    intro h
    obtain ⟨-, h2, h3, -⟩ := h
    omega

theorem tokensChain_append {widths : List Nat} :
    ∀ {a b n : Nat} {ts us : List WrapToken}, TokensChain widths a b ts →
      TokensChain widths b n us → TokensChain widths a n (ts ++ us) := by
  intro a b n ts us
  induction ts generalizing a with
  | nil => intro h1 h2; cases h1; exact h2
  | cons t ts ih =>
    intro h1 h2
    obtain ⟨e1, e2, e3, e4, e5⟩ := h1
    exact ⟨e1, e2, Nat.le_trans e3 (tokensChain_le h2), e4, ih e5 h2⟩

theorem rangesChain_append :
    ∀ {a b n : Nat} {rs ss : List (Nat × Nat)}, RangesChain a b rs →
      RangesChain b n ss → RangesChain a n (rs ++ ss) := by
  intro a b n rs ss
  induction rs generalizing a with
  | nil => intro h1 h2; cases h1; exact h2
  | cons r rs ih =>
    intro h1 h2
    obtain ⟨e1, e2, e3, e4⟩ := h1
    exact ⟨e1, e2, Nat.le_trans e3 (rangesChain_le h2), ih e4 h2⟩

/-- Concatenating the row slices named by a chain of ranges recovers the
whole slice spanned by the chain. -/
theorem RangesChain.flatten_slices {β : Type} (row : List β) :
    ∀ {a n : Nat} {rs : List (Nat × Nat)}, RangesChain a n rs →
      (rs.map (fun r => pySlice row r.1 r.2)).flatten = pySlice row a n := by
  intro a n rs
  induction rs generalizing a with
  | nil =>
    intro h
    cases h
    simp [pySlice_eq_drop_take]
  | cons r rs ih =>
    intro h
    obtain ⟨e1, e2, e3, e4⟩ := h
    simp only [List.map_cons, List.flatten_cons, ih e4, e1]
    exact pySlice_append row a r.2 n (Nat.le_of_lt e2) e3

/-- Default glyph, used only to totalize list indexing in proofs. -/
def defaultGlyph : Glyph := ⟨"", 0, ""⟩

theorem tokenize_fold_inv (isSp : String → Bool) (widths : List Nat)
    (glyphs : List Glyph) :
    ∀ (gs : List Glyph) (k : Nat) (tokens : List WrapToken) (start : Nat) (cs : Bool),
      glyphs.drop k = gs →
      TokensChain widths 0 start tokens →
      start ≤ k → start < glyphs.length →
      cs = isSp ((glyphs.getD start defaultGlyph).char) →
      (fun res => TokensChain widths 0 res.2.1 res.1 ∧ res.2.1 ≤ k + gs.length ∧
          res.2.1 < glyphs.length ∧
          res.2.2 = isSp ((glyphs.getD res.2.1 defaultGlyph).char))
        ((List.enumFrom k gs).foldl (tokenizeStep isSp widths) (tokens, start, cs)) := by
  intro gs
  induction gs with
  | nil =>
    intro k tokens start cs _ hchain hle hlt hcs
    simp only [List.enumFrom_nil, List.foldl_nil]
    exact ⟨hchain, by simp; omega, hlt, hcs⟩
  | cons g gs ih =>
    intro k tokens start cs hdrop hchain hle hlt hcs
    have hk : k < glyphs.length := by
      by_contra hc
      rw [List.drop_eq_nil_of_le (by omega)] at hdrop
      exact List.noConfusion hdrop
    have hgk : glyphs.getD k defaultGlyph = g := by
      have h1 : (glyphs.drop k).head? = some g := by rw [hdrop]; rfl
      rw [List.head?_drop] at h1
      simp [List.getD_eq_getElem?_getD, h1]
    have hdrop1 : glyphs.drop (k + 1) = gs := by
      have h2 : glyphs.drop (k + 1) = (glyphs.drop k).drop 1 := by
        rw [List.drop_drop]
      rw [h2, hdrop]
      rfl
    rw [List.enumFrom_cons, List.foldl_cons]
    by_cases hflip : isSp g.char ≠ cs
    · rw [tokenizeStep, if_pos hflip]
      have hsk : start < k := by
        rcases Nat.lt_or_ge start k with h | h
        · exact h
        · exfalso
          have heq : start = k := by omega
          rw [heq, hgk] at hcs
          exact hflip hcs.symm
      have hchain2 : TokensChain widths 0 k
          (tokens ++ [⟨start, k, pySlice widths start k, cs⟩]) := by
        refine tokensChain_append hchain ?_
        exact ⟨rfl, hsk, Nat.le_refl k, rfl, rfl⟩
      obtain ⟨h1, h2, h3, h4⟩ := ih (k + 1) _ k (isSp g.char) hdrop1 hchain2
        (Nat.le_succ k) hk (by rw [hgk])
      refine ⟨h1, ?_, h3, h4⟩
      simp only [List.length_cons]
      omega
    · rw [tokenizeStep, if_neg hflip]
      obtain ⟨h1, h2, h3, h4⟩ := ih (k + 1) tokens start cs hdrop1 hchain
        (by omega) hlt hcs
      refine ⟨h1, ?_, h3, h4⟩
      simp only [List.length_cons]
      omega

/-- `_tokenize_row` produces a chain of nonempty tokens tiling the whole
row, each carrying the matching slice of the row's width list. -/
theorem tokenizeRow_chain (isSp : String → Bool) (glyphs : List Glyph)
    (widths : List Nat) (hne : glyphs ≠ [])
    (hw : widths.length = glyphs.length) :
    TokensChain widths 0 glyphs.length (tokenizeRow isSp glyphs widths) := by
  match glyphs, hne with
  | g :: rest, _ =>
    rw [tokenizeRow]
    have h0 : (g :: rest : List Glyph).drop 0 = g :: rest := rfl
    have hinv := tokenize_fold_inv isSp widths (g :: rest) (g :: rest) 0 [] 0
      (isSp g.char) h0 rfl (Nat.le_refl 0) (by simp) (by simp [List.getD])
    set res := (List.enumFrom 0 (g :: rest)).foldl (tokenizeStep isSp widths)
      ([], 0, isSp g.char) with hres
    obtain ⟨hchain, hle, hlt, -⟩ := hinv
    have hfinal : TokensChain widths res.2.1 (g :: rest).length
        [⟨res.2.1, (g :: rest).length, widths.drop res.2.1, res.2.2⟩] := by
      refine ⟨rfl, hlt, Nat.le_refl _, ?_, rfl⟩
      rw [pySlice, ← hw, List.take_length]
    have := tokensChain_append hchain hfinal
    rw [List.enum]
    exact this

/-! ## Characterization of the hard-split loops -/

theorem splitTake_le_add (maxWidth : Nat) :
    ∀ (s : List Nat) (acc j : Nat), splitTake maxWidth s acc j ≤ j + s.length := by
  intro s
  induction s with
  | nil => intro acc j; simp [splitTake]
  | cons w rest ih =>
    intro acc j
    rw [splitTake]
    split
    · have := ih (acc + w) (j + 1)
      simp only [List.length_cons]
      omega
    · simp

theorem splitTake_take_sum (maxWidth : Nat) :
    ∀ (s : List Nat) (acc j : Nat), (∀ w ∈ s, w ≤ maxWidth) → acc ≤ maxWidth →
      acc + (s.take (splitTake maxWidth s acc j - j)).sum ≤ maxWidth := by
  intro s
  induction s with
  | nil => intro acc j _ hacc; simpa [splitTake]
  | cons w rest ih =>
    intro acc j hle hacc
    rw [splitTake]
    by_cases hc : acc + w ≤ maxWidth ∨ acc = 0
    · rw [if_pos hc]
      have hcw : acc + w ≤ maxWidth := by
        rcases hc with h | h
        · exact h
        · rw [h]
          simpa using hle w (List.mem_cons_self w rest)
      have hih := ih (acc + w) (j + 1) (fun x hx => hle x (List.mem_cons_of_mem w hx)) hcw
      have hj : j + 1 ≤ splitTake maxWidth rest (acc + w) (j + 1) :=
        splitTake_le maxWidth rest (acc + w) (j + 1)
      have htk : (w :: rest).take (splitTake maxWidth rest (acc + w) (j + 1) - j)
          = w :: rest.take (splitTake maxWidth rest (acc + w) (j + 1) - (j + 1)) := by
        have h1 : splitTake maxWidth rest (acc + w) (j + 1) - j
            = (splitTake maxWidth rest (acc + w) (j + 1) - (j + 1)) + 1 := by omega
        rw [h1, List.take_succ_cons]
      rw [htk]
      simp only [List.sum_cons]
      omega
    · rw [if_neg hc]
      simpa

theorem hardSplit_chain (tokenStart : Nat) (widths : List Nat) (maxWidth : Nat) :
    ∀ i, i ≤ widths.length →
      RangesChain (tokenStart + i) (tokenStart + widths.length)
        (hardSplit tokenStart widths maxWidth i) := by
  intro i
  induction i using hardSplit.induct tokenStart widths maxWidth with
  | case1 i h j ih =>
    intro _
    rw [hardSplit, dif_pos h]
    have hne : widths.drop i ≠ [] := by
      intro hc
      have hl := congrArg List.length hc
      simp at hl
      omega
    obtain ⟨w, rest, hwr⟩ := List.exists_cons_of_ne_nil hne
    have hij : i < j := by
      have := lt_splitTake maxWidth w rest i
      rw [← hwr] at this
      exact this
    have hjle : j ≤ widths.length := by
      have h1 := splitTake_le_add maxWidth (widths.drop i) 0 i
      have h2 : (widths.drop i).length = widths.length - i := List.length_drop i widths
      simp only [j]
      omega
    exact ⟨rfl, by omega, by omega, ih hjle⟩
  | case2 i h =>
    intro hle
    rw [hardSplit, dif_neg h]
    have : i = widths.length := by omega
    simp [RangesChain, this]

theorem hardSplit_piece_sum (tokenStart : Nat) (widths : List Nat) (maxWidth : Nat)
    (hle : ∀ w ∈ widths, w ≤ maxWidth) :
    ∀ i, ∀ r ∈ hardSplit tokenStart widths maxWidth i,
      ∃ a b, r = (tokenStart + a, tokenStart + b) ∧ a < b ∧ b ≤ widths.length ∧
        (pySlice widths a b).sum ≤ maxWidth := by
  intro i
  induction i using hardSplit.induct tokenStart widths maxWidth with
  | case1 i h j ih =>
    intro r hr
    rw [hardSplit, dif_pos h] at hr
    have hne : widths.drop i ≠ [] := by
      intro hc
      have hl := congrArg List.length hc
      simp at hl
      omega
    obtain ⟨w, rest, hwr⟩ := List.exists_cons_of_ne_nil hne
    have hij : i < j := by
      have := lt_splitTake maxWidth w rest i
      rw [← hwr] at this
      exact this
    have hjle : j ≤ widths.length := by
      have h1 := splitTake_le_add maxWidth (widths.drop i) 0 i
      have h2 : (widths.drop i).length = widths.length - i := List.length_drop i widths
      simp only [j]
      omega
    rcases List.mem_cons.1 hr with hr1 | hr2
    · refine ⟨i, j, hr1, hij, hjle, ?_⟩
      have hsum := splitTake_take_sum maxWidth (widths.drop i) 0 i
        (fun x hx => hle x (List.mem_of_mem_drop hx)) (Nat.zero_le maxWidth)
      rw [pySlice_eq_drop_take]
      simpa using hsum
    · exact ih r hr2
  | case2 i h =>
    intro r hr
    rw [hardSplit, dif_neg h] at hr
    exact absurd hr (List.not_mem_nil r)

/-! ## The wrap loop: tiling and width bounds -/

theorem length_le_sum (l : List Nat) (h : ∀ x ∈ l, 1 ≤ x) : l.length ≤ l.sum := by
  induction l with
  | nil => simp
  | cons x xs ih =>
    simp only [List.length_cons, List.sum_cons]
    have h1 := h x (List.mem_cons_self x xs)
    have h2 := ih (fun y hy => h y (List.mem_cons_of_mem x hy))
    omega

theorem mem_pySlice {α : Type} {x : α} {l : List α} {a b : Nat}
    (h : x ∈ pySlice l a b) : x ∈ l :=
  List.mem_of_mem_take (List.mem_of_mem_drop h)

theorem sliceSum_pos (l : List Nat) (a b : Nat) (hab : a < b) (hb : b ≤ l.length)
    (hpos : ∀ x ∈ l, 1 ≤ x) : 0 < sliceSum l a b := by
  have hlen : (pySlice l a b).length = b - a := pySlice_length l a b (by omega) hb
  have hsum := length_le_sum (pySlice l a b) (fun x hx => hpos x (mem_pySlice hx))
  rw [sliceSum]
  omega

/-- Invariant of the `_wrap_tokens` loop used for the tiling proof: either
no line is open and the emitted ranges tile from `a` to `c`, or an open
nonempty line ends exactly at `c` and the emitted ranges tile up to its
start. -/
def WrapInvT (widths : List Nat) (maxWidth a c : Nat) (st : WrapState) : Prop :=
  (st.lineWidth = 0 ∧ st.lineStart = none ∧ st.lineStop = none ∧
    RangesChain a c st.lines)
  ∨ (∃ ls, st.lineStart = some ls ∧ st.lineStop = some c ∧ ls < c ∧
      st.lineWidth = sliceSum widths ls c ∧ 0 < st.lineWidth ∧
      st.lineWidth ≤ maxWidth ∧ RangesChain a ls st.lines)

theorem wrap_fold_tiling (widths : List Nat) (maxWidth a : Nat)
    (hpos : ∀ w ∈ widths, 1 ≤ w) :
    ∀ (tokens : List WrapToken) (c n : Nat) (st : WrapState),
      TokensChain widths c n tokens → n ≤ widths.length →
      WrapInvT widths maxWidth a c st →
      WrapInvT widths maxWidth a n (tokens.foldl (wrapStep maxWidth) st) := by
  intro tokens
  induction tokens with
  | nil =>
    intro c n st hchain _ hinv
    cases hchain
    exact hinv
  | cons t ts ih =>
    intro c n st hchain hn hinv
    obtain ⟨ht1, ht2, ht3, ht4, ht5⟩ := hchain
    rw [List.foldl_cons]
    refine ih t.stop n _ ht5 hn ?_
    have htw : t.widths.sum = sliceSum widths c t.stop := by rw [ht4]; rfl
    have htwpos : 0 < t.widths.sum := by
      rw [htw]
      exact sliceSum_pos widths c t.stop ht2 (by omega) hpos
    by_cases h1 : t.widths.sum ≤ maxWidth
    · by_cases h2 : st.lineWidth = 0
      · -- open a fresh line holding just this token
        simp only [wrapStep, if_pos h1, if_pos h2]
        refine Or.inr ⟨c, by rw [ht1], by rfl, ht2, by simpa using htw, by simpa using htwpos,
          by simpa using h1, ?_⟩
        rcases hinv with ⟨-, -, -, e3⟩ | ⟨ls, -, -, -, f4, f5, -, -⟩
        · simpa using e3
        · omega
      · rcases hinv with ⟨e0, -, -, -⟩ | ⟨ls, f1, f2, f3, f4, f5, f6, f7⟩
        · exact absurd e0 h2
        by_cases h3 : st.lineWidth + t.widths.sum ≤ maxWidth
        · -- extend the open line through this token
          simp only [wrapStep, if_pos h1, if_neg h2, if_pos h3]
          refine Or.inr ⟨ls, by simpa using f1, by rfl, by omega, ?_, by simp; omega,
            by simpa using h3, by simpa using f7⟩
          simp only
          rw [f4, htw]
          exact sliceSum_append widths ls c t.stop (by omega) (by omega)
        · -- flush the open line, then open a fresh one
          simp only [wrapStep, if_pos h1, if_neg h2, if_neg h3]
          refine Or.inr ⟨c, by rw [ht1], by rfl, ht2, by simpa using htw,
            by simpa using htwpos, by simpa using h1, ?_⟩
          simp only [flushLine, f1, f2]
          exact rangesChain_append f7 ⟨rfl, f3, Nat.le_refl c, rfl⟩
    · -- over-wide token: flush, then hard-split the token
      simp only [wrapStep, if_neg h1]
      have hflushed : RangesChain a c
          (if st.lineWidth > 0 then flushLine st else st.lines) := by
        rcases hinv with ⟨e0, -, -, e3⟩ | ⟨ls, f1, f2, f3, f4, f5, f6, f7⟩
        · rw [if_neg (by omega)]
          exact e3
        · rw [if_pos f5]
          simp only [flushLine, f1, f2]
          exact rangesChain_append f7 ⟨rfl, f3, Nat.le_refl c, rfl⟩
      have hlen : t.widths.length = t.stop - c := by
        rw [ht4]
        exact pySlice_length widths c t.stop (by omega) (by omega)
      have hhs := hardSplit_chain t.start t.widths maxWidth 0 (Nat.zero_le _)
      have he1 : t.start + 0 = c := by omega
      have he2 : t.start + t.widths.length = t.stop := by rw [hlen, ht1]; omega
      rw [he1, he2] at hhs
      exact Or.inl ⟨rfl, rfl, rfl, rangesChain_append hflushed hhs⟩

/-- `_wrap_tokens` on a chain of nonempty tokens (all glyph widths positive)
produces visual-line ranges tiling the whole row. -/
theorem wrapTokens_chain (widths : List Nat) (maxWidth : Nat) (hmw : 0 < maxWidth)
    (hpos : ∀ w ∈ widths, 1 ≤ w) (tokens : List WrapToken) (n : Nat)
    (hchain : TokensChain widths 0 n tokens) (hn : n ≤ widths.length) :
    RangesChain 0 n (wrapTokens tokens maxWidth) := by
  rw [wrapTokens, if_neg (by omega)]
  have hinv := wrap_fold_tiling widths maxWidth 0 hpos tokens 0 n
    ⟨[], none, none, 0⟩ hchain hn (Or.inl ⟨rfl, rfl, rfl, rfl⟩)
  rcases hinv with ⟨e0, -, -, e3⟩ | ⟨ls, f1, f2, f3, f4, f5, f6, f7⟩
  · rw [if_neg (by omega)]
    exact e3
  · rw [if_pos (by omega)]
    simp only [flushLine, f1, f2]
    exact rangesChain_append f7 ⟨rfl, f3, Nat.le_refl n, rfl⟩

theorem mem_flushLine (st : WrapState) (r : Nat × Nat) (hr : r ∈ flushLine st) :
    r ∈ st.lines ∨ ∃ ls le, st.lineStart = some ls ∧ st.lineStop = some le ∧
      r = (ls, le) := by
  rw [flushLine] at hr
  rcases h1 : st.lineStart with - | ls <;> rcases h2 : st.lineStop with - | le <;>
    rw [h1, h2] at hr
  · exact Or.inl hr
  · exact Or.inl hr
  · exact Or.inl hr
  · rcases List.mem_append.1 hr with h | h
    · exact Or.inl h
    · exact Or.inr ⟨ls, le, rfl, rfl, by simpa using h⟩

/-- Invariant of the `_wrap_tokens` loop used for the width-bound proof. -/
def WrapInvB (widths : List Nat) (maxWidth c : Nat) (st : WrapState) : Prop :=
  (∀ r ∈ st.lines, sliceSum widths r.1 r.2 ≤ maxWidth) ∧
  (∀ ls, st.lineStart = some ls → ∃ le, st.lineStop = some le ∧
    ls ≤ le ∧ le = c ∧ sliceSum widths ls le = st.lineWidth ∧
      st.lineWidth ≤ maxWidth)

theorem wrap_fold_bound (widths : List Nat) (maxWidth : Nat)
    (hle : ∀ w ∈ widths, w ≤ maxWidth) :
    ∀ (tokens : List WrapToken) (c n : Nat) (st : WrapState),
      TokensChain widths c n tokens →
      WrapInvB widths maxWidth c st →
      WrapInvB widths maxWidth n (tokens.foldl (wrapStep maxWidth) st) := by
  intro tokens
  induction tokens with
  | nil =>
    intro c n st hchain hinv
    cases hchain
    exact hinv
  | cons t ts ih =>
    intro c n st hchain hinv
    obtain ⟨ht1, ht2, ht3, ht4, ht5⟩ := hchain
    obtain ⟨hb1, hb2⟩ := hinv
    rw [List.foldl_cons]
    refine ih t.stop n _ ht5 ?_
    have htw : t.widths.sum = sliceSum widths c t.stop := by rw [ht4]; rfl
    have hfl : ∀ r ∈ flushLine st, sliceSum widths r.1 r.2 ≤ maxWidth := by
      intro r hr
      rcases mem_flushLine st r hr with h | ⟨ls, le, hls, hle2, hrr⟩
      · exact hb1 r h
      · obtain ⟨le2, hstop, -, -, g3, g4⟩ := hb2 ls hls
        rw [hle2] at hstop
        simp only [Option.some.injEq] at hstop
        rw [← hstop] at g3
        rw [hrr, g3]
        exact g4
    by_cases h1 : t.widths.sum ≤ maxWidth
    · by_cases h2 : st.lineWidth = 0
      · simp only [wrapStep, if_pos h1, if_pos h2]
        refine ⟨hb1, ?_⟩
        intro ls hls
        simp only [Option.some.injEq] at hls
        refine ⟨t.stop, rfl, ?_, rfl, ?_, h1⟩
        · rw [← hls, ht1]; omega
        · rw [← hls, ht1]
          exact htw.symm
      · by_cases h3 : st.lineWidth + t.widths.sum ≤ maxWidth
        · simp only [wrapStep, if_pos h1, if_neg h2, if_pos h3]
          refine ⟨hb1, ?_⟩
          intro ls hls
          obtain ⟨le, hstop, g1, g2, g3, g4⟩ := hb2 ls hls
          refine ⟨t.stop, rfl, by omega, rfl, ?_, h3⟩
          rw [← sliceSum_append widths ls c t.stop (by omega) (Nat.le_of_lt ht2),
            ← g2, g3, htw, g2]
        · simp only [wrapStep, if_pos h1, if_neg h2, if_neg h3]
          refine ⟨hfl, ?_⟩
          intro ls hls
          simp only [Option.some.injEq] at hls
          refine ⟨t.stop, rfl, ?_, rfl, ?_, h1⟩
          · rw [← hls, ht1]; omega
          · rw [← hls, ht1]
            exact htw.symm
    · simp only [wrapStep, if_neg h1]
      refine ⟨?_, by simp⟩
      intro r hr
      rcases List.mem_append.1 hr with h | h
      · split at h
        · exact hfl r h
        · exact hb1 r h
      · have hlew : ∀ w ∈ t.widths, w ≤ maxWidth := by
          intro w hw
          rw [ht4] at hw
          exact hle w (mem_pySlice hw)
        obtain ⟨a, b, hab, hab2, hab3, hab4⟩ :=
          hardSplit_piece_sum t.start t.widths maxWidth hlew 0 r h
        rw [hab, ht1]
        have hsub : pySlice t.widths a b = pySlice widths (c + a) (c + b) := by
          rw [ht4, pySlice_pySlice]
          have hlen : t.widths.length ≤ t.stop - c := by
            rw [ht4, pySlice_eq_drop_take]
            simp
          omega
        rw [sliceSum, ← hsub]
        exact hab4

/-- Every visual-line range produced by `_wrap_tokens` has total glyph
width at most `max_width`, provided every single glyph fits in
`max_width`. -/
theorem wrapTokens_width_le (widths : List Nat) (maxWidth : Nat)
    (hle : ∀ w ∈ widths, w ≤ maxWidth) (tokens : List WrapToken) (n : Nat)
    (hchain : TokensChain widths 0 n tokens) :
    ∀ r ∈ wrapTokens tokens maxWidth, sliceSum widths r.1 r.2 ≤ maxWidth := by
  rw [wrapTokens]
  by_cases hmw : maxWidth ≤ 0
  · rw [if_pos hmw]
    intro r hr
    exact absurd hr (List.not_mem_nil r)
  · rw [if_neg hmw]
    have hinv := wrap_fold_bound widths maxWidth hle tokens 0 n
      ⟨[], none, none, 0⟩ hchain ⟨by simp, by simp⟩
    obtain ⟨hb1, hb2⟩ := hinv
    intro r hr
    set stf := tokens.foldl (wrapStep maxWidth) ⟨[], none, none, 0⟩ with hst
    by_cases hw : stf.lineWidth > 0
    · rw [if_pos hw] at hr
      rcases mem_flushLine stf r hr with h | ⟨ls, le, hls, hle2, hrr⟩
      · exact hb1 r h
      · obtain ⟨le2, hstop, -, -, g3, g4⟩ := hb2 ls hls
        rw [hle2] at hstop
        simp only [Option.some.injEq] at hstop
        rw [← hstop] at g3
        rw [hrr, g3]
        exact g4
    · rw [if_neg hw] at hr
      exact hb1 r hr

/-! ## Typing app state and operations -/

/-- `EditOp` dataclass: an undo record of the typing app. -/
structure EditOp where
  kind : String
  row : Nat
  col : Nat
  glyph : Option Glyph := none
  newline : Bool := false
  cursorRow : Nat := 0
  cursorCol : Nat := 0
deriving DecidableEq

/-- `RecallSession` dataclass. -/
structure RecallSession where
  label : String
  preview : String
  richLines : List (List Glyph)
  isCurrent : Bool := false
deriving DecidableEq

/-- `VisualLine` dataclass. -/
structure VisualLine where
  row : Nat
  startCol : Nat
  endCol : Nat
  glyphs : List Glyph
  widths : List Nat
  height : Nat
deriving DecidableEq

def defaultVisualLine : VisualLine := ⟨0, 0, 0, [], [], 0⟩

/-- The pygame font and geometry collaborators of `TypingApp`, passed
explicitly: `isSp` models `str.isspace` on one-character strings,
`measure g` models `self._get_font(g.size, g.style).size(g.char)[0]`,
`fontHeight size style` models `self._get_font(size, style).get_height()`,
and the rect fields model `self.text_rect.width` and `.height`. -/
structure TypingEnv where
  isSp : String → Bool
  measure : Glyph → Nat
  fontHeight : Nat → String → Nat
  textRectWidth : Nat
  textRectHeight : Nat

/-- The document-related state of `TypingApp` (the fields of `__init__`
that the text engine reads and writes). -/
structure TypingState where
  richLines : List (List Glyph)
  lineStyles : List (Nat × String)
  textLines : List String
  undoStack : List EditOp
  cursorRow : Nat
  cursorCol : Nat
  cursorXTarget : Option Nat
  cursorXTargetDirty : Bool
  currentTextSize : Nat
  textStyle : String
  textScrollY : Nat

/-- `UNDO_MAX_DEPTH` of `typing/app.py`. -/
def typingUndoMaxDepth : Nat := 20

/-- `self.default_line_style`; `self.default_text_size` is 25. -/
def defaultLineStyle : Nat × String := (25, "plain")

/-- `self.rich_lines[r]` (totalized; in-range under the well-formedness
invariant, where Python would raise `IndexError` otherwise). -/
def rowAt (s : TypingState) (r : Nat) : List Glyph :=
  s.richLines.getD r []

/-- `TypingApp._line_text`. -/
def lineText (line : List Glyph) : String :=
  String.join (line.map (fun g => g.char))

/-- `TypingApp._sync_text_line`. -/
def syncTextLine (s : TypingState) (row : Nat) : TypingState :=
  { s with textLines := s.textLines.set row (lineText (rowAt s row)) }

/-- `TypingApp._sync_all_text_lines`. -/
def syncAllTextLines (s : TypingState) : TypingState :=
  let textLines := s.richLines.map lineText
  if textLines.isEmpty then
    { s with textLines := [""], richLines := [[]], lineStyles := [defaultLineStyle] }
  else
    let nextStyles := s.richLines.enum.map (fun p =>
      match p.2.getLast? with
      | some last => (last.size, last.style)
      | none =>
        if p.1 < s.lineStyles.length then s.lineStyles.getD p.1 defaultLineStyle
        else defaultLineStyle)
    { s with textLines := textLines, lineStyles := nextStyles }

/-- `TypingApp._push_undo`. -/
def typingPushUndo (s : TypingState) (op : EditOp) : TypingState :=
  { s with undoStack := cappedAppend typingUndoMaxDepth s.undoStack op }

/-- `TypingApp._insert_newline_at`. -/
def insertNewlineAt (s : TypingState) (row col : Nat) : TypingState :=
  let line := rowAt s row
  let left := line.take col
  let right := line.drop col
  let richLines := pyInsert (s.richLines.set row left) (row + 1) right
  let lineStyles :=
    match left.getLast? with
    | some g => s.lineStyles.set row (g.size, g.style)
    | none => s.lineStyles
  let rightStyle :=
    match right.getLast? with
    | some g => (g.size, g.style)
    | none => (s.currentTextSize, s.textStyle)
  let lineStyles := pyInsert lineStyles (row + 1) rightStyle
  let textLines := pyInsert (s.textLines.set row (lineText left)) (row + 1)
    (lineText right)
  { s with richLines := richLines, lineStyles := lineStyles, textLines := textLines }

/-- `TypingApp._remove_newline_at`. -/
def removeNewlineAt (s : TypingState) (row : Nat) : TypingState :=
  if row + 1 ≥ s.richLines.length then s
  else
    let merged := rowAt s row ++ rowAt s (row + 1)
    let richLines := (s.richLines.set row merged).eraseIdx (row + 1)
    let lineStyles :=
      if s.lineStyles.length > row + 1 then s.lineStyles.eraseIdx (row + 1)
      else s.lineStyles
    let lineStyles :=
      match merged.getLast? with
      | some g => lineStyles.set row (g.size, g.style)
      | none => lineStyles
    let textLines := (s.textLines.set row (lineText merged)).eraseIdx (row + 1)
    { s with richLines := richLines, lineStyles := lineStyles, textLines := textLines }

/-- `TypingApp._insert_glyph_at` (the source inserts a fresh `Glyph` copy;
copying is the identity on immutable values). -/
def insertGlyphAt (s : TypingState) (row col : Nat) (glyph : Glyph) : TypingState :=
  let newRow := pyInsert (rowAt s row) col ⟨glyph.char, glyph.size, glyph.style⟩
  let s1 := { s with richLines := s.richLines.set row newRow,
                     lineStyles := s.lineStyles.set row (glyph.size, glyph.style) }
  syncTextLine s1 row

/-- `TypingApp._remove_glyph_at` (`col : Nat`, so the `col < 0` guard of the
source is vacuous). -/
def removeGlyphAt (s : TypingState) (row col : Nat) : TypingState × Option Glyph :=
  let line := rowAt s row
  if col ≥ line.length then (s, none)
  else
    let removed := line.getD col defaultGlyph
    let s1 := { s with richLines := s.richLines.set row (line.eraseIdx col) }
    (syncTextLine s1 row, some removed)

/-- `TypingApp._mark_cursor_x_target_dirty`. -/
def markCursorXTargetDirty (s : TypingState) : TypingState :=
  { s with cursorXTargetDirty := true }

/-- `TypingApp._insert_char`. -/
def insertChar (s : TypingState) (char : String) : TypingState :=
  if char = "\n" then
    let op : EditOp := { kind := "insert", row := s.cursorRow, col := s.cursorCol,
                         newline := true, cursorRow := s.cursorRow,
                         cursorCol := s.cursorCol }
    let s1 := insertNewlineAt s s.cursorRow s.cursorCol
    let s2 := { s1 with cursorRow := s1.cursorRow + 1, cursorCol := 0 }
    markCursorXTargetDirty (typingPushUndo s2 op)
  else
    let glyph : Glyph := ⟨char, s.currentTextSize, s.textStyle⟩
    let op : EditOp := { kind := "insert", row := s.cursorRow, col := s.cursorCol,
                         glyph := some ⟨glyph.char, glyph.size, glyph.style⟩,
                         cursorRow := s.cursorRow, cursorCol := s.cursorCol }
    let s1 := insertGlyphAt s s.cursorRow s.cursorCol glyph
    let s2 := { s1 with cursorCol := s1.cursorCol + 1 }
    markCursorXTargetDirty (typingPushUndo s2 op)

/-- `TypingApp._delete_backward`: returns the updated state and the edit
record (which the key handler pushes). -/
def deleteBackward (s : TypingState) : TypingState × Option EditOp :=
  if s.cursorRow = 0 ∧ s.cursorCol = 0 then (s, none)
  else if 0 < s.cursorCol then
    match removeGlyphAt s s.cursorRow (s.cursorCol - 1) with
    | (s1, none) => (s1, none)
    | (s1, some removed) =>
      let op : EditOp := { kind := "delete", row := s.cursorRow,
                           col := s.cursorCol - 1,
                           glyph := some ⟨removed.char, removed.size, removed.style⟩,
                           cursorRow := s.cursorRow, cursorCol := s.cursorCol }
      (markCursorXTargetDirty { s1 with cursorCol := s1.cursorCol - 1 }, some op)
  else
    let prevLen := (rowAt s (s.cursorRow - 1)).length
    let op : EditOp := { kind := "delete", row := s.cursorRow - 1, col := prevLen,
                         newline := true, cursorRow := s.cursorRow,
                         cursorCol := s.cursorCol }
    let s1 := removeNewlineAt s (s.cursorRow - 1)
    (markCursorXTargetDirty
      { s1 with cursorRow := s1.cursorRow - 1, cursorCol := prevLen }, some op)

/-- The `K_BACKSPACE` branch of the event loop:
`op = self._delete_backward(); if op: self._push_undo(op)`. -/
def backspaceKey (s : TypingState) : TypingState :=
  match deleteBackward s with
  | (s1, some op) => typingPushUndo s1 op
  | (s1, none) => s1

/-- `TypingApp._undo`. -/
def typingUndo (s : TypingState) : TypingState :=
  match s.undoStack.getLast? with
  | none => s
  | some op =>
    let s1 := { s with undoStack := s.undoStack.dropLast }
    let s2 :=
      if op.kind = "insert" then
        if op.newline then removeNewlineAt s1 op.row
        else (removeGlyphAt s1 op.row op.col).1
      else
        if op.newline then insertNewlineAt s1 op.row op.col
        else
          match op.glyph with
          | some g => insertGlyphAt s1 op.row op.col g
          | none => s1
    markCursorXTargetDirty
      { s2 with cursorRow := op.cursorRow, cursorCol := op.cursorCol }

/-- `TypingApp._clear_text`. -/
def clearText (s : TypingState) : TypingState :=
  { s with richLines := [[]], lineStyles := [defaultLineStyle], textLines := [""],
           undoStack := [], cursorRow := 0, cursorCol := 0,
           cursorXTarget := some 0, cursorXTargetDirty := false, textScrollY := 0 }

/-- `TypingApp._move_cursor_left`. -/
def moveCursorLeft (s : TypingState) : TypingState :=
  if 0 < s.cursorCol then
    markCursorXTargetDirty { s with cursorCol := s.cursorCol - 1 }
  else if 0 < s.cursorRow then
    markCursorXTargetDirty
      { s with cursorRow := s.cursorRow - 1,
               cursorCol := (rowAt s (s.cursorRow - 1)).length }
  else s

/-- `TypingApp._move_cursor_right`. -/
def moveCursorRight (s : TypingState) : TypingState :=
  let line := rowAt s s.cursorRow
  if s.cursorCol < line.length then
    markCursorXTargetDirty { s with cursorCol := s.cursorCol + 1 }
  else if s.cursorRow < s.richLines.length - 1 then
    markCursorXTargetDirty { s with cursorRow := s.cursorRow + 1, cursorCol := 0 }
  else s

/-- `TypingApp._move_cursor_up` (logical; unused by arrow keys, which use
the visual variant, but part of the state API). -/
def moveCursorUp (s : TypingState) : TypingState :=
  if s.cursorRow = 0 then s
  else
    let row := s.cursorRow - 1
    { s with cursorRow := row, cursorCol := min s.cursorCol (rowAt s row).length }

/-- `TypingApp._move_cursor_down` (logical). -/
def moveCursorDown (s : TypingState) : TypingState :=
  if s.cursorRow ≥ s.richLines.length - 1 then s
  else
    let row := s.cursorRow + 1
    { s with cursorRow := row, cursorCol := min s.cursorCol (rowAt s row).length }

/-- `TypingApp._move_cursor_home`. -/
def moveCursorHome (s : TypingState) : TypingState :=
  markCursorXTargetDirty { s with cursorCol := 0 }

/-- `TypingApp._move_cursor_end`. -/
def moveCursorEnd (s : TypingState) : TypingState :=
  markCursorXTargetDirty { s with cursorCol := (rowAt s s.cursorRow).length }

/-- `TypingApp._move_cursor_page_up`. -/
def moveCursorPageUp (s : TypingState) (lines : Nat) : TypingState :=
  if s.cursorRow = 0 then s
  else
    let row := s.cursorRow - lines
    { s with cursorRow := row, cursorCol := min s.cursorCol (rowAt s row).length }

/-- `TypingApp._move_cursor_page_down`. -/
def moveCursorPageDown (s : TypingState) (lines : Nat) : TypingState :=
  if s.cursorRow ≥ s.richLines.length - 1 then s
  else
    let row := min (s.richLines.length - 1) (s.cursorRow + lines)
    { s with cursorRow := row, cursorCol := min s.cursorCol (rowAt s row).length }

/-- `TypingApp._apply_recall`, taking the selected `RecallSession` item. -/
def applyRecall (s : TypingState) (item : RecallSession) : TypingState :=
  if item.isCurrent then s
  else
    let cloned := item.richLines.map
      (fun line => line.map (fun g => (⟨g.char, g.size, g.style⟩ : Glyph)))
    let s1 := syncAllTextLines { s with richLines := cloned }
    let row := s1.richLines.length - 1
    { s1 with undoStack := [], cursorRow := row,
              cursorCol := if s1.richLines ≠ [] then (rowAt s1 row).length else 0,
              cursorXTarget := none, cursorXTargetDirty := true, textScrollY := 0 }

/-! ## Visual layout and cursor resolution -/

/-- `self.line_gap` (6 in `__init__`). -/
def lineGap : Nat := 6

/-- `self.text_pad_x` (24 in `__init__`). -/
def textPadX : Nat := 24

/-- `self.text_pad_top` (20 in `__init__`). -/
def textPadTop : Nat := 20

/-- `TypingApp._line_font_height`.  Python's `max` over a nonempty
generator is modelled with `foldl max 0` (heights are nonnegative). -/
def lineFontHeight (env : TypingEnv) (s : TypingState) (row : Nat)
    (forCursorRow : Bool) : Nat :=
  match rowAt s row with
  | [] =>
    if forCursorRow then env.fontHeight s.currentTextSize s.textStyle
    else
      let st := s.lineStyles.getD row defaultLineStyle
      env.fontHeight st.1 st.2
  | line => (line.map (fun g => env.fontHeight g.size g.style)).foldl max 0

/-- `TypingApp._visual_line_height`. -/
def visualLineHeight (env : TypingEnv) (s : TypingState) (row : Nat)
    (glyphs : List Glyph) : Nat :=
  match glyphs with
  | [] => lineFontHeight env s row (decide (row = s.cursorRow))
  | gs => (gs.map (fun g => env.fontHeight g.size g.style)).foldl max 0

/-- `max(1, self.text_rect.width - self.text_pad_x * 2)` from
`_build_visual_lines` (natural subtraction truncates at zero just like
Python's `max(1, ...)` guards a negative difference). -/
def wrapMaxWidth (env : TypingEnv) : Nat :=
  max 1 (env.textRectWidth - textPadX * 2)

/-- `TypingApp._build_visual_lines`. -/
def buildVisualLines (env : TypingEnv) (s : TypingState) : List VisualLine :=
  let maxWidth := wrapMaxWidth env
  let lines := s.richLines.enum.flatMap (fun p =>
    let rowIdx := p.1
    let row := p.2
    if row = [] then
      [{ row := rowIdx, startCol := 0, endCol := 0, glyphs := [], widths := [],
         height := visualLineHeight env s rowIdx [] }]
    else
      let rowWidths := row.map env.measure
      let tokens := tokenizeRow env.isSp row rowWidths
      let ranges := wrapTokens tokens maxWidth
      ranges.map (fun r =>
        let glyphs := pySlice row r.1 r.2
        { row := rowIdx, startCol := r.1, endCol := r.2, glyphs := glyphs,
          widths := pySlice rowWidths r.1 r.2,
          height := visualLineHeight env s rowIdx glyphs }))
  if lines = [] then
    [{ row := s.cursorRow, startCol := 0, endCol := 0, glyphs := [], widths := [],
       height := visualLineHeight env s s.cursorRow [] }]
  else lines

/-- `TypingApp._cursor_x_offset_in_line`. -/
def cursorXOffsetInLine (line : VisualLine) (cursorCol : Nat) : Nat :=
  if line.widths = [] then 0
  else if cursorCol ≤ line.startCol then 0
  else if cursorCol ≥ line.endCol then line.widths.sum
  else (line.widths.take (cursorCol - line.startCol)).sum

/-- The `for idx, line in enumerate(lines)` loop of
`TypingApp._cursor_visual_info`; `first` is `lines[0]`, used by the
fallback when no visual line matched, and the look-ahead `lines[idx + 1]`
is the head of the remaining list. -/
def cursorVisualInfoGo (s : TypingState) (first : VisualLine) :
    List VisualLine → Nat → Nat → Option (Nat × Nat × VisualLine) →
      Nat × Nat × Nat × Nat
  | [], _, _, fallback =>
    match fallback with
    | some (fi, fy, fl) =>
      (fi, fy, fl.height, cursorXOffsetInLine fl (min s.cursorCol fl.endCol))
    | none =>
      (0, 0, first.height, cursorXOffsetInLine first (min s.cursorCol first.endCol))
  | line :: rest, idx, contentY, fallback =>
    if line.row = s.cursorRow then
      let fallback := if fallback.isNone then some (idx, contentY, line) else fallback
      if s.cursorCol < line.startCol ∨ s.cursorCol > line.endCol then
        cursorVisualInfoGo s first rest (idx + 1) (contentY + line.height + lineGap)
          fallback
      else
        let skipToNext : Bool :=
          match rest.head? with
          | some nextLine =>
            s.cursorCol = line.endCol ∧ line.glyphs ≠ [] ∧
              nextLine.row = s.cursorRow ∧ nextLine.startCol = s.cursorCol
          | none => False
        if skipToNext then
          cursorVisualInfoGo s first rest (idx + 1) (contentY + line.height + lineGap)
            fallback
        else
          (idx, contentY, line.height, cursorXOffsetInLine line s.cursorCol)
    else
      cursorVisualInfoGo s first rest (idx + 1) (contentY + line.height + lineGap)
        fallback

/-- `TypingApp._cursor_visual_info`.  `_build_visual_lines` never returns
an empty list, so the `[]` case (where Python would raise on
`lines[fallback_idx]`) is a junk value. -/
def cursorVisualInfo (s : TypingState) (lines : List VisualLine) :
    Nat × Nat × Nat × Nat :=
  match lines with
  | [] => (0, 0, 0, 0)
  | first :: _ => cursorVisualInfoGo s first lines 0 0 none

/-- `TypingApp._view_height`: `max(1, self.text_rect.height - (self.text_pad_top + 20))`. -/
def viewHeight (env : TypingEnv) : Nat :=
  max 1 (env.textRectHeight - (textPadTop + 20))

/-- `TypingApp._content_height`. -/
def contentHeight (lines : List VisualLine) : Nat :=
  if lines = [] then 0
  else (lines.map (fun l => l.height + lineGap)).sum - lineGap

/-- `TypingApp._ensure_cursor_visible` (the `max(0, ...)` clamps are
implicit in natural subtraction). -/
def ensureCursorVisible (env : TypingEnv) (s : TypingState)
    (lines : List VisualLine) (cursorInfo : Nat × Nat × Nat × Nat) : TypingState :=
  let vh := viewHeight env
  let ch := contentHeight lines
  let maxScroll := ch - vh
  if ch ≤ vh then { s with textScrollY := 0 }
  else
    let cursorTop := cursorInfo.2.1
    let cursorH := cursorInfo.2.2.1
    let viewTop := s.textScrollY
    let viewBottom := viewTop + vh
    let cursorBottom := cursorTop + cursorH
    let scroll :=
      if cursorBottom > viewBottom then cursorBottom - vh
      else if cursorTop < viewTop then cursorTop
      else s.textScrollY
    { s with textScrollY := min maxScroll scroll }

/-- `TypingApp._maybe_update_cursor_x_target`. -/
def maybeUpdateCursorXTarget (s : TypingState)
    (cursorInfo : Nat × Nat × Nat × Nat) : TypingState :=
  if s.cursorXTarget.isNone ∨ s.cursorXTargetDirty then
    { s with cursorXTarget := some cursorInfo.2.2.2, cursorXTargetDirty := false }
  else s

/-- The scan loop of `TypingApp._col_for_x`.  All quantities are integers,
so the float test `target_x <= x + (width / 2)` is modelled exactly as
`2 * target_x <= 2 * x + width`. -/
def colForXGo (startCol endCol targetX : Nat) : List Nat → Nat → Nat → Nat
  | [], _, _ => endCol
  | w :: rest, idx, x =>
    if 2 * targetX ≤ 2 * x + w then startCol + idx
    else colForXGo startCol endCol targetX rest (idx + 1) (x + w)

/-- `TypingApp._col_for_x`. -/
def colForX (line : VisualLine) (targetX : Nat) : Nat :=
  if line.widths = [] then line.startCol
  else colForXGo line.startCol line.endCol targetX line.widths 0 0

/-- `TypingApp._move_cursor_up_visual`. -/
def moveCursorUpVisual (s : TypingState) (lines : List VisualLine) : TypingState :=
  if lines = [] then s
  else
    let info := cursorVisualInfo s lines
    let idx := info.1
    let xOffset := info.2.2.2
    let s1 := if s.cursorXTarget.isNone then { s with cursorXTarget := some xOffset }
              else s
    if idx = 0 then s1
    else
      let target := lines.getD (idx - 1) defaultVisualLine
      { s1 with cursorRow := target.row,
                cursorCol := colForX target (s1.cursorXTarget.getD 0) }

/-- `TypingApp._move_cursor_down_visual`. -/
def moveCursorDownVisual (s : TypingState) (lines : List VisualLine) : TypingState :=
  if lines = [] then s
  else
    let info := cursorVisualInfo s lines
    let idx := info.1
    let xOffset := info.2.2.2
    let s1 := if s.cursorXTarget.isNone then { s with cursorXTarget := some xOffset }
              else s
    if idx ≥ lines.length - 1 then s1
    else
      let target := lines.getD (idx + 1) defaultVisualLine
      { s1 with cursorRow := target.row,
                cursorCol := colForX target (s1.cursorXTarget.getD 0) }

/-- `TypingApp._line_step`. -/
def lineStep (s : TypingState) : Nat := s.currentTextSize + lineGap

/-- `TypingApp._lines_per_page`. -/
def linesPerPage (env : TypingEnv) (s : TypingState) : Nat :=
  max 1 (viewHeight env / lineStep s)

/-- `TypingApp._set_text_font` with a size. -/
def setTextSize (s : TypingState) (size : Nat) : TypingState :=
  { s with currentTextSize := size }

/-- `TypingApp._set_text_font` with a style. -/
def setTextStyle (s : TypingState) (style : String) : TypingState :=
  { s with textStyle := style }

/-- The state-mutating part of `TypingApp._render`: build the visual lines,
compute the cursor's visual position, refresh the sticky-column target when
it is dirty, and scroll the cursor into view. -/
def renderUpdate (env : TypingEnv) (s : TypingState) : TypingState :=
  let lines := buildVisualLines env s
  let info := cursorVisualInfo s lines
  let s1 := maybeUpdateCursorXTarget s info
  ensureCursorVisible env s1 lines info

/-! ## Session persistence (`typing/app.py`) -/

/-- JSON values, as far as the session loader distinguishes them
(`json.loads` results).  `null` also stands for Python `None`, which
`dict.get` returns for a missing key. -/
inductive Json where
  | null : Json
  | str : String → Json
  | num : Int → Json
  | arr : List Json → Json
  | obj : List (String × Json) → Json

/-- Python `dict.get(key)` on a parsed JSON object: the value, or `None`
(`Json.null`) when the key is missing. -/
def dictGet (fields : List (String × Json)) (key : String) : Json :=
  (fields.lookup key).getD Json.null

/-- `record.get(key)` where `record` is an arbitrary `json.loads` result:
on a non-object (list, string, number, `None`) the attribute access raises
`AttributeError`, which `_load_recent_sessions` does not catch. -/
def jsonGet (j : Json) (key : String) : Except String Json :=
  match j with
  | Json.obj fields => Except.ok (dictGet fields key)
  | _ => Except.error "AttributeError"

/-- `_serialize_rich_lines` (composed with `json.dumps` in the source; the
model stays at the JSON-value level). -/
def serializeRichLines (lines : List (List Glyph)) : Json :=
  Json.arr (lines.map (fun line => Json.arr (line.map (fun glyph =>
    Json.obj [("char", Json.str glyph.char), ("size", Json.num glyph.size),
              ("style", Json.str glyph.style)]))))

/-- The per-glyph validation of `_deserialize_rich_lines`: `char` must be a
one-character string, `size` a positive `int`, `style` one of the three
style names. -/
def deserializeGlyph (rawGlyph : Json) : Option Glyph :=
  match rawGlyph with
  | Json.obj fields =>
    match dictGet fields "char", dictGet fields "size", dictGet fields "style" with
    | Json.str char, Json.num size, Json.str style =>
      if char.length ≠ 1 then none
      else if size ≤ 0 then none
      else if style = "plain" ∨ style = "bold" ∨ style = "italic" then
        some ⟨char, size.toNat, style⟩
      else none
    | _, _, _ => none
  | _ => none

/-- `_deserialize_rich_lines`: `None` on any malformed part, and an empty
parsed payload becomes the one-empty-row document
(`return parsed if parsed else [[]]`). -/
def deserializeRichLines (payload : Json) : Option (List (List Glyph)) :=
  match payload with
  | Json.arr rawLines =>
    match rawLines.mapM (fun rawLine =>
      match rawLine with
      | Json.arr rawGlyphs => rawGlyphs.mapM deserializeGlyph
      | _ => none) with
    | some parsed => some (if parsed = [] then [[]] else parsed)
    | none => none
  | _ => none

/-- `_rich_to_text`. -/
def richToText (lines : List (List Glyph)) : String :=
  String.intercalate "\n"
    (lines.map (fun line => String.join (line.map (fun g => g.char))))

/-- Python `str.split()` with no separator: split on whitespace runs,
dropping empty pieces. -/
def pySplitWs (text : String) : List String :=
  (text.split Char.isWhitespace).filter (fun w => w ≠ "")

/-- `_preview_text`. -/
def previewText (text : String) (limit : Nat := 150) : String :=
  (String.intercalate " " (pySplitWs text)).take limit

/-- Python truthiness of a JSON-derived value (`None`, `""`, `0`, `[]` and
`{}` are falsy). -/
def pyTruthy (j : Json) : Bool :=
  match j with
  | Json.null => false
  | Json.str s => s ≠ ""
  | Json.num n => n ≠ 0
  | Json.arr l => !l.isEmpty
  | Json.obj l => !l.isEmpty

/-- Python `str()` of a JSON-derived value, used only for the recall label.
Strings render as themselves and integers in decimal, which are the cases a
real timestamp field hits; container values never carry a timestamp and
their Python `repr` rendering is abbreviated here. -/
def pyStr (j : Json) : String :=
  match j with
  | Json.null => "None"
  | Json.str s => s
  | Json.num n => toString n
  | Json.arr _ => "[...]"
  | Json.obj _ => "{...}"

/-- The record-processing tail of one iteration of the `for raw in handle`
loop of `_load_recent_sessions`, from `record.get("rich_lines")` on.
`recent` is the bounded deque (`maxlen = limit`, dropping from the front
on overflow).  The uncaught `AttributeError` raised by `record.get` on a
non-object record surfaces as `Except.error`. -/
def loadSessionRecord (limit : Nat) (recent : List RecallSession)
    (record : Json) : Except String (List RecallSession) := do
  let rawRich ← jsonGet record "rich_lines"
  match deserializeRichLines rawRich with
  | none => Except.ok recent
  | some richLines =>
    let text := richToText richLines
    let ts ← jsonGet record "timestamp"
    let label := pyStr (if pyTruthy ts then ts else Json.str "Saved")
    let recent2 := recent ++ [⟨label, previewText text, richLines, false⟩]
    Except.ok (if recent2.length > limit then recent2.drop 1 else recent2)

/-- One iteration of the `for raw in handle` loop of
`_load_recent_sessions`: strip the line, skip it when blank or
unparseable (`parse` stands for `json.loads`; `none` mirrors the caught
`json.JSONDecodeError`), otherwise process the record. -/
def loadSessionLine (parse : String → Option Json) (limit : Nat)
    (recent : List RecallSession) (raw : String) :
    Except String (List RecallSession) :=
  let line := raw.trim
  if line = "" then Except.ok recent
  else
    match parse line with
    | none => Except.ok recent
    | some record => loadSessionRecord limit recent record

/-- `_load_recent_sessions` over the lines of `sessions.jsonl`.  Filesystem
access is outside the model (the caller supplies the lines; a missing file
and `OSError` both give `[]` in the source before any line is processed). -/
def loadRecentSessions (parse : String → Option Json) (lines : List String)
    (limit : Nat := 200) : Except String (List RecallSession) := do
  let recent ← lines.foldlM (loadSessionLine parse limit) []
  pure recent.reverse

/-! ## Paint app: undo/redo history (`paint/app.py`) -/

/-- `UNDO_MAX_DEPTH` of `paint/app.py`. -/
def paintUndoMaxDepth : Nat := 10

/-- The canvas-history state of `PaintApp`: the mutable canvas plus the two
snapshot stacks.  The canvas type is abstract (surfaces compared
bit-for-bit; `.copy()` is the identity on immutable values). -/
structure PaintState (α : Type) where
  canvas : α
  undoStack : List α
  redoStack : List α
deriving DecidableEq

/-- `PaintApp._push_undo`. -/
def paintPushUndo {α : Type} (s : PaintState α) : PaintState α :=
  { s with undoStack := cappedAppend paintUndoMaxDepth s.undoStack s.canvas,
           redoStack := [] }

/-- `PaintApp._undo`. -/
def paintUndo {α : Type} (s : PaintState α) : PaintState α :=
  match s.undoStack.getLast? with
  | none => s
  | some c =>
    { canvas := c, undoStack := s.undoStack.dropLast,
      redoStack := s.redoStack ++ [s.canvas] }

/-- `PaintApp._redo`. -/
def paintRedo {α : Type} (s : PaintState α) : PaintState α :=
  match s.redoStack.getLast? with
  | none => s
  | some c =>
    { canvas := c, undoStack := s.undoStack ++ [s.canvas],
      redoStack := s.redoStack.dropLast }

/-- One destructive action from `_handle_pointer_down` on the canvas: a
stroke begin or a bucket fill pushes an undo snapshot and then bakes some
raster effect `f` into the canvas. -/
def strokeOrFill {α : Type} (f : α → α) (s : PaintState α) : PaintState α :=
  let s1 := paintPushUndo s
  { s1 with canvas := f s1.canvas }

/-- A sequence of destructive actions. -/
def paintRun {α : Type} (s : PaintState α) (fs : List (α → α)) : PaintState α :=
  fs.foldl (fun t f => strokeOrFill f t) s

/-- The canvases snapshotted by a run of destructive actions: the canvas as
it was just before each action. -/
def canvasTrail {α : Type} (c : α) (fs : List (α → α)) : List α :=
  (fs.scanl (fun a f => f a) c).dropLast

/-! ## Paint app: bucket flood fill -/

/-- An RGB color triple (`surface.get_at(...)[:3]`).  `Surface.map_rgb` is
injective on the 24/32-bit canvas surface, so the source's mapped-pixel
comparisons coincide with RGB comparisons. -/
abbrev Color := Nat × Nat × Nat

/-- The canvas raster: dimensions and a pixel map in canvas-local
coordinates.  Every access in `_bucket_fill` is bounds-checked, so values
outside the bounds are never consulted. -/
structure Img where
  w : Nat
  h : Nat
  pix : Int → Int → Color

/-- Functional update of one pixel (`pixels[cx, cy] = replacement`). -/
def setPix (pix : Int → Int → Color) (x y : Int) (c : Color) :
    Int → Int → Color :=
  fun a b => if a = x ∧ b = y then c else pix a b

/-- The in-bounds integer grid, used for the termination measure. -/
def boundsFinset (w h : Nat) : Finset (Int × Int) :=
  Finset.Ico (0 : Int) (w : Int) ×ˢ Finset.Ico (0 : Int) (h : Int)

theorem mem_boundsFinset {w h : Nat} {p : Int × Int} :
    p ∈ boundsFinset w h ↔ 0 ≤ p.1 ∧ p.1 < (w : Int) ∧ 0 ≤ p.2 ∧ p.2 < (h : Int) := by
  cases p
  simp [boundsFinset, Finset.mem_product]
  tauto

theorem sdiff_insert_card_lt {p : Int × Int} {b v : Finset (Int × Int)}
    (hpb : p ∈ b) (hpv : p ∉ v) : (b \ insert p v).card < (b \ v).card := by
  have hsub : b \ insert p v ⊆ b \ v :=
    Finset.sdiff_subset_sdiff (le_refl b) (Finset.subset_insert p v)
  have hmem : p ∈ b \ v := Finset.mem_sdiff.2 ⟨hpb, hpv⟩
  have hnot : p ∉ b \ insert p v := by simp
  exact Finset.card_lt_card ((Finset.ssubset_iff_of_subset hsub).2 ⟨p, hmem, hnot⟩)

/-- The `while stack` loop of `_bucket_fill`.  The Lean list holds the
Python stack with its top (the end Python pops from) at the head, so the
four pushes appear in reverse textual order.  `trace` is a ghost log of the
pixels added to `visited`, used only to state the visit-at-most-once
property. -/
def fillLoop (target repl : Color) (w h : Nat) :
    List (Int × Int) → Finset (Int × Int) → (Int → Int → Color) →
      List (Int × Int) →
      (Int → Int → Color) × Finset (Int × Int) × List (Int × Int)
  | [], visited, pix, trace => (pix, visited, trace)
  | (cx, cy) :: rest, visited, pix, trace =>
    if cx < 0 ∨ cy < 0 ∨ cx ≥ (w : Int) ∨ cy ≥ (h : Int) then
      fillLoop target repl w h rest visited pix trace
    else if (cx, cy) ∈ visited then
      fillLoop target repl w h rest visited pix trace
    else
      let visited2 := insert (cx, cy) visited
      let trace2 := trace ++ [(cx, cy)]
      if pix cx cy ≠ target then
        fillLoop target repl w h rest visited2 pix trace2
      else
        fillLoop target repl w h
          ((cx, cy - 1) :: (cx, cy + 1) :: (cx - 1, cy) :: (cx + 1, cy) :: rest)
          visited2 (setPix pix cx cy repl) trace2
termination_by stack visited _ _ => ((boundsFinset w h \ visited).card, stack.length)
decreasing_by
  · exact Prod.Lex.right _ (Nat.lt_succ_self _)
  · exact Prod.Lex.right _ (Nat.lt_succ_self _)
  · apply Prod.Lex.left
    apply sdiff_insert_card_lt _ (by assumption)
    rw [mem_boundsFinset]
    simp only
    omega
  · apply Prod.Lex.left
    apply sdiff_insert_card_lt _ (by assumption)
    rw [mem_boundsFinset]
    simp only
    omega

/-- `_bucket_fill(surface, pos, color)`: returns the updated raster and the
ghost visit trace. -/
def bucketFill (img : Img) (pos : Int × Int) (color : Color) :
    Img × List (Int × Int) :=
  let x := pos.1
  let y := pos.2
  if x < 0 ∨ y < 0 ∨ x ≥ (img.w : Int) ∨ y ≥ (img.h : Int) then (img, [])
  else
    let target := img.pix x y
    if target = color then (img, [])
    else
      let res := fillLoop target color img.w img.h [(x, y)] ∅ img.pix []
      ({ img with pix := res.1 }, res.2.2)

/-! ## Paint app: fountain-pen stroke rendering -/

/-- One `_draw_fountain_segment(surface, color, prev, next, width,
smoothed_width)` call issued by the fountain branch of
`_handle_pointer_move`. -/
structure FountainSeg where
  p1 : Int × Int
  p2 : Int × Int
  startWidth : ℚ
  endWidth : ℚ
deriving DecidableEq

/-- `FOUNTAIN_SMOOTHING = 0.35`, modelled as the exact rational `7/20`. -/
def fountainSmoothing : ℚ := 7 / 20

/-- Python `int()` truncation toward zero on an exact rational. -/
def pyInt (q : ℚ) : Int :=
  if 0 ≤ q then ⌊q⌋ else -⌊-q⌋

/-- `steps = max(1, int(distance / FOUNTAIN_DENSITY))` with
`distance = max(1.0, hypot dx dy)` and `FOUNTAIN_DENSITY = 1.5`, computed
exactly: for `d = hypot dx dy ≥ 1`,
`int(d / 1.5) = floor(2 d / 3) = floor(sqrt(4 (dx² + dy²)) / 3)`, and for
`d < 1` (i.e. `dx = dy = 0`) both the source and this formula give 1. -/
def fountainSteps (lastPoint localPos : Int × Int) : Nat :=
  let dx := localPos.1 - lastPoint.1
  let dy := localPos.2 - lastPoint.2
  max 1 (Nat.sqrt (4 * (dx * dx + dy * dy)).toNat / 3)

/-- The interpolated sub-segment endpoint for loop index `idx`:
`(int(last + (local - last) * t), ...)` with `t = idx / steps`. -/
def fountainPoint (lastPoint localPos : Int × Int) (steps idx : Nat) :
    Int × Int :=
  let t : ℚ := (idx : ℚ) / (steps : ℚ)
  (pyInt ((lastPoint.1 : ℚ) + ((localPos.1 : ℚ) - (lastPoint.1 : ℚ)) * t),
   pyInt ((lastPoint.2 : ℚ) + ((localPos.2 : ℚ) - (lastPoint.2 : ℚ)) * t))

/-- The per-iteration state of the fountain loop: current sub-segment
start, running width, issued segments, appended stroke points. -/
structure FountainState where
  prev : Int × Int
  width : ℚ
  segs : List FountainSeg
  pts : List (Int × Int)
deriving DecidableEq

/-- One iteration (`for idx in range(1, steps + 1)`) of the fountain branch
of `_handle_pointer_move`.  `widthFor` stands for
`_fountain_width_for_direction` applied to the nib size and the
sub-segment's endpoints; its trigonometric body is floating-point code and
is kept an abstract integer-valued parameter. -/
def fountainStep (widthFor : Nat → Int × Int → Int × Int → Int) (size : Nat)
    (lastPoint localPos : Int × Int) (steps : Nat)
    (st : FountainState) (idx : Nat) : FountainState :=
  let nextPoint := fountainPoint lastPoint localPos steps idx
  let targetWidth : ℚ := (widthFor size st.prev nextPoint : Int)
  let width := if st.width ≤ 0 then targetWidth else st.width
  let smoothedWidth := width + (targetWidth - width) * fountainSmoothing
  { prev := nextPoint, width := smoothedWidth,
    segs := st.segs ++ [⟨st.prev, nextPoint, width, smoothedWidth⟩],
    pts := st.pts ++ [nextPoint] }

/-- The fountain branch of `PaintApp._handle_pointer_move`: densify the
segment from the stroke's last recorded point to the new pointer position
and draw one tapered quadrilateral per sub-segment.  Returns the issued
segments, the final running width (stored back into
`stroke.fountain_width`) and the appended stroke points. -/
def fountainMove (widthFor : Nat → Int × Int → Int × Int → Int) (size : Nat)
    (lastPoint localPos : Int × Int) (width0 : ℚ) :
    List FountainSeg × ℚ × List (Int × Int) :=
  let steps := fountainSteps lastPoint localPos
  let res := (List.range' 1 steps).foldl
    (fountainStep widthFor size lastPoint localPos steps)
    ⟨lastPoint, width0, [], []⟩
  (res.segs, res.width, res.pts)

/-- The seeding-and-smoothing discipline the code actually follows, as a
chain predicate: starting from running width `w` at point `p`, each
sub-segment starts at the previous end point, its start width is the
running width (or the geometric target width when the running width is not
yet positive), its end width is the exponentially smoothed value, and the
SMOOTHED end width is the running width seeding the next sub-segment. -/
def SegsChained (widthFor : Nat → Int × Int → Int × Int → Int) (size : Nat) :
    ℚ → Int × Int → List FountainSeg → Prop
  | _, _, [] => True
  | w, p, seg :: rest =>
    seg.p1 = p ∧
    seg.startWidth = (if w ≤ 0 then ((widthFor size seg.p1 seg.p2 : Int) : ℚ) else w) ∧
    seg.endWidth = seg.startWidth +
      (((widthFor size seg.p1 seg.p2 : Int) : ℚ) - seg.startWidth) * fountainSmoothing ∧
    SegsChained widthFor size seg.endWidth seg.p2 rest

/-- The seeding rule as the claim words it: the true geometric (unsmoothed)
target width of a sub-segment — not the smoothed end width — seeds the next
sub-segment.  Differs from `SegsChained` only in the width passed on by the
recursion. -/
def SegsChainedSpec (widthFor : Nat → Int × Int → Int × Int → Int) (size : Nat) :
    ℚ → Int × Int → List FountainSeg → Prop
  | _, _, [] => True
  | w, p, seg :: rest =>
    seg.p1 = p ∧
    seg.startWidth = (if w ≤ 0 then ((widthFor size seg.p1 seg.p2 : Int) : ℚ) else w) ∧
    seg.endWidth = seg.startWidth +
      (((widthFor size seg.p1 seg.p2 : Int) : ℚ) - seg.startWidth) * fountainSmoothing ∧
    SegsChainedSpec widthFor size ((widthFor size seg.p1 seg.p2 : Int) : ℚ) seg.p2 rest

/-- The running width and point after traversing a chain of segments. -/
def chainEnd (w : ℚ) (p : Int × Int) : List FountainSeg → ℚ × (Int × Int)
  | [] => (w, p)
  | seg :: rest => chainEnd seg.endWidth seg.p2 rest

/-! ## Undo/redo stack lemmas -/

theorem foldl_cappedAppend {α : Type} (cap : Nat) (hcap : 0 < cap) :
    ∀ (xs stack : List α), stack.length ≤ cap →
      xs.foldl (cappedAppend cap) stack
        = (stack ++ xs).drop (stack.length + xs.length - cap) := by
  intro xs
  induction xs with
  | nil =>
    intro stack h
    simp only [List.foldl_nil, List.append_nil, List.length_nil]
    rw [show stack.length + 0 - cap = 0 by omega, List.drop_zero]
  | cons x xs ih =>
    intro stack h
    rw [List.foldl_cons]
    by_cases hlen : stack.length + 1 > cap
    · have hsl : stack.length = cap := by omega
      rcases stack with - | ⟨s0, rest⟩
      · simp at hsl
        omega
      · have hca : cappedAppend cap (s0 :: rest) x = rest ++ [x] := by
          rw [cappedAppend]
          simp only [List.cons_append, List.length_cons, List.length_append,
            List.length_cons]
          rw [if_pos (by simp at hsl ⊢; omega)]
          rfl
        rw [hca, ih (rest ++ [x]) (by simp at hsl ⊢; omega)]
        have hl1 : (rest ++ [x]).length + xs.length - cap = xs.length := by
          simp at hsl ⊢
          omega
        have hl2 : (s0 :: rest).length + (x :: xs).length - cap = xs.length + 1 := by
          simp at hsl ⊢
          omega
        rw [hl1, hl2,
          show (s0 :: rest) ++ (x :: xs) = s0 :: (rest ++ (x :: xs)) from rfl,
          List.drop_succ_cons,
          show (rest ++ [x]) ++ xs = rest ++ (x :: xs) by simp]
    · have hca : cappedAppend cap stack x = stack ++ [x] := by
        rw [cappedAppend]
        simp only [List.length_append, List.length_cons, List.length_nil]
        rw [if_neg (by omega)]
      rw [hca, ih (stack ++ [x]) (by simp; omega)]
      simp only [List.length_append, List.length_cons, List.length_nil,
        List.append_assoc, List.singleton_append]
      congr 1
      omega

theorem canvasTrail_length {α : Type} (c : α) (fs : List (α → α)) :
    (canvasTrail c fs).length = fs.length := by
  rw [canvasTrail, List.length_dropLast, List.length_scanl]
  rfl

theorem canvasTrail_cons {α : Type} (c : α) (f : α → α) (fs : List (α → α)) :
    canvasTrail c (f :: fs) = c :: canvasTrail (f c) fs := by
  rw [canvasTrail, List.scanl_cons, canvasTrail]
  rcases hs : List.scanl (fun a f => f a) (f c) fs with - | ⟨y, ys⟩
  · exact absurd (congrArg List.length hs) (by simp [List.length_scanl])
  · simp [hs]

theorem paintRun_cons {α : Type} (s : PaintState α) (f : α → α)
    (fs : List (α → α)) : paintRun s (f :: fs) = paintRun (strokeOrFill f s) fs :=
  rfl

theorem strokeOrFill_fields {α : Type} (f : α → α) (s : PaintState α) :
    strokeOrFill f s = ⟨f s.canvas,
      cappedAppend paintUndoMaxDepth s.undoStack s.canvas, []⟩ :=
  rfl

theorem paintRun_redo_empty {α : Type} :
    ∀ (fs : List (α → α)) (s : PaintState α), fs ≠ [] →
      (paintRun s fs).redoStack = [] := by
  intro fs
  induction fs with
  | nil => intro s h; exact absurd rfl h
  | cons f fs ih =>
    intro s _
    rw [paintRun_cons]
    rcases fs with - | ⟨g, gs⟩
    · rw [paintRun, List.foldl_nil, strokeOrFill_fields]
    · exact ih _ (by simp)

theorem paintRun_undoStack {α : Type} :
    ∀ (fs : List (α → α)) (s : PaintState α),
      (paintRun s fs).undoStack
        = (canvasTrail s.canvas fs).foldl (cappedAppend paintUndoMaxDepth)
            s.undoStack := by
  intro fs
  induction fs with
  | nil => intro s; rfl
  | cons f fs ih =>
    intro s
    rw [paintRun_cons, canvasTrail_cons, List.foldl_cons, ih]
    rfl

theorem typing_foldl_undoStack :
    ∀ (ops : List EditOp) (t : TypingState),
      (ops.foldl typingPushUndo t).undoStack
        = ops.foldl (cappedAppend typingUndoMaxDepth) t.undoStack := by
  intro ops
  induction ops with
  | nil => intro t; rfl
  | cons op ops ih =>
    intro t
    rw [List.foldl_cons, List.foldl_cons, ih]
    rfl

/-- **C5.** In the paint app, `_undo` and `_redo` pop from their source
stack, push a copy of the current canvas onto the opposite stack and
replace the canvas with the popped copy; both are no-ops when their source
stack is empty; every destructive action (`_push_undo` before a stroke or
bucket fill) empties the redo stack; and after any sequence of
strokes/fills from a state with no redo history, `_undo` followed by
`_redo` restores the canvas bit-for-bit. -/
theorem paint_undo_redo_laws {α : Type} (t s0 : PaintState α) (f : α → α)
    (c : α) (rest : List α) (fs : List (α → α)) (h0 : s0.redoStack = []) :
    (t.undoStack = rest ++ [c] →
      paintUndo t = ⟨c, rest, t.redoStack ++ [t.canvas]⟩) ∧
    (t.redoStack = rest ++ [c] →
      paintRedo t = ⟨c, t.undoStack ++ [t.canvas], rest⟩) ∧
    (t.undoStack = [] → paintUndo t = t) ∧
    (t.redoStack = [] → paintRedo t = t) ∧
    (strokeOrFill f t).redoStack = [] ∧
    (paintRedo (paintUndo (paintRun s0 fs))).canvas = (paintRun s0 fs).canvas := by
  refine ⟨?_, ?_, ?_, ?_, rfl, ?_⟩
  · intro h
    have hlast : t.undoStack.getLast? = some c := by
      rw [h, List.getLast?_concat]
    rw [paintUndo, hlast]
    simp only
    rw [h, List.dropLast_concat]
  · intro h
    have hlast : t.redoStack.getLast? = some c := by
      rw [h, List.getLast?_concat]
    rw [paintRedo, hlast]
    simp only
    rw [h, List.dropLast_concat]
  · intro h
    rw [paintUndo, h]
    rfl
  · intro h
    rw [paintRedo, h]
    rfl
  · have hredo : (paintRun s0 fs).redoStack = [] := by
      rcases fs with - | ⟨g, gs⟩
      · exact h0
      · exact paintRun_redo_empty _ _ (by simp)
    set u := paintRun s0 fs with hu
    rcases hlast : u.undoStack.getLast? with - | c2
    · rw [paintUndo, hlast]
      simp only
      rw [paintRedo, hredo]
      rfl
    · rw [paintUndo, hlast]
      simp only
      rw [paintRedo]
      rw [hredo]
      rfl

theorem paint_undo_redo_laws_witness :
    paintUndo (⟨5, [1, 2], [3]⟩ : PaintState Nat) = ⟨2, [1], [3, 5]⟩ ∧
    (paintRedo (paintUndo (paintRun (⟨0, [], []⟩ : PaintState Nat)
        [fun _ => 7]))).canvas
      = (paintRun (⟨0, [], []⟩ : PaintState Nat) [fun _ => 7]).canvas := by
  constructor
  · exact (paint_undo_redo_laws (⟨5, [1, 2], [3]⟩ : PaintState Nat)
      ⟨0, [], []⟩ id 2 [1] [] rfl).1 rfl
  · exact (paint_undo_redo_laws (⟨5, [1, 2], [3]⟩ : PaintState Nat)
      ⟨0, [], []⟩ id 2 [1] [fun _ => 7] rfl).2.2.2.2.2

/-- **C8.** Both undo histories are bounded sliding windows: starting below
the cap (10 canvas snapshots for paint, 20 edit records for typing), a run
of destructive operations leaves exactly the most recent `cap` entries on
the stack, with the oldest excess entries evicted first; in particular,
with at least `cap` operations only the last `cap` snapshots/records
survive. -/
theorem undo_history_bounded {α : Type} (s : PaintState α) (fs : List (α → α))
    (t : TypingState) (ops : List EditOp)
    (hp : s.undoStack.length ≤ paintUndoMaxDepth)
    (ht : t.undoStack.length ≤ typingUndoMaxDepth) :
    (paintRun s fs).undoStack
      = (s.undoStack ++ canvasTrail s.canvas fs).drop
          (s.undoStack.length + fs.length - paintUndoMaxDepth) ∧
    (paintUndoMaxDepth ≤ fs.length → (paintRun s fs).undoStack
      = (canvasTrail s.canvas fs).drop (fs.length - paintUndoMaxDepth)) ∧
    (ops.foldl typingPushUndo t).undoStack
      = (t.undoStack ++ ops).drop
          (t.undoStack.length + ops.length - typingUndoMaxDepth) ∧
    (typingUndoMaxDepth ≤ ops.length → (ops.foldl typingPushUndo t).undoStack
      = ops.drop (ops.length - typingUndoMaxDepth)) := by
  have h1 : (paintRun s fs).undoStack
      = (s.undoStack ++ canvasTrail s.canvas fs).drop
          (s.undoStack.length + fs.length - paintUndoMaxDepth) := by
    rw [paintRun_undoStack,
      foldl_cappedAppend paintUndoMaxDepth (by decide) _ _ hp,
      canvasTrail_length]
  have h3 : (ops.foldl typingPushUndo t).undoStack
      = (t.undoStack ++ ops).drop
          (t.undoStack.length + ops.length - typingUndoMaxDepth) := by
    rw [typing_foldl_undoStack,
      foldl_cappedAppend typingUndoMaxDepth (by decide) _ _ ht]
  refine ⟨h1, ?_, h3, ?_⟩
  · intro hge
    rw [h1, show s.undoStack.length + fs.length - paintUndoMaxDepth
        = s.undoStack.length + (fs.length - paintUndoMaxDepth) by omega,
      ← canvasTrail_length s.canvas fs]
    exact List.drop_append _
  · intro hge
    rw [h3, show t.undoStack.length + ops.length - typingUndoMaxDepth
        = t.undoStack.length + (ops.length - typingUndoMaxDepth) by omega]
    exact List.drop_append _

theorem undo_history_bounded_witness :
    (paintRun (⟨0, [], []⟩ : PaintState Nat)
        (List.replicate 12 (fun c => c + 1))).undoStack
      = ((⟨0, [], []⟩ : PaintState Nat).undoStack
          ++ canvasTrail 0 (List.replicate 12 (fun c => c + 1))).drop
          (0 + 12 - paintUndoMaxDepth) ∧
    (typingUndoMaxDepth ≤ (List.replicate 25 ({ kind := "insert", row := 0, col := 0 } : EditOp)).length →
      ((List.replicate 25 ({ kind := "insert", row := 0, col := 0 } : EditOp)).foldl typingPushUndo
          (clearText ⟨[[]], [defaultLineStyle], [""], [], 0, 0, none, true, 25,
            "plain", 0⟩)).undoStack
        = (List.replicate 25 ({ kind := "insert", row := 0, col := 0 } : EditOp)).drop
            (25 - typingUndoMaxDepth)) := by
  have h := undo_history_bounded (⟨0, [], []⟩ : PaintState Nat)
    (List.replicate 12 (fun c => c + 1))
    (clearText ⟨[[]], [defaultLineStyle], [""], [], 0, 0, none, true, 25,
      "plain", 0⟩)
    (List.replicate 25 ({ kind := "insert", row := 0, col := 0 } : EditOp)) (by simp) (by simp [clearText])
  exact ⟨h.1, fun hc => (h.2.2.2 (by simpa using hc)).trans (by simp)⟩

/-! ## C3: greedy packing of tokens into visual lines -/

/-- **C3 (amended).** `_wrap_tokens` over `_tokenize_row` packs tokens
greedily into line ranges whose total glyph width stays within `max_width`
whenever every single glyph fits in `max_width` (a single glyph wider than
`max_width` becomes a line of its own that necessarily exceeds it, see the
counterexample); and the two concrete scenarios of the claim hold:
unit-width token runs `[5], [1], [5]` at width 6 wrap to `(0,6), (6,11)`,
and one token of 10 unit glyphs at width 4 hard-splits to
`(0,4), (4,8), (8,10)`. -/
theorem wrap_tokens_greedy_pack (isSp : String → Bool) (glyphs : List Glyph)
    (widths : List Nat) (maxWidth : Nat)
    (hw : widths.length = glyphs.length)
    (hle : ∀ w ∈ widths, w ≤ maxWidth) :
    (∀ r ∈ wrapTokens (tokenizeRow isSp glyphs widths) maxWidth,
      sliceSum widths r.1 r.2 ≤ maxWidth) ∧
    wrapTokens [⟨0, 5, [1, 1, 1, 1, 1], false⟩, ⟨5, 6, [1], true⟩,
        ⟨6, 11, [1, 1, 1, 1, 1], false⟩] 6
      = [(0, 6), (6, 11)] ∧
    wrapTokens [⟨0, 10, [1, 1, 1, 1, 1, 1, 1, 1, 1, 1], false⟩] 4
      = [(0, 4), (4, 8), (8, 10)] := by
  refine ⟨?_, by decide, ?_⟩
  · rcases glyphs with - | ⟨g, gs⟩
    · rw [tokenizeRow]
      intro r hr
      rw [wrapTokens] at hr
      split at hr
      · exact absurd hr (List.not_mem_nil r)
      · simp only [List.foldl_nil] at hr
        split at hr <;> simp [flushLine] at hr
    · exact wrapTokens_width_le widths maxWidth hle _ (g :: gs).length
        (tokenizeRow_chain isSp (g :: gs) widths (by simp) hw)
  · rw [wrapTokens]
    norm_num [wrapStep]
    rw [hardSplit]
    norm_num [splitTake]
    rw [hardSplit]
    norm_num [splitTake]
    rw [hardSplit]
    norm_num [splitTake]
    rw [hardSplit]
    norm_num

/-- **C3, counterexample to the claim as stated.** A row consisting of one
glyph 5 pixels wide, wrapped at `max_width = 4`: the produced visual line
`(0, 1)` has total glyph width 5, exceeding `max_width` — so "a line's
total glyph-pixel width never exceeds max_width" is false as a universal
statement. -/
theorem wrap_tokens_width_bound_counterexample :
    tokenizeRow (fun _ => false) [⟨"x", 25, "plain"⟩] [5] = [⟨0, 1, [5], false⟩] ∧
    wrapTokens [⟨0, 1, [5], false⟩] 4 = [(0, 1)] ∧
    sliceSum [5] 0 1 = 5 ∧ ¬(5 ≤ 4) := by
  refine ⟨by decide, ?_, by decide, by decide⟩
  rw [wrapTokens]
  norm_num [wrapStep]
  rw [hardSplit]
  norm_num [splitTake]
  rw [hardSplit]
  norm_num

theorem wrap_tokens_greedy_pack_witness :
    ([1, 1].length = ([⟨"h", 25, "plain"⟩, ⟨"i", 25, "plain"⟩] : List Glyph).length) ∧
    (∀ r ∈ wrapTokens
        (tokenizeRow (fun _ => false) [⟨"h", 25, "plain"⟩, ⟨"i", 25, "plain"⟩]
          [1, 1]) 6,
      sliceSum [1, 1] r.1 r.2 ≤ 6) := by
  refine ⟨by decide, ?_⟩
  exact (wrap_tokens_greedy_pack (fun _ => false)
    [⟨"h", 25, "plain"⟩, ⟨"i", 25, "plain"⟩] [1, 1] 6 (by decide)
    (by decide)).1

/-! ## C4: visual lines reconstruct their logical row -/

theorem rangesChain_mem_bounds :
    ∀ {a n : Nat} {rs : List (Nat × Nat)}, RangesChain a n rs →
      ∀ r ∈ rs, a ≤ r.1 ∧ r.1 < r.2 ∧ r.2 ≤ n := by
  intro a n rs
  induction rs generalizing a with
  | nil => intro _ r hr; exact absurd hr (List.not_mem_nil r)
  | cons q rs ih =>
    intro h r hr
    obtain ⟨e1, e2, e3, e4⟩ := h
    rcases List.mem_cons.1 hr with hr1 | hr2
    · subst hr1
      exact ⟨Nat.le_of_eq e1.symm, by omega, e3⟩
    · obtain ⟨f1, f2, f3⟩ := ih e4 r hr2
      exact ⟨by omega, f2, f3⟩

theorem enumFrom_flatMap_filter_row
    (f : Nat × List Glyph → List VisualLine)
    (htag : ∀ i row vl, vl ∈ f (i, row) → vl.row = i) :
    ∀ (rows : List (List Glyph)) (k r : Nat), k ≤ r → r < k + rows.length →
      ((List.enumFrom k rows).flatMap f).filter (fun vl => vl.row = r)
        = f (r, rows.getD (r - k) []) := by
  intro rows
  induction rows with
  | nil =>
    intro k r h1 h2
    simp at h2
    omega
  | cons row rows ih =>
    intro k r h1 h2
    rw [List.enumFrom_cons, List.flatMap_cons, List.filter_append]
    by_cases hk : r = k
    · subst hk
      have hfilter1 : (f (r, row)).filter (fun vl => decide (vl.row = r))
          = f (r, row) :=
        List.filter_eq_self.2 (fun vl hvl => by simp [htag r row vl hvl])
      have hfilter2 : ((List.enumFrom (r + 1) rows).flatMap f).filter
          (fun vl => decide (vl.row = r)) = [] := by
        rw [List.filter_eq_nil_iff]
        intro vl hvl
        obtain ⟨p, hp, hvlp⟩ := List.mem_flatMap.1 hvl
        obtain ⟨i, a, rfl⟩ : ∃ i a, p = (i, a) := ⟨p.1, p.2, rfl⟩
        have hbound := List.mem_enumFrom hp
        have := htag i a vl hvlp
        simp only [this]
        simp only [decide_eq_true_eq]
        omega
      rw [hfilter1, hfilter2, List.append_nil, Nat.sub_self]
      rfl
    · rw [ih (k + 1) r (by omega) (by simp at h2 ⊢; omega)]
      have hfilter1 : (f (k, row)).filter (fun vl => decide (vl.row = r)) = [] := by
        rw [List.filter_eq_nil_iff]
        intro vl hvl
        have := htag k row vl hvl
        simp only [this, decide_eq_true_eq]
        omega
      rw [hfilter1, List.nil_append]
      have : r - k = (r - (k + 1)) + 1 := by omega
      rw [this]
      rfl

/-- The per-row block of `_build_visual_lines`. -/
def rowVisualLines (env : TypingEnv) (s : TypingState)
    (p : Nat × List Glyph) : List VisualLine :=
  if p.2 = [] then
    [{ row := p.1, startCol := 0, endCol := 0, glyphs := [], widths := [],
       height := visualLineHeight env s p.1 [] }]
  else
    let rowWidths := p.2.map env.measure
    (wrapTokens (tokenizeRow env.isSp p.2 rowWidths) (wrapMaxWidth env)).map
      (fun r =>
        { row := p.1, startCol := r.1, endCol := r.2, glyphs := pySlice p.2 r.1 r.2,
          widths := pySlice rowWidths r.1 r.2,
          height := visualLineHeight env s p.1 (pySlice p.2 r.1 r.2) })

theorem buildVisualLines_eq_flatMap (env : TypingEnv) (s : TypingState) :
    buildVisualLines env s =
      (let lines := s.richLines.enum.flatMap (rowVisualLines env s)
       if lines = [] then
         [{ row := s.cursorRow, startCol := 0, endCol := 0, glyphs := [],
            widths := [], height := visualLineHeight env s s.cursorRow [] }]
       else lines) := rfl

theorem rowVisualLines_tag (env : TypingEnv) (s : TypingState) :
    ∀ i row vl, vl ∈ rowVisualLines env s (i, row) → vl.row = i := by
  intro i row vl hvl
  rw [rowVisualLines] at hvl
  split at hvl
  · simp at hvl
    rw [hvl]
  · simp only [List.mem_map] at hvl
    obtain ⟨q, -, hq⟩ := hvl
    rw [← hq]

theorem rowRangesChain (env : TypingEnv) (row : List Glyph)
    (hpos : ∀ g ∈ row, 1 ≤ env.measure g) (hne : row ≠ []) :
    RangesChain 0 row.length
      (wrapTokens (tokenizeRow env.isSp row (row.map env.measure))
        (wrapMaxWidth env)) := by
  have hb : row.length = (row.map env.measure).length := (List.length_map row _).symm
  rw [hb]
  refine wrapTokens_chain (row.map env.measure) (wrapMaxWidth env)
    (le_max_left 1 _) ?_ _ _
    (by rw [← hb]; exact tokenizeRow_chain env.isSp row (row.map env.measure) hne hb.symm)
    (Nat.le_refl _)
  intro w hw
  obtain ⟨g, hg, rfl⟩ := List.mem_map.1 hw
  exact hpos g hg

theorem rowVisualLines_ne_nil (env : TypingEnv) (s : TypingState) (i : Nat)
    (row : List Glyph) (hpos : ∀ g ∈ row, 1 ≤ env.measure g) :
    rowVisualLines env s (i, row) ≠ [] := by
  rw [rowVisualLines]
  split
  · simp
  · rename_i hrow
    intro hc
    rw [List.map_eq_nil_iff] at hc
    have hrow2 : row ≠ [] := by simpa using hrow
    have hchain := rowRangesChain env row hpos hrow2
    rw [hc] at hchain
    have h0 : 0 = row.length := hchain
    exact hrow2 (List.length_eq_zero.1 h0.symm)

/-- **C4 (amended).** For every document with at least one row, provided
every glyph measures at least one pixel wide, the visual lines produced for
a logical row carry exactly that row's glyphs in column order: an empty row
yields the single empty range `(0, 0)`, a nonempty row's ranges tile
`[0, len row)` contiguously, concatenating the filtered lines' glyph slices
reconstructs the row, and a zero-glyph visual line arises only from an
empty logical row. -/
theorem visual_lines_tile_rows (env : TypingEnv) (s : TypingState)
    (hne : s.richLines ≠ [])
    (hpos : ∀ row ∈ s.richLines, ∀ g ∈ row, 1 ≤ env.measure g)
    (r : Nat) (hr : r < s.richLines.length) :
    (((buildVisualLines env s).filter (fun vl => vl.row = r)).flatMap
        (fun vl => vl.glyphs)) = s.richLines.getD r [] ∧
    (s.richLines.getD r [] = [] →
      ((buildVisualLines env s).filter (fun vl => vl.row = r)).map
        (fun vl => (vl.startCol, vl.endCol)) = [(0, 0)]) ∧
    (s.richLines.getD r [] ≠ [] →
      RangesChain 0 (s.richLines.getD r []).length
        (((buildVisualLines env s).filter (fun vl => vl.row = r)).map
          (fun vl => (vl.startCol, vl.endCol)))) ∧
    (∀ vl ∈ buildVisualLines env s, vl.glyphs = [] →
      s.richLines.getD vl.row [] = []) := by
  have hgetD_mem : ∀ i, i < s.richLines.length → s.richLines.getD i [] ∈ s.richLines := by
    intro i hi
    rw [List.getD_eq_getElem?_getD, List.getElem?_eq_getElem hi]
    exact List.getElem_mem _
  have hflat_ne : s.richLines.enum.flatMap (rowVisualLines env s) ≠ [] := by
    rcases hrl : s.richLines with - | ⟨row0, rows⟩
    · exact absurd hrl hne
    · rw [List.enum, List.enumFrom_cons, List.flatMap_cons]
      intro hc
      rcases List.append_eq_nil.1 hc with ⟨h1, -⟩
      exact rowVisualLines_ne_nil env s 0 row0
        (hpos row0 (by rw [hrl]; exact List.mem_cons_self _ _)) h1
  have hbvl : buildVisualLines env s = s.richLines.enum.flatMap (rowVisualLines env s) := by
    rw [buildVisualLines_eq_flatMap]
    simp only
    rw [if_neg hflat_ne]
  have hfilter : (buildVisualLines env s).filter (fun vl => vl.row = r)
      = rowVisualLines env s (r, s.richLines.getD r []) := by
    rw [hbvl, List.enum]
    have := enumFrom_flatMap_filter_row (rowVisualLines env s)
      (rowVisualLines_tag env s) s.richLines 0 r (Nat.zero_le r) (by omega)
    rw [Nat.sub_zero] at this
    exact this
  set row := s.richLines.getD r [] with hrow
  have hrow_pos : ∀ g ∈ row, 1 ≤ env.measure g := hpos row (hgetD_mem r hr)
  refine ⟨?_, ?_, ?_, ?_⟩
  · rw [hfilter, rowVisualLines]
    split
    · simp only [List.flatMap_cons, List.flatMap_nil]
      simp_all
    · rename_i hrow
      have hrow2 : row ≠ [] := by simpa using hrow
      have hchain := rowRangesChain env row hrow_pos hrow2
      rw [List.flatMap_map]
      show (wrapTokens (tokenizeRow env.isSp row (row.map env.measure))
          (wrapMaxWidth env)).flatMap (fun q => pySlice row q.1 q.2) = row
      rw [show (wrapTokens (tokenizeRow env.isSp row (row.map env.measure))
            (wrapMaxWidth env)).flatMap (fun q => pySlice row q.1 q.2)
          = ((wrapTokens (tokenizeRow env.isSp row (row.map env.measure))
              (wrapMaxWidth env)).map (fun q => pySlice row q.1 q.2)).flatten from rfl]
      rw [RangesChain.flatten_slices row hchain, pySlice_full]
  · intro hempty
    rw [hfilter, rowVisualLines]
    split
    · rfl
    · rename_i hrow3
      exact absurd (by simpa using hempty) (by simpa using hrow3)
  · intro hnonempty
    rw [hfilter, rowVisualLines]
    rw [if_neg (by simp_all)]
    have hchain := rowRangesChain env row hrow_pos hnonempty
    show RangesChain 0 row.length
      (((wrapTokens (tokenizeRow env.isSp row (row.map env.measure))
          (wrapMaxWidth env)).map (fun q : Nat × Nat =>
            ({ row := r, startCol := q.1, endCol := q.2,
               glyphs := pySlice row q.1 q.2,
               widths := pySlice (row.map env.measure) q.1 q.2,
               height := visualLineHeight env s r (pySlice row q.1 q.2) } : VisualLine))).map
        (fun vl => (vl.startCol, vl.endCol)))
    rw [List.map_map]
    have hmapid : ((fun (vl : VisualLine) => (vl.startCol, vl.endCol)) ∘
        (fun q : Nat × Nat =>
          ({ row := r, startCol := q.1, endCol := q.2,
             glyphs := pySlice row q.1 q.2,
             widths := pySlice (row.map env.measure) q.1 q.2,
             height := visualLineHeight env s r (pySlice row q.1 q.2) } : VisualLine)))
        = fun q : Nat × Nat => q := rfl
    rw [hmapid]
    rw [show ((wrapTokens (tokenizeRow env.isSp row (row.map env.measure))
        (wrapMaxWidth env)).map (fun q : Nat × Nat => q))
      = wrapTokens (tokenizeRow env.isSp row (row.map env.measure))
          (wrapMaxWidth env) by simp]
    exact hchain
  · intro vl hvl hglyphs
    rw [hbvl] at hvl
    obtain ⟨p, hp, hvlp⟩ := List.mem_flatMap.1 hvl
    obtain ⟨i, prow, rfl⟩ : ∃ i prow, p = (i, prow) := ⟨p.1, p.2, rfl⟩
    have hbound := List.mem_enumFrom (by simpa [List.enum] using hp)
    obtain ⟨hb1, hb2, hb3⟩ := hbound
    have hb2b : i < s.richLines.length := by simpa using hb2
    have hrowvl := rowVisualLines_tag env s i prow vl hvlp
    have hprow : s.richLines.getD i [] = prow := by
      rw [List.getD_eq_getElem?_getD, List.getElem?_eq_getElem hb2b]
      simp at hb3 ⊢
      rw [← hb3]
    rw [hrowvl, hprow]
    by_contra hprow_ne
    rw [rowVisualLines, if_neg hprow_ne] at hvlp
    obtain ⟨q, hq, hqvl⟩ := List.mem_map.1 hvlp
    have hchain := rowRangesChain env prow
      (hpos prow (by rw [← hprow]; exact hgetD_mem i (by omega))) hprow_ne
    obtain ⟨g1, g2, g3⟩ := rangesChain_mem_bounds hchain q hq
    have hglyphs_q : vl.glyphs = pySlice prow q.1 q.2 := by rw [← hqvl]
    have hlen : (pySlice prow q.1 q.2).length = q.2 - q.1 :=
      pySlice_length prow q.1 q.2 (by omega) (by omega)
    rw [hglyphs_q] at hglyphs
    rw [hglyphs] at hlen
    simp at hlen
    omega

/-- Font environment in which the space glyph measures zero pixels (some
glyphs, e.g. zero-width characters loadable from a session file, can
measure 0 in a real font). -/
def envZeroWidth : TypingEnv :=
  ⟨fun c => c = " ", fun g => if g.char = " " then 0 else 1, fun _ _ => 1,
    100, 100⟩

/-- A one-row document whose first glyph is a space. -/
def stateZeroWidth : TypingState :=
  { richLines := [[⟨" ", 25, "plain"⟩, ⟨"x", 25, "plain"⟩]],
    lineStyles := [(25, "plain")], textLines := [" x"], undoStack := [],
    cursorRow := 0, cursorCol := 0, cursorXTarget := none,
    cursorXTargetDirty := true, currentTextSize := 25, textStyle := "plain",
    textScrollY := 0 }

/-- **C4, counterexample to the claim as stated.** With a zero-width
leading space glyph, the `line_width == 0` branch of `_wrap_tokens`
re-opens the line on the next token and silently drops the zero-width
token: the visual lines of the row no longer reconstruct it (column 0 is
missing), so the tiling claim fails without a positive-width proviso. -/
theorem visual_lines_tile_rows_counterexample :
    ((buildVisualLines envZeroWidth stateZeroWidth).filter
        (fun vl => vl.row = 0)).flatMap (fun vl => vl.glyphs)
      ≠ stateZeroWidth.richLines.getD 0 [] := by decide

theorem visual_lines_tile_rows_witness :
    (stateZeroWidth.richLines ≠ [] ∧
      (∀ row ∈ stateZeroWidth.richLines, ∀ g ∈ row,
        1 ≤ (⟨fun c => c = " ", fun _ => 1, fun _ _ => 1, 100, 100⟩ :
          TypingEnv).measure g) ∧ 0 < stateZeroWidth.richLines.length) ∧
    ((buildVisualLines ⟨fun c => c = " ", fun _ => 1, fun _ _ => 1, 100, 100⟩
          stateZeroWidth).filter (fun vl => vl.row = 0)).flatMap
        (fun vl => vl.glyphs)
      = stateZeroWidth.richLines.getD 0 [] := by
  refine ⟨⟨by decide, by decide, by decide⟩, ?_⟩
  exact (visual_lines_tile_rows
    ⟨fun c => c = " ", fun _ => 1, fun _ _ => 1, 100, 100⟩ stateZeroWidth
    (by decide) (by decide) 0 (by decide)).1

/-! ## C6: sticky-column cursor -/

/-- Unit-width, unit-height font environment for the sticky-column
scenario. -/
def envSticky : TypingEnv :=
  ⟨fun c => c = " ", fun _ => 1, fun _ _ => 1, 200, 200⟩

/-- Three logical rows of lengths 10, 3, 10 (which, at wrap width
`max 1 (200 - 48) = 152`, are exactly three visual lines), with the cursor
just placed at column 8 of the first line by a horizontal move (so the
sticky-column cache is dirty). -/
def stateSticky : TypingState :=
  { richLines := [List.replicate 10 ⟨"a", 25, "plain"⟩,
      List.replicate 3 ⟨"b", 25, "plain"⟩,
      List.replicate 10 ⟨"c", 25, "plain"⟩],
    lineStyles := [(25, "plain"), (25, "plain"), (25, "plain")],
    textLines := ["aaaaaaaaaa", "bbb", "cccccccccc"],
    undoStack := [], cursorRow := 0, cursorCol := 8,
    cursorXTarget := none, cursorXTargetDirty := true,
    currentTextSize := 25, textStyle := "plain", textScrollY := 0 }

/-- **C6.** Sticky-column scenario: with the cursor at column 8 on the
first of three visual lines of lengths 10, 3, 10 (unit glyph widths), the
render pass resolves the dirty cache to the pixel target 8; the first
arrow-down lands at column 3 (clamped to the short line) with the target
cached at 8 and left clean; the second arrow-down returns to column 8 on
the third line, the target still 8 (nearest-half-glyph-width resolution in
each destination line). -/
theorem sticky_column_scenario :
    (let s1 := renderUpdate envSticky stateSticky
     let s2 := moveCursorDownVisual s1 (buildVisualLines envSticky s1)
     let s3 := renderUpdate envSticky s2
     let s4 := moveCursorDownVisual s3 (buildVisualLines envSticky s3)
     s1.cursorXTarget = some 8 ∧ s1.cursorXTargetDirty = false ∧
     s2.cursorRow = 1 ∧ s2.cursorCol = 3 ∧ s2.cursorXTarget = some 8 ∧
     s3.cursorXTarget = some 8 ∧ s3.cursorXTargetDirty = false ∧
     s4.cursorRow = 2 ∧ s4.cursorCol = 8 ∧ s4.cursorXTarget = some 8) := by
  decide

/-! ## C7: the typing undo applies exact inverses -/

/-- Document well-formedness: at least one row, cursor row in range, cursor
column within its row. -/
def TypingWF (s : TypingState) : Prop :=
  s.richLines ≠ [] ∧ s.cursorRow < s.richLines.length ∧
    s.cursorCol ≤ (rowAt s s.cursorRow).length

theorem pyInsert_length {α : Type} (l : List α) (i : Nat) (x : α)
    (h : i ≤ l.length) : (pyInsert l i x).length = l.length + 1 := by
  rw [pyInsert]
  simp
  omega

/-- Removing the glyph just inserted restores the row. -/
theorem pyInsert_eraseIdx {α : Type} :
    ∀ (l : List α) (i : Nat) (x : α), i ≤ l.length →
      (pyInsert l i x).eraseIdx i = l := by
  intro l
  induction l with
  | nil =>
    intro i x h
    simp only [List.length_nil, Nat.le_zero] at h
    subst h
    simp [pyInsert]
  | cons hd tl ih =>
    intro i x h
    match i with
    | 0 => simp [pyInsert]
    | n + 1 =>
      simp only [pyInsert, List.take_succ_cons, List.drop_succ_cons,
        List.cons_append, List.eraseIdx_cons_succ]
      rw [show tl.take n ++ [x] ++ tl.drop n = pyInsert tl n x from rfl]
      rw [ih n x (by simpa using h)]

/-- Re-inserting a removed element at its index restores the row. -/
theorem pyInsert_getD_eraseIdx {α : Type} (d : α) :
    ∀ (l : List α) (i : Nat), i < l.length →
      pyInsert (l.eraseIdx i) i (l.getD i d) = l := by
  intro l
  induction l with
  | nil => intro i h; simp at h
  | cons hd tl ih =>
    intro i h
    match i with
    | 0 => simp [pyInsert]
    | n + 1 =>
      simp only [List.eraseIdx_cons_succ, List.getD_cons_succ, pyInsert,
        List.take_succ_cons, List.drop_succ_cons, List.cons_append]
      rw [show (tl.eraseIdx n).take n ++ [tl.getD n d] ++ (tl.eraseIdx n).drop n
            = pyInsert (tl.eraseIdx n) n (tl.getD n d) from rfl]
      rw [ih n (by simpa using h)]

theorem getD_set_self {α : Type} (d : α) :
    ∀ (l : List α) (r : Nat) (a : α), r < l.length →
      (l.set r a).getD r d = a := by
  intro l
  induction l with
  | nil => intro r a h; simp at h
  | cons hd tl ih =>
    intro r a h
    match r with
    | 0 => rfl
    | n + 1 =>
      simp only [List.set_cons_succ, List.getD_cons_succ]
      exact ih n a (by simpa using h)

theorem set_getD_self {α : Type} (d : α) :
    ∀ (l : List α) (r : Nat), r < l.length → l.set r (l.getD r d) = l := by
  intro l
  induction l with
  | nil => intro r h; simp at h
  | cons hd tl ih =>
    intro r h
    match r with
    | 0 => rfl
    | n + 1 =>
      simp only [List.getD_cons_succ, List.set_cons_succ]
      rw [ih n (by simpa using h)]

theorem pyInsert_getD_lt {α : Type} (d : α) :
    ∀ (l : List α) (j i : Nat) (x : α), i < j → j ≤ l.length →
      (pyInsert l j x).getD i d = l.getD i d := by
  intro l
  induction l with
  | nil => intro j i x hij hj; simp only [List.length_nil, Nat.le_zero] at hj; omega
  | cons hd tl ih =>
    intro j i x hij hj
    match j, hij with
    | m + 1, _ =>
      simp only [pyInsert, List.take_succ_cons, List.drop_succ_cons,
        List.cons_append]
      match i with
      | 0 => rfl
      | k + 1 =>
        simp only [List.getD_cons_succ]
        rw [show tl.take m ++ [x] ++ tl.drop m = pyInsert tl m x from rfl]
        exact ih m k x (by omega) (by simpa using hj)

theorem pyInsert_getD_self {α : Type} (d : α) :
    ∀ (l : List α) (j : Nat) (x : α), j ≤ l.length →
      (pyInsert l j x).getD j d = x := by
  intro l
  induction l with
  | nil =>
    intro j x h
    simp only [List.length_nil, Nat.le_zero] at h
    subst h
    rfl
  | cons hd tl ih =>
    intro j x h
    match j with
    | 0 => rfl
    | m + 1 =>
      simp only [pyInsert, List.take_succ_cons, List.drop_succ_cons,
        List.cons_append, List.getD_cons_succ]
      rw [show tl.take m ++ [x] ++ tl.drop m = pyInsert tl m x from rfl]
      exact ih m x (by simpa using h)

/-- Merging the two rows produced by a row split restores the row list:
the inverse law behind undoing a newline insertion. -/
theorem pyInsert_set_eraseIdx_inverse {α : Type} (d : α) :
    ∀ (l : List α) (r : Nat) (x y : α), r < l.length →
      ((pyInsert (l.set r x) (r + 1) y).set r (l.getD r d)).eraseIdx (r + 1)
        = l := by
  intro l
  induction l with
  | nil => intro r x y h; simp at h
  | cons hd tl ih =>
    intro r x y h
    match r with
    | 0 =>
      simp [pyInsert]
    | n + 1 =>
      simp only [List.set_cons_succ, List.getD_cons_succ, pyInsert,
        List.take_succ_cons, List.drop_succ_cons, List.cons_append,
        List.eraseIdx_cons_succ]
      rw [show (tl.set n x).take (n + 1) ++ [y] ++ (tl.set n x).drop (n + 1)
            = pyInsert (tl.set n x) (n + 1) y from rfl]
      rw [ih n x y (by simpa using h)]

/-- Splitting a merged row back at the recorded column restores the row
list: the inverse law behind undoing a newline deletion. -/
theorem eraseIdx_set_pyInsert_inverse {α : Type} (d : α) :
    ∀ (l : List α) (r : Nat) (m : α), r + 1 < l.length →
      pyInsert (((l.set r m).eraseIdx (r + 1)).set r (l.getD r d)) (r + 1)
          (l.getD (r + 1) d) = l := by
  intro l
  induction l with
  | nil => intro r m h; simp at h
  | cons hd tl ih =>
    intro r m h
    match r with
    | 0 =>
      match tl, h with
      | t0 :: tl2, _ => simp [pyInsert]
    | n + 1 =>
      simp only [List.set_cons_succ, List.getD_cons_succ,
        List.eraseIdx_cons_succ, pyInsert, List.take_succ_cons,
        List.drop_succ_cons, List.cons_append]
      rw [show (((tl.set n m).eraseIdx (n + 1)).set n (tl.getD n d)).take (n + 1)
            ++ [tl.getD (n + 1) d]
            ++ (((tl.set n m).eraseIdx (n + 1)).set n (tl.getD n d)).drop (n + 1)
            = pyInsert (((tl.set n m).eraseIdx (n + 1)).set n (tl.getD n d))
                (n + 1) (tl.getD (n + 1) d) from rfl]
      rw [ih n m (by simpa using h)]

/-- Appending to a capped stack always leaves the new entry on top. -/
theorem cappedAppend_getLast {α : Type} (cap : Nat) (hcap : 0 < cap)
    (st : List α) (x : α) : (cappedAppend cap st x).getLast? = some x := by
  rw [cappedAppend]
  show (if (st ++ [x]).length > cap then (st ++ [x]).eraseIdx 0
        else st ++ [x]).getLast? = some x
  split
  · rename_i hlen
    match st with
    | [] =>
      simp at hlen
      omega
    | s0 :: st2 =>
      rw [show ((s0 :: st2) ++ [x]).eraseIdx 0 = st2 ++ [x] from rfl]
      exact List.getLast?_concat _
  · exact List.getLast?_concat _

theorem eraseIdx_getD_lt {α : Type} (d : α) :
    ∀ (l : List α) (i j : Nat), j < i → (l.eraseIdx i).getD j d = l.getD j d := by
  intro l
  induction l with
  | nil => intro i j h; simp
  | cons hd tl ih =>
    intro i j h
    match i, h with
    | m + 1, _ =>
      simp only [List.eraseIdx_cons_succ]
      match j with
      | 0 => rfl
      | k + 1 =>
        simp only [List.getD_cons_succ]
        exact ih m k (by omega)

/-- The branch dispatch of `TypingApp._undo` on the popped edit record,
exactly the `if op.kind == "insert": ... else: ...` tree of the source. -/
def undoBranch (s1 : TypingState) (op : EditOp) : TypingState :=
  if op.kind = "insert" then
    if op.newline then removeNewlineAt s1 op.row
    else (removeGlyphAt s1 op.row op.col).1
  else
    if op.newline then insertNewlineAt s1 op.row op.col
    else
      match op.glyph with
      | some g => insertGlyphAt s1 op.row op.col g
      | none => s1

theorem typingUndo_getLast (s : TypingState) (op : EditOp)
    (h : s.undoStack.getLast? = some op) :
    typingUndo s = markCursorXTargetDirty
      { undoBranch { s with undoStack := s.undoStack.dropLast } op with
          cursorRow := op.cursorRow, cursorCol := op.cursorCol } := by
  rw [typingUndo, h]
  rfl

theorem typingUndo_empty (s : TypingState) (h : s.undoStack = []) :
    typingUndo s = s := by
  rw [typingUndo, h]
  rfl

/-- Undoing right after a push applies the recorded inverse branch to the
pushed state and restores the recorded cursor (state pushed bare). -/
theorem typingUndo_push_fields (t : TypingState) (op : EditOp)
    (X : List (List Glyph))
    (hX : ∀ u : TypingState, u.richLines = t.richLines →
      (undoBranch u op).richLines = X) :
    (typingUndo (typingPushUndo t op)).richLines = X ∧
    (typingUndo (typingPushUndo t op)).cursorRow = op.cursorRow ∧
    (typingUndo (typingPushUndo t op)).cursorCol = op.cursorCol := by
  rw [typingUndo_getLast (typingPushUndo t op) op (by
    show (cappedAppend typingUndoMaxDepth t.undoStack op).getLast? = some op
    exact cappedAppend_getLast typingUndoMaxDepth (by decide) t.undoStack op)]
  exact ⟨hX _ rfl, rfl, rfl⟩

/-- Undoing right after a push applies the recorded inverse branch to the
pushed state and restores the recorded cursor (push then dirty-mark, the
shape produced by `_insert_char`). -/
theorem typingUndo_mark_push_fields (t : TypingState) (op : EditOp)
    (X : List (List Glyph))
    (hX : ∀ u : TypingState, u.richLines = t.richLines →
      (undoBranch u op).richLines = X) :
    (typingUndo (markCursorXTargetDirty (typingPushUndo t op))).richLines = X ∧
    (typingUndo (markCursorXTargetDirty (typingPushUndo t op))).cursorRow
      = op.cursorRow ∧
    (typingUndo (markCursorXTargetDirty (typingPushUndo t op))).cursorCol
      = op.cursorCol := by
  rw [typingUndo_getLast (markCursorXTargetDirty (typingPushUndo t op)) op (by
    show (cappedAppend typingUndoMaxDepth t.undoStack op).getLast? = some op
    exact cappedAppend_getLast typingUndoMaxDepth (by decide) t.undoStack op)]
  exact ⟨hX _ rfl, rfl, rfl⟩

theorem undoBranch_insert_glyph (s1 : TypingState) (r c : Nat)
    (g : Option Glyph) (cr cc : Nat) (hcol : c < (rowAt s1 r).length) :
    (undoBranch s1 ⟨"insert", r, c, g, false, cr, cc⟩).richLines
      = s1.richLines.set r ((rowAt s1 r).eraseIdx c) := by
  have h1 : undoBranch s1 ⟨"insert", r, c, g, false, cr, cc⟩
      = (removeGlyphAt s1 r c).1 := rfl
  rw [h1, removeGlyphAt, if_neg (by omega)]
  rfl

theorem undoBranch_insert_newline (s1 : TypingState) (r c : Nat)
    (g : Option Glyph) (cr cc : Nat) (hrow1 : r + 1 < s1.richLines.length) :
    (undoBranch s1 ⟨"insert", r, c, g, true, cr, cc⟩).richLines
      = (s1.richLines.set r (rowAt s1 r ++ rowAt s1 (r + 1))).eraseIdx (r + 1) := by
  have h1 : undoBranch s1 ⟨"insert", r, c, g, true, cr, cc⟩
      = removeNewlineAt s1 r := rfl
  rw [h1, removeNewlineAt, if_neg (by omega)]

theorem undoBranch_delete_glyph (s1 : TypingState) (r c : Nat) (g : Glyph)
    (cr cc : Nat) :
    (undoBranch s1 ⟨"delete", r, c, some g, false, cr, cc⟩).richLines
      = s1.richLines.set r (pyInsert (rowAt s1 r) c ⟨g.char, g.size, g.style⟩) :=
  rfl

theorem undoBranch_delete_newline (s1 : TypingState) (r c : Nat)
    (g : Option Glyph) (cr cc : Nat) :
    (undoBranch s1 ⟨"delete", r, c, g, true, cr, cc⟩).richLines
      = pyInsert (s1.richLines.set r ((rowAt s1 r).take c)) (r + 1)
          ((rowAt s1 r).drop c) :=
  rfl

theorem removeNewlineAt_richLines (s : TypingState) (r : Nat)
    (h : r + 1 < s.richLines.length) :
    (removeNewlineAt s r).richLines
      = (s.richLines.set r (rowAt s r ++ rowAt s (r + 1))).eraseIdx (r + 1) := by
  rw [removeNewlineAt, if_neg (by omega)]

/-- `_insert_char` on a non-newline character, written as push-then-mark of
the post-edit state with its recorded `EditOp`. -/
theorem insertChar_glyph_eq (s : TypingState) (c : String) (hc : ¬ c = "\n") :
    insertChar s c = markCursorXTargetDirty (typingPushUndo
      { insertGlyphAt s s.cursorRow s.cursorCol ⟨c, s.currentTextSize, s.textStyle⟩
          with cursorCol :=
            (insertGlyphAt s s.cursorRow s.cursorCol
              ⟨c, s.currentTextSize, s.textStyle⟩).cursorCol + 1 }
      ⟨"insert", s.cursorRow, s.cursorCol,
        some ⟨c, s.currentTextSize, s.textStyle⟩, false,
        s.cursorRow, s.cursorCol⟩) := by
  rw [insertChar, if_neg hc]

/-- `_insert_char` on a newline, written as push-then-mark of the post-edit
state with its recorded `EditOp`. -/
theorem insertChar_newline_eq (s : TypingState) :
    insertChar s "\n" = markCursorXTargetDirty (typingPushUndo
      { insertNewlineAt s s.cursorRow s.cursorCol with
          cursorRow := (insertNewlineAt s s.cursorRow s.cursorCol).cursorRow + 1,
          cursorCol := 0 }
      ⟨"insert", s.cursorRow, s.cursorCol, none, true,
        s.cursorRow, s.cursorCol⟩) := by
  rw [insertChar, if_pos rfl]

/-- The document part of `_remove_glyph_at(cursor_row, cursor_col - 1)`:
the row loses the glyph left of the cursor and the text mirror resyncs. -/
def deleteGlyphState (s : TypingState) : TypingState :=
  let newRow := (rowAt s s.cursorRow).eraseIdx (s.cursorCol - 1)
  syncTextLine { s with richLines := s.richLines.set s.cursorRow newRow } s.cursorRow

/-- `_delete_backward` with the cursor inside a row removes the glyph to the
left and records it. -/
theorem deleteBackward_glyph_eq (s : TypingState) (h0 : 0 < s.cursorCol)
    (hcol : s.cursorCol - 1 < (rowAt s s.cursorRow).length) :
    deleteBackward s =
      (markCursorXTargetDirty
        { deleteGlyphState s with cursorCol := s.cursorCol - 1 },
       some ⟨"delete", s.cursorRow, s.cursorCol - 1,
         some ((rowAt s s.cursorRow).getD (s.cursorCol - 1) defaultGlyph), false,
         s.cursorRow, s.cursorCol⟩) := by
  rw [deleteBackward, if_neg (by omega), if_pos h0, removeGlyphAt,
    if_neg (by omega)]
  rfl

/-- `_delete_backward` at column 0 of a non-first row merges the row into
the previous one and records the split point. -/
theorem deleteBackward_newline_eq (s : TypingState) (h0 : s.cursorCol = 0)
    (hr0 : 0 < s.cursorRow) :
    deleteBackward s =
      (markCursorXTargetDirty { removeNewlineAt s (s.cursorRow - 1) with
          cursorRow := (removeNewlineAt s (s.cursorRow - 1)).cursorRow - 1,
          cursorCol := (rowAt s (s.cursorRow - 1)).length },
       some ⟨"delete", s.cursorRow - 1, (rowAt s (s.cursorRow - 1)).length,
         none, true, s.cursorRow, s.cursorCol⟩) := by
  rw [deleteBackward, if_neg (by omega), if_neg (by omega)]

theorem backspaceKey_eq (s t : TypingState) (op : EditOp)
    (h : deleteBackward s = (t, some op)) :
    backspaceKey s = typingPushUndo t op := by
  rw [backspaceKey, h]

/-- Undo after inserting a non-newline character restores the rows and the
cursor. -/
theorem undo_insert_glyph_case (s : TypingState) (c : String)
    (hc : ¬ c = "\n") (hrow : s.cursorRow < s.richLines.length)
    (hcol : s.cursorCol ≤ (rowAt s s.cursorRow).length) :
    (typingUndo (insertChar s c)).richLines = s.richLines ∧
    (typingUndo (insertChar s c)).cursorRow = s.cursorRow ∧
    (typingUndo (insertChar s c)).cursorCol = s.cursorCol := by
  rw [insertChar_glyph_eq s c hc]
  refine typingUndo_mark_push_fields _ _ _ ?_
  intro u hu
  have hr : rowAt u s.cursorRow
      = pyInsert (rowAt s s.cursorRow) s.cursorCol
          ⟨c, s.currentTextSize, s.textStyle⟩ := by
    rw [rowAt, hu]
    exact getD_set_self [] s.richLines s.cursorRow _ hrow
  have hcol2 : s.cursorCol < (rowAt u s.cursorRow).length := by
    rw [hr, pyInsert_length _ _ _ hcol]
    omega
  rw [undoBranch_insert_glyph u s.cursorRow s.cursorCol
    (some ⟨c, s.currentTextSize, s.textStyle⟩) s.cursorRow s.cursorCol hcol2]
  rw [hr, pyInsert_eraseIdx _ _ _ hcol, hu]
  show (s.richLines.set s.cursorRow
      (pyInsert (rowAt s s.cursorRow) s.cursorCol
        ⟨c, s.currentTextSize, s.textStyle⟩)).set s.cursorRow
      (rowAt s s.cursorRow) = s.richLines
  rw [List.set_set]
  exact set_getD_self [] s.richLines s.cursorRow hrow

/-- Undo after inserting a newline merges the two rows back and restores
the cursor. -/
theorem undo_insert_newline_case (s : TypingState)
    (hrow : s.cursorRow < s.richLines.length) :
    (typingUndo (insertChar s "\n")).richLines = s.richLines ∧
    (typingUndo (insertChar s "\n")).cursorRow = s.cursorRow ∧
    (typingUndo (insertChar s "\n")).cursorCol = s.cursorCol := by
  rw [insertChar_newline_eq s]
  refine typingUndo_mark_push_fields _ _ _ ?_
  intro u hu
  have hu2 : u.richLines
      = pyInsert (s.richLines.set s.cursorRow ((rowAt s s.cursorRow).take s.cursorCol))
          (s.cursorRow + 1) ((rowAt s s.cursorRow).drop s.cursorCol) := hu
  have hlen : u.richLines.length = s.richLines.length + 1 := by
    rw [hu2, pyInsert_length _ _ _ (by rw [List.length_set]; omega),
      List.length_set]
  have hrow2 : s.cursorRow + 1 < u.richLines.length := by omega
  rw [undoBranch_insert_newline u s.cursorRow s.cursorCol none
    s.cursorRow s.cursorCol hrow2]
  have hga : rowAt u s.cursorRow = (rowAt s s.cursorRow).take s.cursorCol := by
    rw [rowAt, hu2]
    rw [pyInsert_getD_lt []
      (s.richLines.set s.cursorRow ((rowAt s s.cursorRow).take s.cursorCol))
      (s.cursorRow + 1) s.cursorRow ((rowAt s s.cursorRow).drop s.cursorCol)
      (by omega) (by rw [List.length_set]; omega)]
    exact getD_set_self [] s.richLines s.cursorRow _ hrow
  have hgb : rowAt u (s.cursorRow + 1) = (rowAt s s.cursorRow).drop s.cursorCol := by
    rw [rowAt, hu2]
    exact pyInsert_getD_self [] _ (s.cursorRow + 1) _ (by rw [List.length_set]; omega)
  rw [hga, hgb, hu2, List.take_append_drop]
  exact pyInsert_set_eraseIdx_inverse [] s.richLines s.cursorRow _ _ hrow

/-- Undo after a backspace inside a row re-inserts the removed glyph and
restores the cursor. -/
theorem undo_backspace_glyph_case (s : TypingState) (h0 : 0 < s.cursorCol)
    (hrow : s.cursorRow < s.richLines.length)
    (hcol : s.cursorCol ≤ (rowAt s s.cursorRow).length) :
    (typingUndo (backspaceKey s)).richLines = s.richLines ∧
    (typingUndo (backspaceKey s)).cursorRow = s.cursorRow ∧
    (typingUndo (backspaceKey s)).cursorCol = s.cursorCol := by
  have hcol1 : s.cursorCol - 1 < (rowAt s s.cursorRow).length := by omega
  rw [backspaceKey_eq s _ _ (deleteBackward_glyph_eq s h0 hcol1)]
  refine typingUndo_push_fields _ _ _ ?_
  intro u hu
  have hr : rowAt u s.cursorRow
      = (rowAt s s.cursorRow).eraseIdx (s.cursorCol - 1) := by
    rw [rowAt, hu]
    exact getD_set_self [] s.richLines s.cursorRow _ hrow
  rw [undoBranch_delete_glyph u s.cursorRow (s.cursorCol - 1)
    ((rowAt s s.cursorRow).getD (s.cursorCol - 1) defaultGlyph)
    s.cursorRow s.cursorCol]
  rw [hr, hu]
  show (s.richLines.set s.cursorRow
      ((rowAt s s.cursorRow).eraseIdx (s.cursorCol - 1))).set s.cursorRow
      (pyInsert ((rowAt s s.cursorRow).eraseIdx (s.cursorCol - 1))
        (s.cursorCol - 1)
        ((rowAt s s.cursorRow).getD (s.cursorCol - 1) defaultGlyph))
      = s.richLines
  rw [List.set_set, pyInsert_getD_eraseIdx defaultGlyph _ _ hcol1]
  exact set_getD_self [] s.richLines s.cursorRow hrow

/-- Undo after a backspace at column 0 re-splits the merged row and
restores the cursor. -/
theorem undo_backspace_newline_case (s : TypingState) (h0 : s.cursorCol = 0)
    (hr0 : 0 < s.cursorRow) (hrow : s.cursorRow < s.richLines.length) :
    (typingUndo (backspaceKey s)).richLines = s.richLines ∧
    (typingUndo (backspaceKey s)).cursorRow = s.cursorRow ∧
    (typingUndo (backspaceKey s)).cursorCol = s.cursorCol := by
  rw [backspaceKey_eq s _ _ (deleteBackward_newline_eq s h0 hr0)]
  refine typingUndo_push_fields _ _ _ ?_
  intro u hu
  have hu2 : u.richLines = (removeNewlineAt s (s.cursorRow - 1)).richLines := hu
  rw [removeNewlineAt_richLines s (s.cursorRow - 1) (by omega)] at hu2
  rw [undoBranch_delete_newline u (s.cursorRow - 1)
    (rowAt s (s.cursorRow - 1)).length none s.cursorRow s.cursorCol]
  have hm : rowAt u (s.cursorRow - 1)
      = rowAt s (s.cursorRow - 1) ++ rowAt s (s.cursorRow - 1 + 1) := by
    rw [rowAt, hu2]
    rw [eraseIdx_getD_lt []
      (s.richLines.set (s.cursorRow - 1)
        (rowAt s (s.cursorRow - 1) ++ rowAt s (s.cursorRow - 1 + 1)))
      (s.cursorRow - 1 + 1) (s.cursorRow - 1) (by omega)]
    exact getD_set_self [] s.richLines (s.cursorRow - 1) _ (by omega)
  have htk : (rowAt u (s.cursorRow - 1)).take (rowAt s (s.cursorRow - 1)).length
      = rowAt s (s.cursorRow - 1) := by
    rw [hm]
    exact List.take_left _ _
  have hdr : (rowAt u (s.cursorRow - 1)).drop (rowAt s (s.cursorRow - 1)).length
      = rowAt s (s.cursorRow - 1 + 1) := by
    rw [hm]
    exact List.drop_left _ _
  rw [htk, hdr, hu2]
  exact eraseIdx_set_pyInsert_inverse [] s.richLines (s.cursorRow - 1) _ (by omega)

/-- C7: on a well-formed document, `_undo` pops the most recent edit record
and applies its exact inverse: after `_insert_char` (glyph or newline) undo
restores the glyph rows and the recorded pre-edit cursor; after a backspace
(glyph delete or row merge) undo re-inserts the recorded glyph or re-splits
the row, again restoring rows and cursor; and `_undo` is a no-op when the
history is empty. -/
theorem typing_undo_exact_inverse (s : TypingState) (c : String)
    (hwf : TypingWF s) :
    ((typingUndo (insertChar s c)).richLines = s.richLines ∧
     (typingUndo (insertChar s c)).cursorRow = s.cursorRow ∧
     (typingUndo (insertChar s c)).cursorCol = s.cursorCol) ∧
    (¬ (s.cursorRow = 0 ∧ s.cursorCol = 0) →
      (typingUndo (backspaceKey s)).richLines = s.richLines ∧
      (typingUndo (backspaceKey s)).cursorRow = s.cursorRow ∧
      (typingUndo (backspaceKey s)).cursorCol = s.cursorCol) ∧
    (s.undoStack = [] → typingUndo s = s) := by
  obtain ⟨hne, hrow, hcol⟩ := hwf
  refine ⟨?_, ?_, fun h => typingUndo_empty s h⟩
  · by_cases hc : c = "\n"
    · subst hc
      exact undo_insert_newline_case s hrow
    · exact undo_insert_glyph_case s c hc hrow hcol
  · intro hnz
    by_cases h0 : 0 < s.cursorCol
    · exact undo_backspace_glyph_case s h0 hrow hcol
    · have hc0 : s.cursorCol = 0 := by omega
      have hr0 : 0 < s.cursorRow := by omega
      exact undo_backspace_newline_case s hc0 hr0 hrow

/-- A two-row document with the cursor at the end of the second row. -/
def stateUndoW : TypingState :=
  { richLines := [[⟨"a", 25, "plain"⟩], [⟨"b", 25, "plain"⟩]],
    lineStyles := [(25, "plain"), (25, "plain")],
    textLines := ["a", "b"], undoStack := [], cursorRow := 1, cursorCol := 1,
    cursorXTarget := none, cursorXTargetDirty := false, currentTextSize := 25,
    textStyle := "plain", textScrollY := 0 }

theorem typing_undo_exact_inverse_witness :
    TypingWF stateUndoW ∧
    (typingUndo (insertChar stateUndoW "x")).richLines = stateUndoW.richLines ∧
    (typingUndo (backspaceKey stateUndoW)).richLines = stateUndoW.richLines ∧
    (typingUndo (backspaceKey stateUndoW)).cursorCol = stateUndoW.cursorCol :=
  ⟨by rw [TypingWF]; decide,
    (typing_undo_exact_inverse stateUndoW "x" (by rw [TypingWF]; decide)).1.1,
    ((typing_undo_exact_inverse stateUndoW "x"
      (by rw [TypingWF]; decide)).2.1 (by decide)).1,
    ((typing_undo_exact_inverse stateUndoW "x"
      (by rw [TypingWF]; decide)).2.1 (by decide)).2.2⟩

/-! ## C1: which width seeds the next fountain sub-segment -/

theorem chainEnd_append (w : ℚ) (p : Int × Int) :
    ∀ (xs ys : List FountainSeg), chainEnd w p (xs ++ ys)
      = chainEnd (chainEnd w p xs).1 (chainEnd w p xs).2 ys := by
  intro xs
  induction xs generalizing w p with
  | nil => intro ys; rfl
  | cons x xs ih =>
    intro ys
    rw [List.cons_append, chainEnd, ih, chainEnd]

theorem SegsChained_snoc (wf : Nat → Int × Int → Int × Int → Int) (size : Nat) :
    ∀ (xs : List FountainSeg) (w : ℚ) (p : Int × Int) (seg : FountainSeg),
      SegsChained wf size w p xs →
      seg.p1 = (chainEnd w p xs).2 →
      seg.startWidth = (if (chainEnd w p xs).1 ≤ 0
        then ((wf size seg.p1 seg.p2 : Int) : ℚ) else (chainEnd w p xs).1) →
      seg.endWidth = seg.startWidth +
        (((wf size seg.p1 seg.p2 : Int) : ℚ) - seg.startWidth) * fountainSmoothing →
      SegsChained wf size w p (xs ++ [seg]) := by
  intro xs
  induction xs with
  | nil =>
    intro w p seg _ h1 h2 h3
    exact ⟨h1, h2, h3, trivial⟩
  | cons x xs ih =>
    intro w p seg hchain h1 h2 h3
    obtain ⟨ha, hb, hc, hd⟩ := hchain
    exact ⟨ha, hb, hc, ih x.endWidth x.p2 seg hd h1 h2 h3⟩

/-- Invariant of the `for idx in range(1, steps + 1)` fountain loop: the
issued segments always form a smoothed-seeding chain whose running width
and point are the loop state's, one segment and one stroke point are added
per iteration, and the stroke points are the interpolated sub-segment
endpoints. -/
theorem fountainFold_inv (wf : Nat → Int × Int → Int × Int → Int)
    (size : Nat) (lp loc : Int × Int) (steps : Nat) (w0 : ℚ) (p0 : Int × Int) :
    ∀ (idxs : List Nat) (st : FountainState),
      SegsChained wf size w0 p0 st.segs →
      chainEnd w0 p0 st.segs = (st.width, st.prev) →
      SegsChained wf size w0 p0
        ((idxs.foldl (fountainStep wf size lp loc steps) st).segs) ∧
      chainEnd w0 p0 ((idxs.foldl (fountainStep wf size lp loc steps) st).segs)
        = ((idxs.foldl (fountainStep wf size lp loc steps) st).width,
           (idxs.foldl (fountainStep wf size lp loc steps) st).prev) ∧
      (idxs.foldl (fountainStep wf size lp loc steps) st).segs.length
        = st.segs.length + idxs.length ∧
      (idxs.foldl (fountainStep wf size lp loc steps) st).pts
        = st.pts ++ idxs.map (fountainPoint lp loc steps) := by
  intro idxs
  induction idxs with
  | nil =>
    intro st h1 h2
    simp only [List.foldl_nil]
    exact ⟨h1, h2, by simp, by simp⟩
  | cons i rest ih =>
    intro st h1 h2
    rw [List.foldl_cons]
    have hseg : (fountainStep wf size lp loc steps st i).segs
        = st.segs ++ [⟨st.prev, fountainPoint lp loc steps i,
            if st.width ≤ 0
              then ((wf size st.prev (fountainPoint lp loc steps i) : Int) : ℚ)
              else st.width,
            (if st.width ≤ 0
              then ((wf size st.prev (fountainPoint lp loc steps i) : Int) : ℚ)
              else st.width) +
            (((wf size st.prev (fountainPoint lp loc steps i) : Int) : ℚ) -
              (if st.width ≤ 0
                then ((wf size st.prev (fountainPoint lp loc steps i) : Int) : ℚ)
                else st.width)) * fountainSmoothing⟩] := rfl
    have h1' : SegsChained wf size w0 p0
        (fountainStep wf size lp loc steps st i).segs := by
      rw [hseg]
      refine SegsChained_snoc wf size st.segs w0 p0 _ h1 ?_ ?_ ?_
      · rw [h2]
      · rw [h2]
      · rfl
    have h2' : chainEnd w0 p0 (fountainStep wf size lp loc steps st i).segs
        = ((fountainStep wf size lp loc steps st i).width,
           (fountainStep wf size lp loc steps st i).prev) := by
      rw [hseg, chainEnd_append, chainEnd, chainEnd]
      rfl
    obtain ⟨g1, g2, g3, g4⟩ :=
      ih (fountainStep wf size lp loc steps st i) h1' h2'
    refine ⟨g1, g2, ?_, ?_⟩
    · rw [g3, hseg]
      simp only [List.length_append, List.length_cons, List.length_nil]
      omega
    · rw [g4]
      show (st.pts ++ [fountainPoint lp loc steps i]) ++ _ = _
      rw [List.append_assoc]
      rfl

/-- C1 (amended): during a fountain-tool stroke, each pointer-move segment
is subdivided into `steps = max(1, int(dist/1.5))` sub-segments at the
interpolated points; for each sub-segment the direction-dependent target
width is computed (modelled by the abstract `widthFor`), and the widths
follow the smoothed-seeding chain discipline: the start width of each
sub-segment is the running width carried over (or the geometric target
when the running width is not positive), the end width is the
exponentially smoothed value with factor 0.35, and it is this SMOOTHED end
width — not the true geometric width — that seeds the next sub-segment and
is stored back into the stroke. -/
theorem fountain_smoothed_width_seeds_next
    (wf : Nat → Int × Int → Int × Int → Int) (size : Nat)
    (lastPoint localPos : Int × Int) (width0 : ℚ) :
    SegsChained wf size width0 lastPoint
      (fountainMove wf size lastPoint localPos width0).1 ∧
    (fountainMove wf size lastPoint localPos width0).2.1
      = (chainEnd width0 lastPoint
          (fountainMove wf size lastPoint localPos width0).1).1 ∧
    (fountainMove wf size lastPoint localPos width0).1.length
      = fountainSteps lastPoint localPos ∧
    (fountainMove wf size lastPoint localPos width0).2.2
      = (List.range' 1 (fountainSteps lastPoint localPos)).map
          (fountainPoint lastPoint localPos (fountainSteps lastPoint localPos)) := by
  obtain ⟨h1, h2, h3, h4⟩ := fountainFold_inv wf size lastPoint localPos
    (fountainSteps lastPoint localPos) width0 lastPoint
    (List.range' 1 (fountainSteps lastPoint localPos))
    ⟨lastPoint, width0, [], []⟩ trivial rfl
  refine ⟨h1, ?_, ?_, ?_⟩
  · exact (congrArg Prod.fst h2).symm
  · show ((List.range' 1 (fountainSteps lastPoint localPos)).foldl
        (fountainStep wf size lastPoint localPos (fountainSteps lastPoint localPos))
        ⟨lastPoint, width0, [], []⟩).segs.length = fountainSteps lastPoint localPos
    rw [h3]
    simp
  · exact h4

/-- C1 counterexample: with a constant geometric target width of 20, nib
size 6, initial running width 10 and the pointer moving from (0,0) to
(4,0) (two sub-segments), the second sub-segment's start width is the
smoothed 27/2 of the first — not the geometric 20 — so the claim's
geometric-seeding chain predicate fails on the segments the code issues. -/
theorem fountain_geometric_seed_counterexample :
    (fountainMove (fun _ _ _ => 20) 6 (0, 0) (4, 0) 10).1
      = [⟨(0, 0), (2, 0), 10, 27/2⟩, ⟨(2, 0), (4, 0), 27/2, 631/40⟩] ∧
    ¬ SegsChainedSpec (fun _ _ _ => 20) 6 10 (0, 0)
        (fountainMove (fun _ _ _ => 20) 6 (0, 0) (4, 0) 10).1 := by
  have hsteps : fountainSteps (0, 0) (4, 0) = 2 := by
    rw [fountainSteps]
    norm_num
    rw [show Int.toNat 64 = 8 * 8 from rfl, Nat.sqrt_eq]
    norm_num
  have hp1 : fountainPoint (0, 0) (4, 0) 2 1 = (2, 0) := by
    rw [fountainPoint, pyInt, pyInt]
    norm_num
  have hp2 : fountainPoint (0, 0) (4, 0) 2 2 = (4, 0) := by
    rw [fountainPoint, pyInt, pyInt]
    norm_num
  have hsegs : (fountainMove (fun _ _ _ => 20) 6 (0, 0) (4, 0) 10).1
      = [⟨(0, 0), (2, 0), 10, 27/2⟩, ⟨(2, 0), (4, 0), 27/2, 631/40⟩] := by
    rw [fountainMove, hsteps]
    rw [show List.range' 1 2 = [1, 2] from rfl]
    simp only [List.foldl_cons, List.foldl_nil, fountainStep, hp1, hp2]
    norm_num [fountainSmoothing]
  refine ⟨hsegs, ?_⟩
  rw [hsegs]
  intro h
  obtain ⟨-, -, -, h2⟩ := h
  obtain ⟨-, hsw, -, -⟩ := h2
  norm_num at hsw

/-! ## C9: session serialization round-trip and skip behaviour -/

/-- The validity a glyph needs to survive `_deserialize_rich_lines`:
one-character `char`, positive `size`, one of the three known styles. -/
def GlyphValid (g : Glyph) : Prop :=
  g.char.length = 1 ∧ 0 < g.size ∧
    (g.style = "plain" ∨ g.style = "bold" ∨ g.style = "italic")

theorem deserializeGlyph_serialize (g : Glyph) (hv : GlyphValid g) :
    deserializeGlyph (Json.obj [("char", Json.str g.char),
      ("size", Json.num g.size), ("style", Json.str g.style)]) = some g := by
  obtain ⟨h1, h2, h3⟩ := hv
  show (if g.char.length ≠ 1 then none
    else if (g.size : Int) ≤ 0 then none
    else if g.style = "plain" ∨ g.style = "bold" ∨ g.style = "italic" then
      some ⟨g.char, (g.size : Int).toNat, g.style⟩
    else none) = some g
  rw [if_neg (by simp [h1]), if_neg (by omega), if_pos h3]
  simp

theorem deserialize_serialize_row (line : List Glyph)
    (hv : ∀ g ∈ line, GlyphValid g) :
    (line.map (fun glyph => Json.obj [("char", Json.str glyph.char),
        ("size", Json.num glyph.size),
        ("style", Json.str glyph.style)])).mapM deserializeGlyph
      = some line := by
  induction line with
  | nil => rfl
  | cons g gs ih =>
    rw [List.map_cons, List.mapM_cons,
      deserializeGlyph_serialize g (hv g (by simp)),
      ih (fun x hx => hv x (by simp [hx]))]
    rfl

theorem exceptPure {ε α : Type} (a : α) :
    (pure a : Except ε α) = Except.ok a := rfl

theorem exceptBind_error {ε α β : Type} (e : ε) (f : α → Except ε β) :
    (Except.error e >>= f) = Except.error e := rfl

theorem exceptBind_ok {ε α β : Type} (a : α) (f : α → Except ε β) :
    (Except.ok a >>= f) = f a := rfl

/-- A line whose text does not parse as JSON is skipped: the running list
is returned unchanged. -/
theorem loadSessionLine_skip (parse : String → Option Json) (limit : Nat)
    (recent : List RecallSession) (bad : String)
    (hbad : parse bad.trim = none) :
    loadSessionLine parse limit recent bad = Except.ok recent := by
  rw [loadSessionLine]
  show (if bad.trim = "" then Except.ok recent else _) = Except.ok recent
  split
  · rfl
  · rw [hbad]

theorem deserialize_serialize_rows (lines : List (List Glyph))
    (hv : ∀ line ∈ lines, ∀ g ∈ line, GlyphValid g) :
    (lines.map (fun line => Json.arr (line.map (fun glyph =>
        Json.obj [("char", Json.str glyph.char), ("size", Json.num glyph.size),
          ("style", Json.str glyph.style)])))).mapM (fun rawLine =>
      match rawLine with
      | Json.arr rawGlyphs => rawGlyphs.mapM deserializeGlyph
      | _ => none) = some lines := by
  induction lines with
  | nil => rfl
  | cons line rest ih =>
    rw [List.map_cons, List.mapM_cons]
    show Option.bind ((line.map _).mapM deserializeGlyph) _ = some (line :: rest)
    rw [deserialize_serialize_row line (hv line (by simp))]
    show Option.bind ((rest.map _).mapM _) _ = some (line :: rest)
    rw [ih (fun l hl g hg => hv l (by simp [hl]) g hg)]
    rfl

/-- C9 (amended): serializing a valid rich-text document and deserializing
it reconstructs identical glyphs in identical row order (for a non-empty
document: an empty list deserializes to the one-empty-row document), and a
line that does not parse as JSON is skipped without discarding prior or
subsequent lines.  (A parseable line holding a non-object record is NOT
skipped: `record.get` raises `AttributeError`, aborting the whole load —
see the counterexample.) -/
theorem session_roundtrip_and_skip (lines : List (List Glyph))
    (hne : lines ≠ []) (hv : ∀ line ∈ lines, ∀ g ∈ line, GlyphValid g)
    (parse : String → Option Json) (limit : Nat) (pre post : List String)
    (bad : String) (hbad : parse bad.trim = none) :
    deserializeRichLines (serializeRichLines lines) = some lines ∧
    loadRecentSessions parse (pre ++ bad :: post) limit
      = loadRecentSessions parse (pre ++ post) limit := by
  constructor
  · rw [serializeRichLines]
    show (match (lines.map _).mapM (fun rawLine =>
        match rawLine with
        | Json.arr rawGlyphs => rawGlyphs.mapM deserializeGlyph
        | _ => none) with
      | some parsed => some (if parsed = [] then [[]] else parsed)
      | none => none) = some lines
    rw [deserialize_serialize_rows lines hv]
    show some (if lines = [] then [[]] else lines) = some lines
    rw [if_neg hne]
  · rw [loadRecentSessions, loadRecentSessions,
      show pre ++ bad :: post = pre ++ [bad] ++ post by simp,
      List.foldlM_append, List.foldlM_append, List.foldlM_append]
    cases hres : List.foldlM (loadSessionLine parse limit) [] pre with
    | error e => simp only [hres, exceptBind_error]
    | ok recent =>
      simp only [hres, exceptBind_ok, List.foldlM_cons, List.foldlM_nil,
        loadSessionLine_skip parse limit recent bad hbad, exceptPure,
        exceptBind_ok]

/-- A session record as the app serializes it, holding the one-row
document `[["a"]]` and a timestamp. -/
def goodSessionJson : Json :=
  Json.obj [("rich_lines", serializeRichLines [[⟨"a", 25, "plain"⟩]]),
            ("timestamp", Json.str "t")]

/-- A toy `json.loads`: `"good"` parses to a valid session record,
`"null"` to JSON `null` (valid JSON, invalid record), anything else fails
to parse. -/
def parseToy : String → Option Json :=
  fun s => if s = "good" then some goodSessionJson
    else if s = "null" then some Json.null else none

theorem loadSessionLine_parsed (parse : String → Option Json) (limit : Nat)
    (recent : List RecallSession) (raw : String) (record : Json)
    (h1 : ¬ raw.trim = "") (h2 : parse raw.trim = some record) :
    loadSessionLine parse limit recent raw
      = loadSessionRecord limit recent record := by
  simp only [loadSessionLine]
  rw [if_neg h1, h2]

/-- C9 counterexample: a well-formed JSON line whose record is not an
object (`null`) is NOT skipped: `record.get("rich_lines")` raises
`AttributeError`, aborting `_load_recent_sessions` and discarding the
prior valid line, which loads fine on its own. -/
theorem session_skip_counterexample :
    loadRecentSessions parseToy ["good", "null"] 200
      = Except.error "AttributeError" ∧
    loadRecentSessions parseToy ["good"] 200
      = Except.ok [⟨"t", "a", [[⟨"a", 25, "plain"⟩]], false⟩] := by
  have ht1 : "good".trim = "good" := by
    rw [String.trim]
    simp +decide [Substring.trim, Substring.trimLeft, Substring.trimRight,
      Substring.takeWhileAux, Substring.takeRightWhileAux]
  have ht2 : "null".trim = "null" := by
    rw [String.trim]
    simp +decide [Substring.trim, Substring.trimLeft, Substring.trimRight,
      Substring.takeWhileAux, Substring.takeRightWhileAux]
  have hpv : previewText "a" = "a" := by
    rw [previewText, pySplitWs]
    have hsplit : "a".split Char.isWhitespace = ["a"] := by
      simp +decide [String.split, String.splitAux]
    rw [hsplit]
    set_option maxRecDepth 4000 in
    exact rfl
  have hgood : loadSessionLine parseToy 200 [] "good"
      = Except.ok [⟨"t", previewText "a", [[⟨"a", 25, "plain"⟩]], false⟩] := by
    rw [loadSessionLine_parsed parseToy 200 [] "good" goodSessionJson
      (by rw [ht1]; decide) (by rw [ht1]; rfl)]
    rfl
  have hR : loadSessionLine parseToy 200
      [⟨"t", previewText "a", [[⟨"a", 25, "plain"⟩]], false⟩] "null"
      = Except.error "AttributeError" := by
    rw [loadSessionLine_parsed parseToy 200 _ "null" Json.null
      (by rw [ht2]; decide) (by rw [ht2]; rfl)]
    rfl
  constructor
  · rw [loadRecentSessions, List.foldlM_cons, hgood, exceptBind_ok,
      List.foldlM_cons, hR, exceptBind_error, exceptBind_error]
  · rw [loadRecentSessions, List.foldlM_cons, hgood, exceptBind_ok,
      List.foldlM_nil, exceptPure, exceptBind_ok, hpv]
    rfl

theorem session_roundtrip_and_skip_witness :
    ([[⟨"a", 25, "plain"⟩]] : List (List Glyph)) ≠ [] ∧
    deserializeRichLines (serializeRichLines [[⟨"a", 25, "plain"⟩]])
      = some [[⟨"a", 25, "plain"⟩]] ∧
    loadRecentSessions (fun _ => none) (["x"] ++ "bad" :: []) 200
      = loadRecentSessions (fun _ => none) (["x"] ++ []) 200 :=
  ⟨by decide,
    (session_roundtrip_and_skip [[⟨"a", 25, "plain"⟩]] (by decide)
      (by
        intro line hl g hg
        rw [List.mem_singleton] at hl
        subst hl
        rw [List.mem_singleton] at hg
        subst hg
        exact ⟨rfl, by norm_num, Or.inl rfl⟩)
      (fun _ => none) 200 ["x"] [] "bad" rfl).1,
    (session_roundtrip_and_skip [[⟨"a", 25, "plain"⟩]] (by decide)
      (by
        intro line hl g hg
        rw [List.mem_singleton] at hl
        subst hl
        rw [List.mem_singleton] at hg
        subst hg
        exact ⟨rfl, by norm_num, Or.inl rfl⟩)
      (fun _ => none) 200 ["x"] [] "bad" rfl).2⟩

/-! ## C2: flood-fill exactness -/

/-- 4-connectivity: `q` is one of the four neighbours `_bucket_fill`
pushes for `p`. -/
def Adj (p q : Int × Int) : Prop :=
  q = (p.1, p.2 - 1) ∨ q = (p.1, p.2 + 1) ∨ q = (p.1 - 1, p.2) ∨ q = (p.1 + 1, p.2)

/-- The pixels 4-connected to `seed` through in-bounds pixels of the
target color (the component `_bucket_fill` is specified to recolor). -/
inductive Reach (pix0 : Int → Int → Color) (target : Color) (w h : Nat)
    (seed : Int × Int) : (Int × Int) → Prop where
  | refl : seed ∈ boundsFinset w h → pix0 seed.1 seed.2 = target →
      Reach pix0 target w h seed seed
  | tail {q r : Int × Int} : Reach pix0 target w h seed q → Adj q r →
      r ∈ boundsFinset w h → pix0 r.1 r.2 = target →
      Reach pix0 target w h seed r

theorem Reach.target_eq {pix0 : Int → Int → Color} {target : Color}
    {w h : Nat} {seed r : Int × Int}
    (hr : Reach pix0 target w h seed r) : pix0 r.1 r.2 = target := by
  cases hr with
  | refl _ h2 => exact h2
  | tail _ _ _ h4 => exact h4

theorem Reach.mem_bounds {pix0 : Int → Int → Color} {target : Color}
    {w h : Nat} {seed r : Int × Int}
    (hr : Reach pix0 target w h seed r) : r ∈ boundsFinset w h := by
  cases hr with
  | refl h1 _ => exact h1
  | tail _ _ h3 _ => exact h3

/-- The loop invariant of the `while stack` loop of `_bucket_fill`. -/
structure InvF (target repl : Color) (w h : Nat) (seed : Int × Int)
    (pix0 : Int → Int → Color) (stack : List (Int × Int))
    (visited : Finset (Int × Int)) (pix : Int → Int → Color)
    (trace : List (Int × Int)) : Prop where
  bounds : visited ⊆ boundsFinset w h
  desc : ∀ a b, pix a b
    = if (a, b) ∈ visited ∧ pix0 a b = target then repl else pix0 a b
  frontier : ∀ p ∈ visited, ∀ q, pix0 p.1 p.2 = target → Adj p q →
    q ∈ boundsFinset w h → pix0 q.1 q.2 = target → (q ∈ visited ∨ q ∈ stack)
  sound : ∀ p ∈ visited, pix0 p.1 p.2 = target → Reach pix0 target w h seed p
  stackSound : ∀ q ∈ stack, q = seed ∨
    ∃ p ∈ visited, pix0 p.1 p.2 = target ∧ Adj p q
  seedIn : seed ∈ visited ∨ seed ∈ stack
  traceNodup : trace.Nodup
  traceSet : ∀ x, x ∈ visited ↔ x ∈ trace

/-- What holds of the loop's result: the recolored pixels are exactly the
visited target-colored ones, the visited set is reachability-closed,
sound, contains the seed, is in bounds, and is logged once per pixel in
the visit trace. -/
structure PostF (target repl : Color) (w h : Nat) (seed : Int × Int)
    (pix0 : Int → Int → Color) (visited0 : Finset (Int × Int))
    (res : (Int → Int → Color) × Finset (Int × Int) × List (Int × Int)) :
    Prop where
  desc : ∀ a b, res.1 a b
    = if (a, b) ∈ res.2.1 ∧ pix0 a b = target then repl else pix0 a b
  closed : ∀ p ∈ res.2.1, ∀ q, pix0 p.1 p.2 = target → Adj p q →
    q ∈ boundsFinset w h → pix0 q.1 q.2 = target → q ∈ res.2.1
  sound : ∀ p ∈ res.2.1, pix0 p.1 p.2 = target → Reach pix0 target w h seed p
  seedIn : seed ∈ res.2.1
  traceNodup : res.2.2.Nodup
  traceSet : ∀ x, x ∈ res.2.1 ↔ x ∈ res.2.2
  bounds : res.2.1 ⊆ boundsFinset w h
  mono : visited0 ⊆ res.2.1

/-- Reachable pixels are members of any reachability-closed visited set
that contains the seed. -/
theorem reach_mem_of_closed {pix0 : Int → Int → Color} {target : Color}
    {w h : Nat} {seed r : Int × Int} {V : Finset (Int × Int)}
    (hseed : seed ∈ V)
    (hclosed : ∀ p ∈ V, ∀ q, pix0 p.1 p.2 = target → Adj p q →
      q ∈ boundsFinset w h → pix0 q.1 q.2 = target → q ∈ V)
    (hr : Reach pix0 target w h seed r) : r ∈ V := by
  induction hr with
  | refl _ _ => exact hseed
  | tail hq hadj hb ht ih =>
    exact hclosed _ ih _ hq.target_eq hadj hb ht

/-- The `while stack` loop of `_bucket_fill` preserves `InvF` and
establishes `PostF` on termination. -/
theorem fillLoop_post (target repl : Color) (w h : Nat) (seed : Int × Int)
    (pix0 : Int → Int → Color)
    (hseedb : seed ∈ boundsFinset w h) (hseedc : pix0 seed.1 seed.2 = target) :
    ∀ (stack : List (Int × Int)) (visited : Finset (Int × Int))
      (pix : Int → Int → Color) (trace : List (Int × Int)),
      InvF target repl w h seed pix0 stack visited pix trace →
      PostF target repl w h seed pix0 visited
        (fillLoop target repl w h stack visited pix trace) := by
  intro stack visited pix trace
  induction stack, visited, pix, trace using fillLoop.induct target repl w h with
  | case1 visited pix trace =>
    intro hinv
    rw [fillLoop]
    exact { desc := hinv.desc
            closed := fun p hp q h1 h2 h3 h4 =>
              (hinv.frontier p hp q h1 h2 h3 h4).resolve_right
                (List.not_mem_nil q)
            sound := hinv.sound
            seedIn := hinv.seedIn.resolve_right (List.not_mem_nil seed)
            traceNodup := hinv.traceNodup
            traceSet := hinv.traceSet
            bounds := hinv.bounds
            mono := Finset.Subset.refl _ }
  | case2 cx cy rest visited pix trace hcond ih =>
    intro hinv
    rw [fillLoop]
    simp only [if_pos hcond]
    refine ih ?_
    exact { bounds := hinv.bounds
            desc := hinv.desc
            frontier := fun p hp q h1 h2 h3 h4 => by
              rcases hinv.frontier p hp q h1 h2 h3 h4 with hv | hs
              · exact Or.inl hv
              · rcases List.mem_cons.1 hs with heq | hrest
                · exfalso
                  rw [heq] at h3
                  simp only [mem_boundsFinset] at h3
                  omega
                · exact Or.inr hrest
            sound := hinv.sound
            stackSound := fun q hq =>
              hinv.stackSound q (List.mem_cons_of_mem _ hq)
            seedIn := by
              rcases hinv.seedIn with hv | hs
              · exact Or.inl hv
              · rcases List.mem_cons.1 hs with heq | hrest
                · exfalso
                  rw [heq] at hseedb
                  simp only [mem_boundsFinset] at hseedb
                  omega
                · exact Or.inr hrest
            traceNodup := hinv.traceNodup
            traceSet := hinv.traceSet }
  | case3 cx cy rest visited pix trace hcond hmem ih =>
    intro hinv
    rw [fillLoop]
    simp only [if_neg hcond, if_pos hmem]
    refine ih ?_
    exact { bounds := hinv.bounds
            desc := hinv.desc
            frontier := fun p hp q h1 h2 h3 h4 => by
              rcases hinv.frontier p hp q h1 h2 h3 h4 with hv | hs
              · exact Or.inl hv
              · rcases List.mem_cons.1 hs with heq | hrest
                · exact Or.inl (heq ▸ hmem)
                · exact Or.inr hrest
            sound := hinv.sound
            stackSound := fun q hq =>
              hinv.stackSound q (List.mem_cons_of_mem _ hq)
            seedIn := by
              rcases hinv.seedIn with hv | hs
              · exact Or.inl hv
              · rcases List.mem_cons.1 hs with heq | hrest
                · exact Or.inl (heq ▸ hmem)
                · exact Or.inr hrest
            traceNodup := hinv.traceNodup
            traceSet := hinv.traceSet }
  | case4 cx cy rest visited pix trace hcond hnotv visited2 trace2 hpixne ih =>
    intro hinv
    have hbcxcy : (cx, cy) ∈ boundsFinset w h := by
      simp only [mem_boundsFinset]
      omega
    have hdesc := hinv.desc cx cy
    rw [if_neg (fun hand => hnotv hand.1)] at hdesc
    have hp0 : pix0 cx cy ≠ target := by
      rw [hdesc] at hpixne
      exact hpixne
    rw [fillLoop]
    simp only [if_neg hcond, if_neg hnotv, if_pos hpixne]
    have hinv2 : InvF target repl w h seed pix0 rest visited2 pix trace2 :=
      { bounds := Finset.insert_subset_iff.2 ⟨hbcxcy, hinv.bounds⟩
        desc := fun a b => by
              by_cases hab : (a, b) = (cx, cy)
              · injection hab with ha hb2
                subst ha
                subst hb2
                rw [if_neg (fun hand => hp0 hand.2)]
                exact hdesc
              · rw [hinv.desc a b]
                refine if_congr (and_congr_left fun _ => ?_) rfl rfl
                rw [Finset.mem_insert]
                exact ⟨Or.inr, fun hor => hor.resolve_left hab⟩
        frontier := fun p hp q h1 h2 h3 h4 => by
              rcases Finset.mem_insert.1 hp with heq | hpv
              · exact absurd h1 (heq ▸ hp0)
              · rcases hinv.frontier p hpv q h1 h2 h3 h4 with hv | hs
                · exact Or.inl (Finset.mem_insert_of_mem hv)
                · rcases List.mem_cons.1 hs with heq | hrest
                  · exact Or.inl (heq ▸ Finset.mem_insert_self _ _)
                  · exact Or.inr hrest
        sound := fun p hp h1 => by
              rcases Finset.mem_insert.1 hp with heq | hpv
              · exact absurd h1 (heq ▸ hp0)
              · exact hinv.sound p hpv h1
        stackSound := fun q hq => by
              rcases hinv.stackSound q (List.mem_cons_of_mem _ hq) with hs | ⟨p, hp, h1, h2⟩
              · exact Or.inl hs
              · exact Or.inr ⟨p, Finset.mem_insert_of_mem hp, h1, h2⟩
        seedIn := by
              rcases hinv.seedIn with hv | hs
              · exact Or.inl (Finset.mem_insert_of_mem hv)
              · rcases List.mem_cons.1 hs with heq | hrest
                · exact Or.inl (heq ▸ Finset.mem_insert_self _ _)
                · exact Or.inr hrest
        traceNodup := by
              rw [List.nodup_append]
              refine ⟨hinv.traceNodup, List.nodup_singleton _, ?_⟩
              intro a ha hb
              rw [List.mem_singleton] at hb
              subst hb
              exact hnotv ((hinv.traceSet _).2 ha)
        traceSet := fun x => by
              rw [Finset.mem_insert, List.mem_append, List.mem_singleton,
                hinv.traceSet x]
              tauto }
    have post := ih hinv2
    exact { post with
      mono := Finset.Subset.trans (Finset.subset_insert _ _) post.mono }
  | case5 cx cy rest visited pix trace hcond hnotv visited2 trace2 hpixne ih =>
    intro hinv
    have hbcxcy : (cx, cy) ∈ boundsFinset w h := by
      simp only [mem_boundsFinset]
      omega
    have hdesc := hinv.desc cx cy
    rw [if_neg (fun hand => hnotv hand.1)] at hdesc
    have hp0 : pix0 cx cy = target := by
      rw [← hdesc]
      exact not_not.1 hpixne
    have hreachcx : Reach pix0 target w h seed (cx, cy) := by
      rcases hinv.stackSound (cx, cy) (List.mem_cons_self _ _) with hs | ⟨p, hp, h1, h2⟩
      · rw [hs]
        exact Reach.refl hseedb hseedc
      · exact Reach.tail (hinv.sound p hp h1) h2 hbcxcy hp0
    rw [fillLoop]
    simp only [if_neg hcond, if_neg hnotv, if_neg hpixne]
    have hinv2 : InvF target repl w h seed pix0
        ((cx, cy - 1) :: (cx, cy + 1) :: (cx - 1, cy) :: (cx + 1, cy) :: rest)
        visited2 (setPix pix cx cy repl) trace2 :=
      { bounds := Finset.insert_subset_iff.2 ⟨hbcxcy, hinv.bounds⟩
        desc := fun a b => by
               rw [setPix]
               by_cases hab : a = cx ∧ b = cy
               · obtain ⟨ha, hb2⟩ := hab
                 subst ha
                 subst hb2
                 rw [if_pos ⟨rfl, rfl⟩,
                   if_pos ⟨Finset.mem_insert_self _ _, hp0⟩]
               · rw [if_neg hab, hinv.desc a b]
                 refine if_congr (and_congr_left fun _ => ?_) rfl rfl
                 rw [Finset.mem_insert]
                 refine ⟨Or.inr, fun hor => hor.resolve_left fun heq => hab ?_⟩
                 injection heq with ha hb2
                 exact ⟨ha, hb2⟩
        frontier := fun p hp q h1 h2 h3 h4 => by
               rcases Finset.mem_insert.1 hp with heq | hpv
               · subst heq
                 rcases h2 with h | h | h | h <;>
                   [skip; skip; skip; skip] <;>
                   subst h <;> simp [List.mem_cons]
               · rcases hinv.frontier p hpv q h1 h2 h3 h4 with hv | hs
                 · exact Or.inl (Finset.mem_insert_of_mem hv)
                 · rcases List.mem_cons.1 hs with heq | hrest
                   · exact Or.inl (heq ▸ Finset.mem_insert_self _ _)
                   · exact Or.inr (by simp [List.mem_cons, hrest])
        sound := fun p hp h1 => by
               rcases Finset.mem_insert.1 hp with heq | hpv
               · exact heq ▸ hreachcx
               · exact hinv.sound p hpv h1
        stackSound := fun q hq => by
               rcases List.mem_cons.1 hq with h | hq2
               · exact Or.inr ⟨(cx, cy), Finset.mem_insert_self _ _, hp0,
                   Or.inl h⟩
               rcases List.mem_cons.1 hq2 with h | hq3
               · exact Or.inr ⟨(cx, cy), Finset.mem_insert_self _ _, hp0,
                   Or.inr (Or.inl h)⟩
               rcases List.mem_cons.1 hq3 with h | hq4
               · exact Or.inr ⟨(cx, cy), Finset.mem_insert_self _ _, hp0,
                   Or.inr (Or.inr (Or.inl h))⟩
               rcases List.mem_cons.1 hq4 with h | hq5
               · exact Or.inr ⟨(cx, cy), Finset.mem_insert_self _ _, hp0,
                   Or.inr (Or.inr (Or.inr h))⟩
               · rcases hinv.stackSound q (List.mem_cons_of_mem _ hq5) with hs | ⟨p, hp, h1, h2⟩
                 · exact Or.inl hs
                 · exact Or.inr ⟨p, Finset.mem_insert_of_mem hp, h1, h2⟩
        seedIn := by
               rcases hinv.seedIn with hv | hs
               · exact Or.inl (Finset.mem_insert_of_mem hv)
               · rcases List.mem_cons.1 hs with heq | hrest
                 · exact Or.inl (heq ▸ Finset.mem_insert_self _ _)
                 · exact Or.inr (by simp [List.mem_cons, hrest])
        traceNodup := by
               rw [List.nodup_append]
               refine ⟨hinv.traceNodup, List.nodup_singleton _, ?_⟩
               intro a ha hb
               rw [List.mem_singleton] at hb
               subst hb
               exact hnotv ((hinv.traceSet _).2 ha)
        traceSet := fun x => by
               rw [Finset.mem_insert, List.mem_append, List.mem_singleton,
                 hinv.traceSet x]
               tauto }
    have post := ih hinv2
    exact { post with
      mono := Finset.Subset.trans (Finset.subset_insert _ _) post.mono }

theorem boundsFinset_card (w h : Nat) :
    (boundsFinset w h).card = w * h := by
  rw [boundsFinset, Finset.card_product, Int.card_Ico, Int.card_Ico]
  simp

/-- C2: for an in-bounds seed, `_bucket_fill` recolors exactly the
4-connected component of pixels equal (exact RGB) to the seed pixel's
color that is reachable from the seed and changes nothing else, the
dimensions are preserved, each pixel is visited at most once and at most
`w * h` pixels are visited in total; when the seed already has the fill
color the canvas is returned bit-for-bit unchanged — and on pointer-down
the bucket branch still pushes an undo snapshot (and empties the redo
stack) before that no-op check. -/
theorem bucket_fill_exact (img : Img) (pos : Int × Int) (color : Color)
    (s : PaintState Img) (hin : pos ∈ boundsFinset img.w img.h) :
    (img.pix pos.1 pos.2 = color → bucketFill img pos color = (img, [])) ∧
    (img.pix pos.1 pos.2 ≠ color →
      (bucketFill img pos color).1.w = img.w ∧
      (bucketFill img pos color).1.h = img.h ∧
      (∀ a b : Int,
        (Reach img.pix (img.pix pos.1 pos.2) img.w img.h pos (a, b) →
          (bucketFill img pos color).1.pix a b = color) ∧
        (¬ Reach img.pix (img.pix pos.1 pos.2) img.w img.h pos (a, b) →
          (bucketFill img pos color).1.pix a b = img.pix a b)) ∧
      (bucketFill img pos color).2.Nodup ∧
      (bucketFill img pos color).2.length ≤ img.w * img.h) ∧
    (s.canvas = img →
      (strokeOrFill (fun c => (bucketFill c pos color).1) s).undoStack
        = cappedAppend paintUndoMaxDepth s.undoStack s.canvas ∧
      (strokeOrFill (fun c => (bucketFill c pos color).1) s).redoStack = [] ∧
      (img.pix pos.1 pos.2 = color →
        (strokeOrFill (fun c => (bucketFill c pos color).1) s).canvas
          = s.canvas)) := by
  obtain ⟨hb1, hb2, hb3, hb4⟩ := mem_boundsFinset.1 hin
  have hnoop : img.pix pos.1 pos.2 = color → bucketFill img pos color = (img, []) := by
    intro hc
    simp only [bucketFill]
    rw [if_neg (by omega), if_pos hc]
  refine ⟨hnoop, ?_, ?_⟩
  · intro hc
    have hinit : InvF (img.pix pos.1 pos.2) color img.w img.h pos img.pix
        [(pos.1, pos.2)] ∅ img.pix [] :=
      { bounds := Finset.empty_subset _
        desc := fun a b => by
          rw [if_neg]
          simp
        frontier := fun p hp => absurd hp (Finset.not_mem_empty p)
        sound := fun p hp => absurd hp (Finset.not_mem_empty p)
        stackSound := fun q hq => Or.inl (List.mem_singleton.1 hq)
        seedIn := Or.inr (List.mem_singleton.2 rfl)
        traceNodup := List.nodup_nil
        traceSet := fun x => by simp }
    have hpost := fillLoop_post (img.pix pos.1 pos.2) color img.w img.h pos
      img.pix hin rfl [(pos.1, pos.2)] ∅ img.pix [] hinit
    have hbf : bucketFill img pos color
        = ({ img with pix := (fillLoop (img.pix pos.1 pos.2) color img.w img.h
              [(pos.1, pos.2)] ∅ img.pix []).1 },
           (fillLoop (img.pix pos.1 pos.2) color img.w img.h
              [(pos.1, pos.2)] ∅ img.pix []).2.2) := by
      simp only [bucketFill]
      rw [if_neg (by omega), if_neg hc]
    rw [hbf]
    refine ⟨rfl, rfl, ?_, hpost.traceNodup, ?_⟩
    · intro a b
      constructor
      · intro hr
        show (fillLoop (img.pix pos.1 pos.2) color img.w img.h
          [(pos.1, pos.2)] ∅ img.pix []).1 a b = color
        rw [hpost.desc a b,
          if_pos ⟨reach_mem_of_closed hpost.seedIn hpost.closed hr, hr.target_eq⟩]
      · intro hr
        show (fillLoop (img.pix pos.1 pos.2) color img.w img.h
          [(pos.1, pos.2)] ∅ img.pix []).1 a b = img.pix a b
        rw [hpost.desc a b,
          if_neg (fun hand => hr (hpost.sound _ hand.1 hand.2))]
    · show (fillLoop (img.pix pos.1 pos.2) color img.w img.h
        [(pos.1, pos.2)] ∅ img.pix []).2.2.length ≤ img.w * img.h
      have hset : (fillLoop (img.pix pos.1 pos.2) color img.w img.h
          [(pos.1, pos.2)] ∅ img.pix []).2.2.toFinset
          = (fillLoop (img.pix pos.1 pos.2) color img.w img.h
              [(pos.1, pos.2)] ∅ img.pix []).2.1 :=
        Finset.ext fun x => by
          rw [List.mem_toFinset, hpost.traceSet x]
      calc (fillLoop (img.pix pos.1 pos.2) color img.w img.h
              [(pos.1, pos.2)] ∅ img.pix []).2.2.length
          = (fillLoop (img.pix pos.1 pos.2) color img.w img.h
              [(pos.1, pos.2)] ∅ img.pix []).2.2.toFinset.card := by
            rw [List.toFinset_card_of_nodup hpost.traceNodup]
        _ ≤ (boundsFinset img.w img.h).card := by
            rw [hset]
            exact Finset.card_le_card hpost.bounds
        _ = img.w * img.h := boundsFinset_card img.w img.h
  · intro hs
    refine ⟨rfl, rfl, fun hc => ?_⟩
    show (bucketFill s.canvas pos color).1 = s.canvas
    rw [hs, hnoop hc]

/-- A 1×1 all-black canvas. -/
def imgW : Img := ⟨1, 1, fun _ _ => (0, 0, 0)⟩

theorem bucket_fill_exact_witness :
    (0, 0) ∈ boundsFinset imgW.w imgW.h ∧
    (bucketFill imgW (0, 0) (9, 9, 9)).2.Nodup ∧
    bucketFill imgW (0, 0) (0, 0, 0) = (imgW, []) ∧
    (strokeOrFill (fun c => (bucketFill c (0, 0) (0, 0, 0)).1)
        (⟨imgW, [], []⟩ : PaintState Img)).canvas = imgW :=
  ⟨by rw [mem_boundsFinset]; norm_num [imgW],
    ((bucket_fill_exact imgW (0, 0) (9, 9, 9) ⟨imgW, [], []⟩
      (by rw [mem_boundsFinset]; norm_num [imgW])).2.1 (by decide)).2.2.2.1,
    (bucket_fill_exact imgW (0, 0) (0, 0, 0) ⟨imgW, [], []⟩
      (by rw [mem_boundsFinset]; norm_num [imgW])).1 rfl,
    ((bucket_fill_exact imgW (0, 0) (0, 0, 0) ⟨imgW, [], []⟩
      (by rw [mem_boundsFinset]; norm_num [imgW])).2.2 rfl).2.2 rfl⟩

/-! ## C10: well-formedness preservation -/

theorem splitTake_le_len (maxWidth : Nat) :
    ∀ (s : List Nat) (acc j : Nat), splitTake maxWidth s acc j ≤ j + s.length := by
  intro s
  induction s with
  | nil => intro acc j; simp [splitTake]
  | cons w rest ih =>
    intro acc j
    rw [splitTake]
    split
    · have := ih (acc + w) (j + 1)
      simp only [List.length_cons]
      omega
    · simp

theorem hardSplit_mem_le (tokenStart : Nat) (widths : List Nat)
    (maxWidth : Nat) :
    ∀ (i : Nat), ∀ r ∈ hardSplit tokenStart widths maxWidth i,
      i ≤ widths.length →
      r.1 ≤ tokenStart + widths.length ∧ r.2 ≤ tokenStart + widths.length := by
  intro i
  induction i using hardSplit.induct tokenStart widths maxWidth with
  | case1 i hlt j ih =>
    intro r hr hi
    rw [hardSplit, dif_pos hlt] at hr
    have hj : j ≤ widths.length := by
      have h1 := splitTake_le_len maxWidth (widths.drop i) 0 i
      have h2 : (widths.drop i).length = widths.length - i := by simp
      show j ≤ widths.length
      omega
    rcases List.mem_cons.1 hr with heq | hmem
    · subst heq
      refine ⟨?_, ?_⟩
      · show tokenStart + i ≤ tokenStart + widths.length
        omega
      · show tokenStart + j ≤ tokenStart + widths.length
        omega
    · exact ih r hmem hj
  | case2 i hge =>
    intro r hr _
    rw [hardSplit, dif_neg hge] at hr
    exact absurd hr (List.not_mem_nil r)

/-- Weak wrap invariant: every emitted or open line endpoint stays within
the row, with no assumption on glyph widths. -/
def WrapInvN (n : Nat) (st : WrapState) : Prop :=
  (∀ r ∈ st.lines, r.1 ≤ n ∧ r.2 ≤ n) ∧
  (∀ a, st.lineStart = some a → a ≤ n) ∧
  (∀ b, st.lineStop = some b → b ≤ n)

theorem flushLine_mem_le (n : Nat) (st : WrapState) (hinv : WrapInvN n st) :
    ∀ r ∈ flushLine st, r.1 ≤ n ∧ r.2 ≤ n := by
  intro r hr
  rw [flushLine] at hr
  obtain ⟨h1, h2, h3⟩ := hinv
  split at hr
  · rename_i a b ha hb
    rcases List.mem_append.1 hr with hm | hm
    · exact h1 r hm
    · rw [List.mem_singleton] at hm
      subst hm
      exact ⟨h2 a ha, h3 b hb⟩
  · exact h1 r hr

theorem wrap_fold_bounds (widths : List Nat) (maxWidth : Nat) :
    ∀ (tokens : List WrapToken) (c n : Nat) (st : WrapState),
      TokensChain widths c n tokens → n ≤ widths.length →
      WrapInvN n st →
      WrapInvN n (tokens.foldl (wrapStep maxWidth) st) := by
  intro tokens
  induction tokens with
  | nil =>
    intro c n st _ _ hinv
    exact hinv
  | cons t ts ih =>
    intro c n st hchain hn hinv
    obtain ⟨ht1, ht2, ht3, ht4, ht5⟩ := hchain
    rw [List.foldl_cons]
    refine ih t.stop n _ ht5 hn ?_
    obtain ⟨h1, h2, h3⟩ := hinv
    have hstart : t.start ≤ n := by
      have := tokensChain_le ht5
      omega
    have hstop : t.stop ≤ n := ht3
    rw [wrapStep]
    split
    · split
      · exact ⟨h1, fun a ha => by
          injection ha with ha2
          omega, fun b hb => by
          injection hb with hb2
          omega⟩
      · split
        · exact ⟨h1, h2, fun b hb => by
            injection hb with hb2
            omega⟩
        · exact ⟨flushLine_mem_le n st ⟨h1, h2, h3⟩, fun a ha => by
            injection ha with ha2
            omega, fun b hb => by
            injection hb with hb2
            omega⟩
    · refine ⟨?_, fun a ha => by simp at ha, fun b hb => by simp at hb⟩
      intro r hr
      rcases List.mem_append.1 hr with hm | hm
      · split at hm
        · exact flushLine_mem_le n st ⟨h1, h2, h3⟩ r hm
        · exact h1 r hm
      · have hw : t.widths.length = t.stop - t.start := by
          rw [ht4, ht1]
          exact pySlice_length widths c t.stop (by omega) (by omega)
        have := hardSplit_mem_le t.start t.widths maxWidth 0 r hm (by omega)
        omega

/-- Every range `_wrap_tokens` emits stays within the row, for arbitrary
glyph widths. -/
theorem wrapTokens_mem_le (widths : List Nat) (maxWidth n : Nat)
    (tokens : List WrapToken) (hchain : TokensChain widths 0 n tokens)
    (hn : n ≤ widths.length) :
    ∀ r ∈ wrapTokens tokens maxWidth, r.1 ≤ n ∧ r.2 ≤ n := by
  intro r hr
  simp only [wrapTokens] at hr
  split at hr
  · exact absurd hr (List.not_mem_nil r)
  · have hinv := wrap_fold_bounds widths maxWidth tokens 0 n ⟨[], none, none, 0⟩
      hchain hn ⟨fun q hq => absurd hq (List.not_mem_nil q),
        fun a ha => by simp at ha, fun b hb => by simp at hb⟩
    split at hr
    · exact flushLine_mem_le n _ hinv r hr
    · exact hinv.1 r hr

/-- A visual line is safe for a document when its row index and column
range lie within the document. -/
def VLSafe (s : TypingState) (vl : VisualLine) : Prop :=
  vl.row < s.richLines.length ∧ vl.startCol ≤ (rowAt s vl.row).length ∧
  vl.endCol ≤ (rowAt s vl.row).length ∧
  vl.startCol + vl.widths.length ≤ (rowAt s vl.row).length

theorem colForXGo_le (sc ec tx : Nat) :
    ∀ (ws : List Nat) (idx x : Nat),
      colForXGo sc ec tx ws idx x ≤ max ec (sc + idx + ws.length) := by
  intro ws
  induction ws with
  | nil =>
    intro idx x
    exact le_max_left _ _
  | cons w rest ih =>
    intro idx x
    rw [colForXGo]
    split
    · exact le_trans (by omega) (le_max_right ec (sc + idx + (w :: rest).length))
    · rw [show sc + idx + (w :: rest).length = sc + (idx + 1) + rest.length by
        simp
        omega]
      exact ih (idx + 1) (x + w)

theorem colForX_le (s : TypingState) (vl : VisualLine) (hsafe : VLSafe s vl)
    (tx : Nat) : colForX vl tx ≤ (rowAt s vl.row).length := by
  rw [colForX]
  split
  · exact hsafe.2.1
  · refine le_trans (colForXGo_le vl.startCol vl.endCol tx vl.widths 0 0) ?_
    exact max_le hsafe.2.2.1 (by have := hsafe.2.2.2; omega)

/-- Every visual line `_build_visual_lines` produces is safe, for any
glyph measures. -/
theorem buildVisualLines_safe (env : TypingEnv) (s : TypingState)
    (hcr : s.cursorRow < s.richLines.length) :
    ∀ vl ∈ buildVisualLines env s, VLSafe s vl := by
  intro vl hvl
  simp only [buildVisualLines] at hvl
  split at hvl
  · rw [List.mem_singleton] at hvl
    subst hvl
    exact ⟨hcr, by simp, by simp, by simp⟩
  · obtain ⟨p, hp, hvlp⟩ := List.mem_flatMap.1 hvl
    obtain ⟨i, row, rfl⟩ : ∃ i row, p = (i, row) := ⟨p.1, p.2, rfl⟩
    have hget : s.richLines[i]? = some row := List.mem_enum_iff_getElem?.1 hp
    have hi : i < s.richLines.length := by
      have := List.getElem?_eq_some_iff.1 hget
      exact this.1
    have hrow : rowAt s i = row := by
      rw [rowAt, List.getD_eq_getElem?_getD, hget]
      rfl
    simp only at hvlp
    split at hvlp
    · rw [List.mem_singleton] at hvlp
      subst hvlp
      exact ⟨hi, by simp, by simp, by simp⟩
    · rename_i hrowne
      rw [List.mem_map] at hvlp
      obtain ⟨r, hr, rfl⟩ := hvlp
      have hchain := tokenizeRow_chain env.isSp row (row.map env.measure)
        hrowne (List.length_map row env.measure)
      have hbounds := wrapTokens_mem_le (row.map env.measure)
        (wrapMaxWidth env) row.length _
        (by rw [show row.length = (row.map env.measure).length by simp] at hchain ⊢
            exact hchain)
        (by simp) r hr
      have hlenw : (pySlice (row.map env.measure) r.1 r.2).length
          = min r.2 row.length - r.1 := by
        simp [pySlice]
      refine ⟨hi, ?_, ?_, ?_⟩
      · show r.1 ≤ (rowAt s i).length
        rw [hrow]
        exact hbounds.1
      · show r.2 ≤ (rowAt s i).length
        rw [hrow]
        exact hbounds.2
      · show r.1 + (pySlice (row.map env.measure) r.1 r.2).length
          ≤ (rowAt s i).length
        rw [hrow, hlenw]
        have := hbounds.1
        have := hbounds.2
        omega

/-- `op` undoes a document `rows` to `rows'`: the undo branch applied to
any state holding `rows` yields `rows'` (the branch reads only the rows). -/
def UndoStep (rows : List (List Glyph)) (op : EditOp)
    (rows' : List (List Glyph)) : Prop :=
  ∀ s1 : TypingState, s1.richLines = rows → (undoBranch s1 op).richLines = rows'

/-- The undo stack is coherent with the document: popping records from the
top (the list's end) steps through well-formed documents with in-range
recorded cursors. -/
inductive StackOK : List (List Glyph) → List EditOp → Prop where
  | nil (rows : List (List Glyph)) : StackOK rows []
  | snoc (rows : List (List Glyph)) (stack : List EditOp) (op : EditOp)
      (rows' : List (List Glyph)) (hstep : UndoStep rows op rows')
      (hne : rows' ≠ []) (hrow : op.cursorRow < rows'.length)
      (hcol : op.cursorCol ≤ (rows'.getD op.cursorRow []).length)
      (hrest : StackOK rows' stack) : StackOK rows (stack ++ [op])

/-- Evicting the oldest record (`pop(0)`) keeps the stack coherent. -/
theorem StackOK_eraseIdx_zero :
    ∀ {rows : List (List Glyph)} {st : List EditOp}, StackOK rows st →
      StackOK rows (st.eraseIdx 0) := by
  intro rows st h
  induction h with
  | nil rows => exact StackOK.nil rows
  | snoc rows stack op rows' hstep hne hrow hcol hrest ih =>
    cases stack with
    | nil => exact StackOK.nil rows
    | cons s0 st2 =>
      exact StackOK.snoc rows st2 op rows' hstep hne hrow hcol ih

theorem StackOK_cappedAppend {rows rows' : List (List Glyph)}
    {stack : List EditOp} {op : EditOp} (cap : Nat)
    (hstep : UndoStep rows op rows') (hne : rows' ≠ [])
    (hrow : op.cursorRow < rows'.length)
    (hcol : op.cursorCol ≤ (rows'.getD op.cursorRow []).length)
    (hrest : StackOK rows' stack) :
    StackOK rows (cappedAppend cap stack op) := by
  have hbase : StackOK rows (stack ++ [op]) :=
    StackOK.snoc rows stack op rows' hstep hne hrow hcol hrest
  rw [cappedAppend]
  show StackOK rows (if (stack ++ [op]).length > cap
    then (stack ++ [op]).eraseIdx 0 else stack ++ [op])
  split
  · exact StackOK_eraseIdx_zero hbase
  · exact hbase

theorem StackOK_pop {rows : List (List Glyph)} {stack : List EditOp}
    {op : EditOp} (h : StackOK rows stack)
    (hlast : stack.getLast? = some op) :
    ∃ rows', UndoStep rows op rows' ∧ rows' ≠ [] ∧
      op.cursorRow < rows'.length ∧
      op.cursorCol ≤ (rows'.getD op.cursorRow []).length ∧
      StackOK rows' stack.dropLast := by
  cases h with
  | nil => simp at hlast
  | snoc rows stack2 op2 rows' hstep hne hrow hcol hrest =>
    rw [List.getLast?_concat] at hlast
    injection hlast with heq
    subst heq
    rw [List.dropLast_concat]
    exact ⟨rows', hstep, hne, hrow, hcol, hrest⟩

theorem undoStep_insert_glyph (s : TypingState) (c : String)
    (hrow : s.cursorRow < s.richLines.length)
    (hcol : s.cursorCol ≤ (rowAt s s.cursorRow).length) :
    UndoStep (s.richLines.set s.cursorRow (pyInsert (rowAt s s.cursorRow)
        s.cursorCol ⟨c, s.currentTextSize, s.textStyle⟩))
      ⟨"insert", s.cursorRow, s.cursorCol,
        some ⟨c, s.currentTextSize, s.textStyle⟩, false,
        s.cursorRow, s.cursorCol⟩
      s.richLines := by
  intro u hu
  have hr : rowAt u s.cursorRow
      = pyInsert (rowAt s s.cursorRow) s.cursorCol
          ⟨c, s.currentTextSize, s.textStyle⟩ := by
    rw [rowAt, hu]
    exact getD_set_self [] s.richLines s.cursorRow _ hrow
  have hcol2 : s.cursorCol < (rowAt u s.cursorRow).length := by
    rw [hr, pyInsert_length _ _ _ hcol]
    omega
  rw [undoBranch_insert_glyph u s.cursorRow s.cursorCol
    (some ⟨c, s.currentTextSize, s.textStyle⟩) s.cursorRow s.cursorCol hcol2]
  rw [hr, pyInsert_eraseIdx _ _ _ hcol, hu, List.set_set]
  exact set_getD_self [] s.richLines s.cursorRow hrow

theorem undoStep_insert_newline (s : TypingState)
    (hrow : s.cursorRow < s.richLines.length) :
    UndoStep (pyInsert (s.richLines.set s.cursorRow
        ((rowAt s s.cursorRow).take s.cursorCol)) (s.cursorRow + 1)
        ((rowAt s s.cursorRow).drop s.cursorCol))
      ⟨"insert", s.cursorRow, s.cursorCol, none, true,
        s.cursorRow, s.cursorCol⟩
      s.richLines := by
  intro u hu
  have hlen : u.richLines.length = s.richLines.length + 1 := by
    rw [hu, pyInsert_length _ _ _ (by rw [List.length_set]; omega),
      List.length_set]
  have hrow2 : s.cursorRow + 1 < u.richLines.length := by omega
  rw [undoBranch_insert_newline u s.cursorRow s.cursorCol none
    s.cursorRow s.cursorCol hrow2]
  have hga : rowAt u s.cursorRow = (rowAt s s.cursorRow).take s.cursorCol := by
    rw [rowAt, hu]
    rw [pyInsert_getD_lt []
      (s.richLines.set s.cursorRow ((rowAt s s.cursorRow).take s.cursorCol))
      (s.cursorRow + 1) s.cursorRow ((rowAt s s.cursorRow).drop s.cursorCol)
      (by omega) (by rw [List.length_set]; omega)]
    exact getD_set_self [] s.richLines s.cursorRow _ hrow
  have hgb : rowAt u (s.cursorRow + 1)
      = (rowAt s s.cursorRow).drop s.cursorCol := by
    rw [rowAt, hu]
    exact pyInsert_getD_self [] _ (s.cursorRow + 1) _
      (by rw [List.length_set]; omega)
  rw [hga, hgb, hu, List.take_append_drop]
  exact pyInsert_set_eraseIdx_inverse [] s.richLines s.cursorRow _ _ hrow

theorem undoStep_delete_glyph (s : TypingState) (h0 : 0 < s.cursorCol)
    (hrow : s.cursorRow < s.richLines.length)
    (hcol1 : s.cursorCol - 1 < (rowAt s s.cursorRow).length) :
    UndoStep (s.richLines.set s.cursorRow
        ((rowAt s s.cursorRow).eraseIdx (s.cursorCol - 1)))
      ⟨"delete", s.cursorRow, s.cursorCol - 1,
        some ((rowAt s s.cursorRow).getD (s.cursorCol - 1) defaultGlyph),
        false, s.cursorRow, s.cursorCol⟩
      s.richLines := by
  intro u hu
  have hr : rowAt u s.cursorRow
      = (rowAt s s.cursorRow).eraseIdx (s.cursorCol - 1) := by
    rw [rowAt, hu]
    exact getD_set_self [] s.richLines s.cursorRow _ hrow
  rw [undoBranch_delete_glyph u s.cursorRow (s.cursorCol - 1)
    ((rowAt s s.cursorRow).getD (s.cursorCol - 1) defaultGlyph)
    s.cursorRow s.cursorCol]
  rw [hr, hu, List.set_set, pyInsert_getD_eraseIdx defaultGlyph _ _ hcol1]
  exact set_getD_self [] s.richLines s.cursorRow hrow

theorem undoStep_delete_newline (s : TypingState) (hr0 : 0 < s.cursorRow)
    (hrow : s.cursorRow < s.richLines.length) :
    UndoStep ((s.richLines.set (s.cursorRow - 1) (rowAt s (s.cursorRow - 1)
        ++ rowAt s (s.cursorRow - 1 + 1))).eraseIdx (s.cursorRow - 1 + 1))
      ⟨"delete", s.cursorRow - 1, (rowAt s (s.cursorRow - 1)).length, none,
        true, s.cursorRow, s.cursorCol⟩
      s.richLines := by
  intro u hu
  rw [undoBranch_delete_newline u (s.cursorRow - 1)
    (rowAt s (s.cursorRow - 1)).length none s.cursorRow s.cursorCol]
  have hm : rowAt u (s.cursorRow - 1)
      = rowAt s (s.cursorRow - 1) ++ rowAt s (s.cursorRow - 1 + 1) := by
    rw [rowAt, hu]
    rw [eraseIdx_getD_lt []
      (s.richLines.set (s.cursorRow - 1)
        (rowAt s (s.cursorRow - 1) ++ rowAt s (s.cursorRow - 1 + 1)))
      (s.cursorRow - 1 + 1) (s.cursorRow - 1) (by omega)]
    exact getD_set_self [] s.richLines (s.cursorRow - 1) _ (by omega)
  have htk : (rowAt u (s.cursorRow - 1)).take
      (rowAt s (s.cursorRow - 1)).length = rowAt s (s.cursorRow - 1) := by
    rw [hm]
    exact List.take_left _ _
  have hdr : (rowAt u (s.cursorRow - 1)).drop
      (rowAt s (s.cursorRow - 1)).length = rowAt s (s.cursorRow - 1 + 1) := by
    rw [hm]
    exact List.drop_left _ _
  rw [htk, hdr, hu]
  exact eraseIdx_set_pyInsert_inverse [] s.richLines (s.cursorRow - 1) _
    (by omega)

/-- The typing-app well-formedness invariant as a whole: the document is
well-formed and the undo stack is coherent with it. -/
def TypingOK (s : TypingState) : Prop :=
  TypingWF s ∧ StackOK s.richLines s.undoStack

theorem removeNewlineAt_fields (s : TypingState) (r : Nat) :
    (removeNewlineAt s r).cursorRow = s.cursorRow ∧
    (removeNewlineAt s r).cursorCol = s.cursorCol ∧
    (removeNewlineAt s r).undoStack = s.undoStack := by
  rw [removeNewlineAt]
  split
  · exact ⟨rfl, rfl, rfl⟩
  · exact ⟨rfl, rfl, rfl⟩

theorem removeGlyphAt_fields (s : TypingState) (r c : Nat) :
    ((removeGlyphAt s r c).1).undoStack = s.undoStack := by
  rw [removeGlyphAt]
  split
  · rfl
  · rfl

theorem undoBranch_undoStack (s1 : TypingState) (op : EditOp) :
    (undoBranch s1 op).undoStack = s1.undoStack := by
  rw [undoBranch]
  split
  · split
    · exact (removeNewlineAt_fields s1 op.row).2.2
    · exact removeGlyphAt_fields s1 op.row op.col
  · split
    · rfl
    · split
      · rfl
      · rfl

theorem typingOK_insertChar (s : TypingState) (c : String)
    (hok : TypingOK s) : TypingOK (insertChar s c) := by
  obtain ⟨⟨hne, hrow, hcol⟩, hstk⟩ := hok
  by_cases hc : c = "\n"
  · subst hc
    rw [insertChar_newline_eq s]
    refine ⟨⟨?_, ?_, ?_⟩, ?_⟩
    · show pyInsert (s.richLines.set s.cursorRow
          ((rowAt s s.cursorRow).take s.cursorCol)) (s.cursorRow + 1)
          ((rowAt s s.cursorRow).drop s.cursorCol) ≠ []
      apply List.ne_nil_of_length_pos
      rw [pyInsert_length _ _ _ (by rw [List.length_set]; omega)]
      omega
    · show s.cursorRow + 1 < (pyInsert (s.richLines.set s.cursorRow
          ((rowAt s s.cursorRow).take s.cursorCol)) (s.cursorRow + 1)
          ((rowAt s s.cursorRow).drop s.cursorCol)).length
      rw [pyInsert_length _ _ _ (by rw [List.length_set]; omega),
        List.length_set]
      omega
    · exact Nat.zero_le _
    · show StackOK (pyInsert (s.richLines.set s.cursorRow
          ((rowAt s s.cursorRow).take s.cursorCol)) (s.cursorRow + 1)
          ((rowAt s s.cursorRow).drop s.cursorCol))
        (cappedAppend typingUndoMaxDepth s.undoStack
          ⟨"insert", s.cursorRow, s.cursorCol, none, true,
            s.cursorRow, s.cursorCol⟩)
      exact StackOK_cappedAppend typingUndoMaxDepth
        (undoStep_insert_newline s hrow) hne hrow hcol hstk
  · rw [insertChar_glyph_eq s c hc]
    refine ⟨⟨?_, ?_, ?_⟩, ?_⟩
    · show s.richLines.set s.cursorRow (pyInsert (rowAt s s.cursorRow)
          s.cursorCol ⟨c, s.currentTextSize, s.textStyle⟩) ≠ []
      apply List.ne_nil_of_length_pos
      rw [List.length_set]
      exact List.length_pos.2 hne
    · show s.cursorRow < (s.richLines.set s.cursorRow
          (pyInsert (rowAt s s.cursorRow) s.cursorCol
            ⟨c, s.currentTextSize, s.textStyle⟩)).length
      rw [List.length_set]
      exact hrow
    · show s.cursorCol + 1 ≤ ((s.richLines.set s.cursorRow
          (pyInsert (rowAt s s.cursorRow) s.cursorCol
            ⟨c, s.currentTextSize, s.textStyle⟩)).getD s.cursorRow []).length
      rw [getD_set_self [] _ _ _ hrow, pyInsert_length _ _ _ hcol]
      omega
    · show StackOK (s.richLines.set s.cursorRow (pyInsert (rowAt s s.cursorRow)
          s.cursorCol ⟨c, s.currentTextSize, s.textStyle⟩))
        (cappedAppend typingUndoMaxDepth s.undoStack
          ⟨"insert", s.cursorRow, s.cursorCol,
            some ⟨c, s.currentTextSize, s.textStyle⟩, false,
            s.cursorRow, s.cursorCol⟩)
      exact StackOK_cappedAppend typingUndoMaxDepth
        (undoStep_insert_glyph s c hrow hcol) hne hrow hcol hstk

/-- `deleteBackward_newline_eq` with the surviving cursor fields spelled
out in terms of the pre-edit state. -/
theorem deleteBackward_newline_eq2 (s : TypingState) (h0 : s.cursorCol = 0)
    (hr0 : 0 < s.cursorRow) :
    deleteBackward s =
      (markCursorXTargetDirty { removeNewlineAt s (s.cursorRow - 1) with
          cursorRow := s.cursorRow - 1,
          cursorCol := (rowAt s (s.cursorRow - 1)).length },
       some ⟨"delete", s.cursorRow - 1, (rowAt s (s.cursorRow - 1)).length,
         none, true, s.cursorRow, s.cursorCol⟩) := by
  rw [deleteBackward_newline_eq s h0 hr0]
  rw [(removeNewlineAt_fields s (s.cursorRow - 1)).1]

theorem typingOK_backspace (s : TypingState) (hok : TypingOK s) :
    TypingOK (backspaceKey s) := by
  obtain ⟨⟨hne, hrow, hcol⟩, hstk⟩ := hok
  by_cases hz : s.cursorRow = 0 ∧ s.cursorCol = 0
  · have hDB : deleteBackward s = (s, none) := by
      rw [deleteBackward, if_pos hz]
    rw [backspaceKey, hDB]
    exact ⟨⟨hne, hrow, hcol⟩, hstk⟩
  · by_cases h0 : 0 < s.cursorCol
    · have hcol1 : s.cursorCol - 1 < (rowAt s s.cursorRow).length := by omega
      rw [backspaceKey_eq s _ _ (deleteBackward_glyph_eq s h0 hcol1)]
      refine ⟨⟨?_, ?_, ?_⟩, ?_⟩
      · show s.richLines.set s.cursorRow
            ((rowAt s s.cursorRow).eraseIdx (s.cursorCol - 1)) ≠ []
        apply List.ne_nil_of_length_pos
        rw [List.length_set]
        exact List.length_pos.2 hne
      · show s.cursorRow < (s.richLines.set s.cursorRow
            ((rowAt s s.cursorRow).eraseIdx (s.cursorCol - 1))).length
        rw [List.length_set]
        exact hrow
      · show s.cursorCol - 1 ≤ ((s.richLines.set s.cursorRow
            ((rowAt s s.cursorRow).eraseIdx (s.cursorCol - 1))).getD
              s.cursorRow []).length
        rw [getD_set_self [] _ _ _ hrow,
          List.length_eraseIdx_of_lt hcol1]
        omega
      · show StackOK (s.richLines.set s.cursorRow
            ((rowAt s s.cursorRow).eraseIdx (s.cursorCol - 1)))
          (cappedAppend typingUndoMaxDepth s.undoStack
            ⟨"delete", s.cursorRow, s.cursorCol - 1,
              some ((rowAt s s.cursorRow).getD (s.cursorCol - 1) defaultGlyph),
              false, s.cursorRow, s.cursorCol⟩)
        exact StackOK_cappedAppend typingUndoMaxDepth
          (undoStep_delete_glyph s h0 hrow hcol1) hne hrow hcol hstk
    · have hc0 : s.cursorCol = 0 := by omega
      have hr0 : 0 < s.cursorRow := by omega
      rw [backspaceKey_eq s _ _ (deleteBackward_newline_eq2 s hc0 hr0)]
      have hrl := removeNewlineAt_richLines s (s.cursorRow - 1) (by omega)
      have hus := (removeNewlineAt_fields s (s.cursorRow - 1)).2.2
      have hmerge : ((s.richLines.set (s.cursorRow - 1)
          (rowAt s (s.cursorRow - 1) ++ rowAt s (s.cursorRow - 1 + 1))).eraseIdx
            (s.cursorRow - 1 + 1)).getD (s.cursorRow - 1) []
          = rowAt s (s.cursorRow - 1) ++ rowAt s (s.cursorRow - 1 + 1) := by
        rw [eraseIdx_getD_lt []
          (s.richLines.set (s.cursorRow - 1)
            (rowAt s (s.cursorRow - 1) ++ rowAt s (s.cursorRow - 1 + 1)))
          (s.cursorRow - 1 + 1) (s.cursorRow - 1) (by omega)]
        exact getD_set_self [] s.richLines (s.cursorRow - 1) _ (by omega)
      have hlen : ((s.richLines.set (s.cursorRow - 1)
          (rowAt s (s.cursorRow - 1) ++ rowAt s (s.cursorRow - 1 + 1))).eraseIdx
            (s.cursorRow - 1 + 1)).length = s.richLines.length - 1 := by
        rw [List.length_eraseIdx_of_lt (by rw [List.length_set]; omega),
          List.length_set]
      refine ⟨⟨?_, ?_, ?_⟩, ?_⟩
      · show (removeNewlineAt s (s.cursorRow - 1)).richLines ≠ []
        rw [hrl]
        apply List.ne_nil_of_length_pos
        rw [hlen]
        omega
      · show s.cursorRow - 1
            < (removeNewlineAt s (s.cursorRow - 1)).richLines.length
        rw [hrl, hlen]
        omega
      · show (rowAt s (s.cursorRow - 1)).length
            ≤ ((removeNewlineAt s (s.cursorRow - 1)).richLines.getD
                (s.cursorRow - 1) []).length
        rw [hrl, hmerge]
        simp
      · show StackOK (removeNewlineAt s (s.cursorRow - 1)).richLines
          (cappedAppend typingUndoMaxDepth
            (removeNewlineAt s (s.cursorRow - 1)).undoStack
            ⟨"delete", s.cursorRow - 1, (rowAt s (s.cursorRow - 1)).length,
              none, true, s.cursorRow, s.cursorCol⟩)
        rw [hrl, hus]
        exact StackOK_cappedAppend typingUndoMaxDepth
          (undoStep_delete_newline s hr0 hrow) hne hrow hcol hstk

theorem typingOK_undo (s : TypingState) (hok : TypingOK s) :
    TypingOK (typingUndo s) := by
  cases hlast : s.undoStack.getLast? with
  | none =>
    have hnil : s.undoStack = [] := by
      rwa [List.getLast?_eq_none_iff] at hlast
    rw [typingUndo_empty s hnil]
    exact hok
  | some op =>
    obtain ⟨rows', hstep, hne', hrow', hcol', hrest⟩ :=
      StackOK_pop hok.2 hlast
    rw [typingUndo_getLast s op hlast]
    have hrl : (undoBranch { s with undoStack := s.undoStack.dropLast }
        op).richLines = rows' := hstep _ rfl
    refine ⟨⟨?_, ?_, ?_⟩, ?_⟩
    · show (undoBranch { s with undoStack := s.undoStack.dropLast }
          op).richLines ≠ []
      rw [hrl]
      exact hne'
    · show op.cursorRow < (undoBranch { s with
          undoStack := s.undoStack.dropLast } op).richLines.length
      rw [hrl]
      exact hrow'
    · show op.cursorCol ≤ ((undoBranch { s with
          undoStack := s.undoStack.dropLast } op).richLines.getD
            op.cursorRow []).length
      rw [hrl]
      exact hcol'
    · show StackOK (undoBranch { s with undoStack := s.undoStack.dropLast }
          op).richLines (undoBranch { s with
            undoStack := s.undoStack.dropLast } op).undoStack
      rw [hrl, undoBranch_undoStack]
      exact hrest

theorem typingOK_left (s : TypingState) (hok : TypingOK s) :
    TypingOK (moveCursorLeft s) := by
  obtain ⟨⟨hne, hrow, hcol⟩, hstk⟩ := hok
  rw [moveCursorLeft]
  split
  · exact ⟨⟨hne, hrow,
      by show s.cursorCol - 1 ≤ (rowAt s s.cursorRow).length; omega⟩, hstk⟩
  · split
    · refine ⟨⟨hne,
        by show s.cursorRow - 1 < s.richLines.length; omega, ?_⟩, hstk⟩
      show (rowAt s (s.cursorRow - 1)).length
        ≤ (rowAt s (s.cursorRow - 1)).length
      exact Nat.le_refl _
    · exact ⟨⟨hne, hrow, hcol⟩, hstk⟩

theorem typingOK_right (s : TypingState) (hok : TypingOK s) :
    TypingOK (moveCursorRight s) := by
  obtain ⟨⟨hne, hrow, hcol⟩, hstk⟩ := hok
  rw [moveCursorRight]
  split
  · rename_i hlt
    exact ⟨⟨hne, hrow,
      by show s.cursorCol + 1 ≤ (rowAt s s.cursorRow).length; omega⟩, hstk⟩
  · split
    · rename_i hlt2
      refine ⟨⟨hne,
        by show s.cursorRow + 1 < s.richLines.length; omega,
        Nat.zero_le _⟩, hstk⟩
    · exact ⟨⟨hne, hrow, hcol⟩, hstk⟩

theorem typingOK_upLogical (s : TypingState) (hok : TypingOK s) :
    TypingOK (moveCursorUp s) := by
  obtain ⟨⟨hne, hrow, hcol⟩, hstk⟩ := hok
  rw [moveCursorUp]
  split
  · exact ⟨⟨hne, hrow, hcol⟩, hstk⟩
  · refine ⟨⟨hne,
      by show s.cursorRow - 1 < s.richLines.length; omega, ?_⟩, hstk⟩
    show min s.cursorCol (rowAt s (s.cursorRow - 1)).length
      ≤ (rowAt s (s.cursorRow - 1)).length
    exact Nat.min_le_right _ _

theorem typingOK_downLogical (s : TypingState) (hok : TypingOK s) :
    TypingOK (moveCursorDown s) := by
  obtain ⟨⟨hne, hrow, hcol⟩, hstk⟩ := hok
  rw [moveCursorDown]
  split
  · exact ⟨⟨hne, hrow, hcol⟩, hstk⟩
  · rename_i hlt
    refine ⟨⟨hne,
      by show s.cursorRow + 1 < s.richLines.length; omega, ?_⟩, hstk⟩
    show min s.cursorCol (rowAt s (s.cursorRow + 1)).length
      ≤ (rowAt s (s.cursorRow + 1)).length
    exact Nat.min_le_right _ _

theorem typingOK_home (s : TypingState) (hok : TypingOK s) :
    TypingOK (moveCursorHome s) := by
  obtain ⟨⟨hne, hrow, hcol⟩, hstk⟩ := hok
  exact ⟨⟨hne, hrow, Nat.zero_le _⟩, hstk⟩

theorem typingOK_toEnd (s : TypingState) (hok : TypingOK s) :
    TypingOK (moveCursorEnd s) := by
  obtain ⟨⟨hne, hrow, hcol⟩, hstk⟩ := hok
  exact ⟨⟨hne, hrow, Nat.le_refl _⟩, hstk⟩

theorem typingOK_pageUp (s : TypingState) (n : Nat) (hok : TypingOK s) :
    TypingOK (moveCursorPageUp s n) := by
  obtain ⟨⟨hne, hrow, hcol⟩, hstk⟩ := hok
  rw [moveCursorPageUp]
  split
  · exact ⟨⟨hne, hrow, hcol⟩, hstk⟩
  · refine ⟨⟨hne,
      by show s.cursorRow - n < s.richLines.length; omega, ?_⟩, hstk⟩
    show min s.cursorCol (rowAt s (s.cursorRow - n)).length
      ≤ (rowAt s (s.cursorRow - n)).length
    exact Nat.min_le_right _ _

theorem typingOK_pageDown (s : TypingState) (n : Nat) (hok : TypingOK s) :
    TypingOK (moveCursorPageDown s n) := by
  obtain ⟨⟨hne, hrow, hcol⟩, hstk⟩ := hok
  rw [moveCursorPageDown]
  split
  · exact ⟨⟨hne, hrow, hcol⟩, hstk⟩
  · refine ⟨⟨hne, ?_, ?_⟩, hstk⟩
    · show min (s.richLines.length - 1) (s.cursorRow + n) < s.richLines.length
      have := List.length_pos.2 hne
      omega
    · show min s.cursorCol
          (rowAt s (min (s.richLines.length - 1) (s.cursorRow + n))).length
        ≤ (rowAt s (min (s.richLines.length - 1) (s.cursorRow + n))).length
      exact Nat.min_le_right _ _

theorem typingOK_setSize (s : TypingState) (n : Nat) (hok : TypingOK s) :
    TypingOK (setTextSize s n) := by
  obtain ⟨⟨hne, hrow, hcol⟩, hstk⟩ := hok
  exact ⟨⟨hne, hrow, hcol⟩, hstk⟩

theorem typingOK_setStyle (s : TypingState) (st : String) (hok : TypingOK s) :
    TypingOK (setTextStyle s st) := by
  obtain ⟨⟨hne, hrow, hcol⟩, hstk⟩ := hok
  exact ⟨⟨hne, hrow, hcol⟩, hstk⟩

theorem typingOK_clear (s : TypingState) : TypingOK (clearText s) :=
  ⟨⟨by simp [clearText], by simp [clearText], by simp [clearText, rowAt]⟩,
    StackOK.nil _⟩

/-- Visual cursor movement lands on a column within the target visual
line's logical row. -/
theorem typingOK_moveVisual (s : TypingState) (lines : List VisualLine)
    (hok : TypingOK s) (hsafe : ∀ vl ∈ lines, VLSafe s vl) :
    TypingOK (moveCursorUpVisual s lines) ∧
    TypingOK (moveCursorDownVisual s lines) := by
  obtain ⟨⟨hne, hrow, hcol⟩, hstk⟩ := hok
  have htarget : ∀ (k : Nat),
      (lines.getD k defaultVisualLine).row < s.richLines.length ∧
      ∀ tx, colForX (lines.getD k defaultVisualLine) tx
        ≤ (rowAt s (lines.getD k defaultVisualLine).row).length := by
    intro k
    by_cases hk : k < lines.length
    · have hmem : lines.getD k defaultVisualLine ∈ lines := by
        rw [List.getD_eq_getElem _ _ hk]
        exact List.getElem_mem hk
      have hs := hsafe _ hmem
      exact ⟨hs.1, fun tx => colForX_le s _ hs tx⟩
    · rw [List.getD_eq_default _ _ (by omega)]
      refine ⟨List.length_pos.2 hne, fun tx => ?_⟩
      rw [colForX, if_pos (show defaultVisualLine.widths = [] from rfl)]
      exact Nat.zero_le _
  constructor
  · simp only [moveCursorUpVisual]
    split
    · exact ⟨⟨hne, hrow, hcol⟩, hstk⟩
    · split
      · split
        · exact ⟨⟨hne, hrow, hcol⟩, hstk⟩
        · exact ⟨⟨hne, hrow, hcol⟩, hstk⟩
      · split
        · exact ⟨⟨hne, (htarget _).1, (htarget _).2 _⟩, hstk⟩
        · exact ⟨⟨hne, (htarget _).1, (htarget _).2 _⟩, hstk⟩
  · simp only [moveCursorDownVisual]
    split
    · exact ⟨⟨hne, hrow, hcol⟩, hstk⟩
    · split
      · split
        · exact ⟨⟨hne, hrow, hcol⟩, hstk⟩
        · exact ⟨⟨hne, hrow, hcol⟩, hstk⟩
      · split
        · exact ⟨⟨hne, (htarget _).1, (htarget _).2 _⟩, hstk⟩
        · exact ⟨⟨hne, (htarget _).1, (htarget _).2 _⟩, hstk⟩

theorem syncAllTextLines_richLines (t : TypingState) :
    (syncAllTextLines t).richLines
      = if t.richLines = [] then [[]] else t.richLines := by
  rw [syncAllTextLines]
  by_cases hc : t.richLines = []
  · rw [if_pos hc]
    rw [if_pos (by rw [hc]; rfl)]
  · rw [if_neg hc]
    rw [if_neg (by
      intro hemp
      rw [List.isEmpty_iff, List.map_eq_nil_iff] at hemp
      exact hc hemp)]

theorem syncAllTextLines_undoStack (t : TypingState) :
    (syncAllTextLines t).undoStack = t.undoStack := by
  rw [syncAllTextLines]
  split
  · rfl
  · rfl

/-- The deep copy `_apply_recall` makes of the recalled rows. -/
def cloneRows (rows : List (List Glyph)) : List (List Glyph) :=
  rows.map (fun line => line.map (fun g => ⟨g.char, g.size, g.style⟩))

theorem typingOK_recall (s : TypingState) (item : RecallSession)
    (hok : TypingOK s) : TypingOK (applyRecall s item) := by
  rw [applyRecall]
  split
  · exact hok
  · have hrl := syncAllTextLines_richLines
      { s with richLines := cloneRows item.richLines }
    have hne2 : (syncAllTextLines
        { s with richLines := cloneRows item.richLines }).richLines ≠ [] := by
      rw [hrl]
      split
      · simp
      · rename_i hc
        exact hc
    refine ⟨⟨hne2, ?_, ?_⟩, StackOK.nil _⟩
    · show (syncAllTextLines
          { s with richLines := cloneRows item.richLines }).richLines.length - 1
        < (syncAllTextLines
            { s with richLines := cloneRows item.richLines }).richLines.length
      have := List.length_pos.2 hne2
      omega
    · show (if (syncAllTextLines
            { s with richLines := cloneRows item.richLines }).richLines ≠ []
          then (rowAt (syncAllTextLines
              { s with richLines := cloneRows item.richLines })
            ((syncAllTextLines
              { s with richLines := cloneRows item.richLines }).richLines.length
                - 1)).length
          else 0)
        ≤ (rowAt (syncAllTextLines
            { s with richLines := cloneRows item.richLines })
            ((syncAllTextLines
              { s with richLines := cloneRows item.richLines }).richLines.length
                - 1)).length
      split
      all_goals omega

theorem maybeUpdateCursorXTarget_fields (s : TypingState)
    (info : Nat × Nat × Nat × Nat) :
    (maybeUpdateCursorXTarget s info).richLines = s.richLines ∧
    (maybeUpdateCursorXTarget s info).cursorRow = s.cursorRow ∧
    (maybeUpdateCursorXTarget s info).cursorCol = s.cursorCol ∧
    (maybeUpdateCursorXTarget s info).undoStack = s.undoStack := by
  rw [maybeUpdateCursorXTarget]
  split
  · exact ⟨rfl, rfl, rfl, rfl⟩
  · exact ⟨rfl, rfl, rfl, rfl⟩

theorem ensureCursorVisible_fields (env : TypingEnv) (s : TypingState)
    (lines : List VisualLine) (info : Nat × Nat × Nat × Nat) :
    (ensureCursorVisible env s lines info).richLines = s.richLines ∧
    (ensureCursorVisible env s lines info).cursorRow = s.cursorRow ∧
    (ensureCursorVisible env s lines info).cursorCol = s.cursorCol ∧
    (ensureCursorVisible env s lines info).undoStack = s.undoStack := by
  rw [ensureCursorVisible]
  split
  · exact ⟨rfl, rfl, rfl, rfl⟩
  · exact ⟨rfl, rfl, rfl, rfl⟩

theorem typingOK_render (env : TypingEnv) (s : TypingState)
    (hok : TypingOK s) : TypingOK (renderUpdate env s) := by
  obtain ⟨⟨hne, hrow, hcol⟩, hstk⟩ := hok
  rw [renderUpdate]
  obtain ⟨e1, e2, e3, e4⟩ := ensureCursorVisible_fields env
    (maybeUpdateCursorXTarget s (cursorVisualInfo s (buildVisualLines env s)))
    (buildVisualLines env s) (cursorVisualInfo s (buildVisualLines env s))
  obtain ⟨m1, m2, m3, m4⟩ := maybeUpdateCursorXTarget_fields s
    (cursorVisualInfo s (buildVisualLines env s))
  refine ⟨⟨?_, ?_, ?_⟩, ?_⟩
  · rw [e1, m1]
    exact hne
  · rw [e2, m2, e1, m1]
    exact hrow
  · show (ensureCursorVisible env _ _ _).cursorCol
      ≤ ((ensureCursorVisible env _ _ _).richLines.getD
          (ensureCursorVisible env _ _ _).cursorRow []).length
    rw [e3, m3, e2, m2, e1, m1]
    exact hcol
  · show StackOK (ensureCursorVisible env _ _ _).richLines
      (ensureCursorVisible env _ _ _).undoStack
    rw [e1, m1, e4, m4]
    exact hstk

/-- The state-mutating typing-app events dispatched by the event loop of
`TypingApp.run`: printable-character insertion, backspace, undo, the eight
cursor movements (arrows use the visual variants over freshly built visual
lines, page keys use `_lines_per_page`), the size/style buttons, recall
selection, New, and a render frame. -/
inductive TypingAction where
  | insert (c : String)
  | backspace
  | undo
  | left
  | right
  | upVisual
  | downVisual
  | home
  | toEnd
  | pageUp
  | pageDown
  | setSize (n : Nat)
  | setStyle (st : String)
  | recallSession (item : RecallSession)
  | newDoc
  | render

/-- The handler the event loop runs for each `TypingAction`. -/
def typingStep (env : TypingEnv) (s : TypingState) :
    TypingAction → TypingState
  | TypingAction.insert c => insertChar s c
  | TypingAction.backspace => backspaceKey s
  | TypingAction.undo => typingUndo s
  | TypingAction.left => moveCursorLeft s
  | TypingAction.right => moveCursorRight s
  | TypingAction.upVisual => moveCursorUpVisual s (buildVisualLines env s)
  | TypingAction.downVisual => moveCursorDownVisual s (buildVisualLines env s)
  | TypingAction.home => moveCursorHome s
  | TypingAction.toEnd => moveCursorEnd s
  | TypingAction.pageUp => moveCursorPageUp s (linesPerPage env s)
  | TypingAction.pageDown => moveCursorPageDown s (linesPerPage env s)
  | TypingAction.setSize n => setTextSize s n
  | TypingAction.setStyle st => setTextStyle s st
  | TypingAction.recallSession item => applyRecall s item
  | TypingAction.newDoc => clearText s
  | TypingAction.render => renderUpdate env s

/-- The document state `TypingApp.__init__` sets up. -/
def initTypingState : TypingState :=
  { richLines := [[]], lineStyles := [defaultLineStyle], textLines := [""],
    undoStack := [], cursorRow := 0, cursorCol := 0, cursorXTarget := none,
    cursorXTargetDirty := true, currentTextSize := 25, textStyle := "plain",
    textScrollY := 0 }

theorem typingOK_init : TypingOK initTypingState :=
  ⟨⟨by simp [initTypingState], by simp [initTypingState],
    by simp [initTypingState, rowAt]⟩, StackOK.nil _⟩

theorem typingOK_step (env : TypingEnv) (s : TypingState) (a : TypingAction)
    (hok : TypingOK s) : TypingOK (typingStep env s a) := by
  cases a with
  | insert c => exact typingOK_insertChar s c hok
  | backspace => exact typingOK_backspace s hok
  | undo => exact typingOK_undo s hok
  | left => exact typingOK_left s hok
  | right => exact typingOK_right s hok
  | upVisual =>
    exact (typingOK_moveVisual s (buildVisualLines env s) hok
      (buildVisualLines_safe env s hok.1.2.1)).1
  | downVisual =>
    exact (typingOK_moveVisual s (buildVisualLines env s) hok
      (buildVisualLines_safe env s hok.1.2.1)).2
  | home => exact typingOK_home s hok
  | toEnd => exact typingOK_toEnd s hok
  | pageUp => exact typingOK_pageUp s (linesPerPage env s) hok
  | pageDown => exact typingOK_pageDown s (linesPerPage env s) hok
  | setSize n => exact typingOK_setSize s n hok
  | setStyle st => exact typingOK_setStyle s st hok
  | recallSession item => exact typingOK_recall s item hok
  | newDoc => exact typingOK_clear s
  | render => exact typingOK_render env s hok

theorem typingOK_foldl (env : TypingEnv) (acts : List TypingAction) :
    ∀ (s : TypingState), TypingOK s →
      TypingOK (acts.foldl (typingStep env) s) := by
  induction acts with
  | nil => intro s hok; exact hok
  | cons a rest ih =>
    intro s hok
    rw [List.foldl_cons]
    exact ih _ (typingOK_step env s a hok)

theorem deserializeRichLines_ne_nil (payload : Json)
    (rows : List (List Glyph)) (h : deserializeRichLines payload = some rows) :
    rows ≠ [] := by
  cases payload with
  | arr rawLines =>
    rw [deserializeRichLines] at h
    split at h
    · injection h with h2
      subst h2
      split
      · simp
      · rename_i hc
        exact hc
    · exact Option.noConfusion h
  | null => exact Option.noConfusion h
  | str t => exact Option.noConfusion h
  | num n => exact Option.noConfusion h
  | obj fields => exact Option.noConfusion h

/-- C10: every typing-app operation — insertion, backspace, undo, all
cursor movements (including the visual ones driven by the wrap layout),
size/style changes, recall application, clearing via New and rendering —
preserves the well-formedness invariant (at least one row, cursor row in
range, cursor column within its row, and an undo stack whose records
replay coherently); hence any event sequence from the initial state stays
well-formed, and `_deserialize_rich_lines` never yields an empty document
(an empty payload becomes a single empty row). -/
theorem typing_ops_preserve_wf (env : TypingEnv) (s : TypingState)
    (a : TypingAction) (hok : TypingOK s) (acts : List TypingAction)
    (payload : Json) (rows : List (List Glyph)) :
    TypingOK (typingStep env s a) ∧
    TypingOK (acts.foldl (typingStep env) initTypingState) ∧
    (deserializeRichLines payload = some rows → rows ≠ []) :=
  ⟨typingOK_step env s a hok,
    typingOK_foldl env acts initTypingState typingOK_init,
    deserializeRichLines_ne_nil payload rows⟩

/-- A trivial font environment for the witness. -/
def envWf : TypingEnv :=
  ⟨fun _ => false, fun _ => 1, fun _ _ => 10, 100, 100⟩

theorem typing_ops_preserve_wf_witness :
    TypingOK initTypingState ∧
    TypingWF (typingStep envWf initTypingState (TypingAction.insert "a")) :=
  ⟨typingOK_init,
    (typing_ops_preserve_wf envWf initTypingState (TypingAction.insert "a")
      typingOK_init [] (Json.arr []) [[]]).1.1⟩

end ToddlerBox
